import Mathlib

/-!
Verification of the Retrieval & Conversation Orchestration Engine of the
data-center-news-chatbot repository.

The Python sources are embedded shallowly: strings are `List Char` (Python
`str` is a sequence of code points), machine reals used only for relevance
scores are modelled as `ℚ` (the claims settled here never depend on binary
float rounding, only on exact zero tests and order comparisons), the
relational store is explicit state, and every external call (LLM, embedding
service, vector index, system clock, datetime parsing) is a parameter of
the model.

Each definition carries a comment naming the Python function it embeds.
-/

namespace DCNews

/-! ## Python string primitives

Python `str.lower()` is modelled on the ASCII range (all keyword tables and
markers the repository compares against are ASCII); `str.strip()` strips the
characters for which `str.isspace()` holds, modelled by `pyIsSpace`. -/

/-- Characters stripped by Python `str.strip()` / matched by `str.isspace()`:
ASCII whitespace, the C1 separator controls, NEL, NBSP and the Unicode
space code points. -/
def pyIsSpace (c : Char) : Bool :=
  let n := c.toNat
  n = 0x20 || (0x9 ≤ n && n ≤ 0xd) || (0x1c ≤ n && n ≤ 0x1f) || n = 0x85 ||
  n = 0xa0 || n = 0x1680 || (0x2000 ≤ n && n ≤ 0x200a) || n = 0x2028 ||
  n = 0x2029 || n = 0x202f || n = 0x205f || n = 0x3000

/-- Python `str.lstrip()` (no argument). -/
def pyLStrip (s : List Char) : List Char := s.dropWhile pyIsSpace

/-- Python `str.rstrip()` (no argument). -/
def pyRStrip (s : List Char) : List Char := (s.reverse.dropWhile pyIsSpace).reverse

/-- Python `str.strip()` (no argument). -/
def pyStrip (s : List Char) : List Char := pyRStrip (pyLStrip s)

/-- Python `str.lower()` restricted to ASCII case folding (every keyword and
marker the repository compares against is ASCII). -/
def pyLower (s : List Char) : List Char := s.map Char.toLower

/-- Haystack starts with the second argument (Python `str.startswith`). -/
def listStartsWith : List Char → List Char → Bool
  | _, [] => true
  | [], _ :: _ => false
  | a :: as, b :: bs => a = b && listStartsWith as bs

/-- The second argument occurs as a contiguous substring of the first
(Python `in` on `str`). -/
def containsSub (hay needle : List Char) : Bool :=
  match hay with
  | [] => listStartsWith [] needle
  | _ :: t => listStartsWith hay needle || containsSub t needle

/-! ## Relevance Gate (src/backend/scrapers/base_scraper.py)

`DC_RELEVANCE_KEYWORDS` and `EXCLUDE_KEYWORDS` transcribed verbatim;
`BaseScraper.calculate_relevance_score` embedded with the score in `ℚ`
(Python accumulates IEEE doubles 0.4/0.2/0.3/0.1 per match; the claims only
use the exact-zero exclusion path and the value is the per-tier match count
times the weight). The compiled exclusion regex is an alternation of
`re.escape`d keywords with `re.IGNORECASE`, i.e. a case-insensitive
substring test, and the text is lowercased first anyway. -/

def DC_RELEVANCE_KEYWORDS_high : List (List Char) :=
  ["data center", "datacenter", "data centre",
   "colocation", "colo facility", "colo provider",
   "hyperscale", "hyperscaler",
   "server farm", "server facility",
   "pue", "power usage effectiveness",
   "uptime institute", "tier certification"].map String.toList

def DC_RELEVANCE_KEYWORDS_medium : List (List Char) :=
  ["edge computing", "edge data",
   "rack", "server rack", "cabinet",
   "ups system", "uninterruptible power",
   "cooling system", "liquid cooling", "immersion cooling",
   "megawatt", "power capacity",
   "interconnection", "cross-connect",
   "disaster recovery", "failover",
   "network infrastructure", "it infrastructure"].map String.toList

def DC_RELEVANCE_KEYWORDS_companies : List (List Char) :=
  ["equinix", "digital realty", "cyrusone", "qts",
   "coresite", "vantage", "stack infrastructure",
   "flexential", "switch", "compass datacenters",
   "ntt data", "iron mountain data"].map String.toList

def DC_RELEVANCE_KEYWORDS_tech : List (List Char) :=
  ["cloud infrastructure", "hybrid cloud",
   "virtualization", "vmware", "kubernetes",
   "bandwidth", "latency", "fiber optic",
   "redundancy", "high availability"].map String.toList

def EXCLUDE_KEYWORDS : List (List Char) :=
  ["recipe", "cooking", "sports score", "celebrity",
   "horoscope", "weather forecast", "lottery",
   "real estate listing", "apartment for rent"].map String.toList

/-- Number of keywords of a tier matching the text (each distinct matching
phrase counts once, as in the Python per-keyword loop). -/
def tierHits (text : List Char) (kws : List (List Char)) : ℕ :=
  (kws.filter (fun k => containsSub text k)).length

/-- `BaseScraper.calculate_relevance_score(title, content)`:
`text = f"{title} {content}".lower()`; exclusion match forces `0.0`;
otherwise per-tier weighted keyword counts, capped at `1.0`. -/
def calculate_relevance_score (title content : List Char) : ℚ :=
  let text := pyLower (title ++ ' ' :: content)
  if EXCLUDE_KEYWORDS.any (fun kw => containsSub text kw) then 0
  else
    min 1 ((tierHits text DC_RELEVANCE_KEYWORDS_high : ℚ) * (2/5) +
      (tierHits text DC_RELEVANCE_KEYWORDS_medium : ℚ) * (1/5) +
      (tierHits text DC_RELEVANCE_KEYWORDS_companies : ℚ) * (3/10) +
      (tierHits text DC_RELEVANCE_KEYWORDS_tech : ℚ) * (1/10))

/-! ## Candidate dictionaries and the Recency Filter
(src/backend/services/chat_service.py)

Retrieval candidates are Python dicts with fixed keys; embedded as a
structure. `published_date` is an ISO string or `None`; datetime parsing
(`datetime.fromisoformat` plus the timezone normalisation to naive UTC) is
an external-library call, modelled as a parameter
`parseDt : List Char → Option Int` returning seconds, `none` meaning the
`except` path. `datetime.utcnow()` is the parameter `now`;
`timedelta(days=d)` is `d * 86400` seconds. -/

structure NewsItem where
  title : List Char
  content : List Char
  url : List Char
  source : List Char
  source_type : List Char
  published_date : Option (List Char)
deriving DecidableEq

/-- `ChatService._filter_by_recency_days(articles, days=days)`: keep only
articles whose `published_date` is truthy, parses, and satisfies
`dt >= cutoff` with `cutoff = utcnow() - timedelta(days=days)`; with
`days <= 0` the input is returned unchanged. (`int(days)` cannot fail in
the typed model, so the TypeError branch returning `articles` is inlined
into the `days ≤ 0` test it precedes.) `recencyKeep` is the per-article
keep test of the loop body. -/
def recencyKeep (parseDt : List Char → Option Int) (cutoff : Int)
    (a : NewsItem) : Bool :=
  match a.published_date with
  | none => false
  | some pd =>
    if pd = [] then false
    else match parseDt pd with
      | none => false
      | some dt => cutoff ≤ dt

def filter_by_recency_days (parseDt : List Char → Option Int) (now : Int)
    (days : Int) (articles : List NewsItem) : List NewsItem :=
  if days ≤ 0 then articles
  else articles.filter (recencyKeep parseDt (now - days * 86400))

/-! ## Deduplicator & Source Binder
(`ChatService._dedupe_and_cap_sources`, src/backend/services/chat_service.py) -/

structure SourceEntry where
  title : List Char
  url : List Char
  source : List Char
deriving DecidableEq

/-- The source dict appended for a selected item:
`{"title": it.get("title") or "", "url": url, "source": it.get("source") or ""}`
with `url = (it.get("url") or "").strip()`. -/
def mkSourceEntry (it : NewsItem) : SourceEntry :=
  ⟨it.title, pyStrip it.url, it.source⟩

/-- The loop of `_dedupe_and_cap_sources`: `cap` is the remaining source
budget (`max_sources - len(sources)`), so the Python
`if len(sources) >= max_sources: break` after an append is `cap ≤ 1`
before it. -/
def dedupeGo (cap : Nat) (seen : List (List Char)) :
    List NewsItem → List NewsItem × List SourceEntry
  | [] => ([], [])
  | it :: rest =>
    if pyStrip it.url = [] ∨ pyStrip it.url ∈ seen then dedupeGo cap seen rest
    else if cap ≤ 1 then ([it], [mkSourceEntry it])
    else
      (it :: (dedupeGo (cap - 1) (pyStrip it.url :: seen) rest).1,
       mkSourceEntry it :: (dedupeGo (cap - 1) (pyStrip it.url :: seen) rest).2)

/-- `ChatService._dedupe_and_cap_sources(items, max_sources=N)`:
`max_sources = max(1, min(int(max_sources or 10), 25))` (Python `or`
replaces a zero cap by the default 10), then the dedupe/cap loop. -/
def dedupe_and_cap_sources (items : List NewsItem) (max_sources : Int) :
    List NewsItem × List SourceEntry :=
  dedupeGo (max 1 (min (if max_sources = 0 then 10 else max_sources) 25)).toNat
    [] items

/-- Specification-side reading of the dedupe ("dedupe by URL, first
occurrence wins"): keep an item iff its stripped url is non-empty and does
not repeat a kept earlier one. -/
def firstOccByUrl (seen : List (List Char)) : List NewsItem → List NewsItem
  | [] => []
  | it :: rest =>
    if pyStrip it.url = [] ∨ pyStrip it.url ∈ seen then firstOccByUrl seen rest
    else it :: firstOccByUrl (pyStrip it.url :: seen) rest

/-! ## Response Citation Validator
(`ChatService._strip_out_of_range_citations`, src/backend/services/chat_service.py)

`re.sub(r"\[(\d+)\]", repl, text)` scans left to right; at a `[` the greedy
`\d+` takes the maximal run of ASCII digits and the match succeeds iff that
run is non-empty and followed by `]` (backing off the greedy run cannot
help, because a shorter run ends at a digit, not at `]`); non-matching
positions are copied unchanged. `\d` also matches non-ASCII decimal digits,
which are not modelled. Recursion is by a fuel argument bounded by the text
length so every definition computes by kernel reduction. -/

def isDigitCh (c : Char) : Bool := '0' ≤ c && c ≤ '9'

/-- Attempt of the regex `\[(\d+)\]` just after a `[`: the maximal digit
run, and the rest after the closing `]`. -/
def parseMark (rest : List Char) : Option (List Char × List Char) :=
  if rest.takeWhile isDigitCh ≠ [] ∧ (rest.dropWhile isDigitCh).head? = some ']'
  then some (rest.takeWhile isDigitCh, (rest.dropWhile isDigitCh).tail)
  else none

/-- `int()` on an ASCII digit string (leading zeros allowed). -/
def digitsToNat (ds : List Char) : Nat :=
  ds.foldl (fun acc c => acc * 10 + (c.toNat - '0'.toNat)) 0

/-- The keep test `1 <= n <= max_cite` of `_repl` (with `n = int(m.group(1))`,
which cannot fail on an ASCII digit run). -/
def citeInRange (maxCite : Int) (ds : List Char) : Bool :=
  decide (1 ≤ digitsToNat ds) && decide ((digitsToNat ds : Int) ≤ maxCite)

/-- Fuel-indexed scanner of `_strip_out_of_range_citations`: a matched
marker is kept (`m.group(0)`, original digits) iff `citeInRange`, else
replaced by the empty string; everything else is copied. -/
def stripCiteFuel (maxCite : Int) : Nat → List Char → List Char
  | 0, s => s
  | _ + 1, [] => []
  | fuel + 1, c :: rest =>
    if c = '[' then
      match parseMark rest with
      | some (ds, tail) =>
        (if citeInRange maxCite ds then '[' :: (ds ++ [']']) else []) ++
          stripCiteFuel maxCite fuel tail
      | none => c :: stripCiteFuel maxCite fuel rest
    else c :: stripCiteFuel maxCite fuel rest

/-- `ChatService._strip_out_of_range_citations(text, max_cite=m)`.
`max_cite = int(max_cite or 0)`; for `max_cite ≤ 0` the code runs
`re.sub(r"\[(\d+)\]", "", text)` (remove every marker) and otherwise the
same scan keeping in-range markers — one scanner, whose keep test
`1 ≤ n ≤ max_cite` is unsatisfiable when `max_cite ≤ 0`, so both branches
are this single function. `if not text: return text` is the `[]` base. -/
def strip_out_of_range_citations (maxCite : Int) (s : List Char) : List Char :=
  stripCiteFuel maxCite s.length s

/-- A token of the citation decomposition of a text: a well-formed inline
marker `[digits]`, or one plain character. -/
inductive CTok where
  | mark (ds : List Char)
  | chr (c : Char)
deriving DecidableEq

def renderTok : CTok → List Char
  | .mark ds => '[' :: (ds ++ [']'])
  | .chr c => [c]

def renderToks (ts : List CTok) : List Char := (ts.map renderTok).flatten

/-- Canonical decomposition of a text into marker and character tokens —
the same scan as the stripper, recording tokens instead of substituting. -/
def ctokFuel : Nat → List Char → List CTok
  | 0, _ => []
  | _ + 1, [] => []
  | fuel + 1, c :: rest =>
    if c = '[' then
      match parseMark rest with
      | some (ds, tail) => .mark ds :: ctokFuel fuel tail
      | none => .chr c :: ctokFuel fuel rest
    else .chr c :: ctokFuel fuel rest

def ctokenize (s : List Char) : List CTok := ctokFuel s.length s

/-- Which tokens the stripper keeps: in-range markers and all plain text. -/
def keepTok (maxCite : Int) : CTok → Bool
  | .mark ds => citeInRange maxCite ds
  | .chr _ => true

/-- Well-formedness under which a token list re-tokenizes from its render:
markers carry a non-empty digit run and plain characters are not `[`. -/
def wfTok : CTok → Bool
  | .mark ds => decide (ds ≠ []) && ds.all isDigitCh
  | .chr c => decide (c ≠ '[')

/-- Tokens produced by `ctokenize` in which no plain character is a `[`. -/
def BracketClean (s : List Char) : Bool := (ctokenize s).all wfTok

/-! ## Answer cleanup
(`ChatService._clean_rundown_answer`, src/backend/services/chat_service.py)

`str.splitlines()` is modelled on the terminators `\n`, `\r\n`, `\r`
(the exotic Unicode line boundaries it also splits on do not occur in the
texts handled and are not modelled); a trailing terminator produces no
extra empty line, and `"\n".join` is `joinLines`. -/

def pySplitlinesGo (acc : List Char) : List Char → List (List Char)
  | [] => [acc.reverse]
  | '\r' :: '\n' :: [] => [acc.reverse]
  | '\r' :: '\n' :: r => acc.reverse :: pySplitlinesGo [] r
  | '\n' :: [] => [acc.reverse]
  | '\n' :: r => acc.reverse :: pySplitlinesGo [] r
  | '\r' :: [] => [acc.reverse]
  | '\r' :: r => acc.reverse :: pySplitlinesGo [] r
  | c :: r => pySplitlinesGo (c :: acc) r

def pySplitlines (s : List Char) : List (List Char) :=
  match s with
  | [] => []
  | s => pySplitlinesGo [] s

def joinLines : List (List Char) → List Char
  | [] => []
  | [l] => l
  | l :: ls => l ++ '\n' :: joinLines ls

/-- `re.search(r"\[\d+\]", t)` as a Boolean: some position starts a
well-formed `[digits]` marker. -/
def hasCite : List Char → Bool
  | [] => false
  | c :: rest => (decide (c = '[') && (parseMark rest).isSome) || hasCite rest

/-- The sources-section test of the cut loop:
`low.startswith("## sources") or low == "sources" or low.startswith("sources:")`
with `low = ln.strip().lower()`. -/
def isSourcesMarker (ln : List Char) : Bool :=
  listStartsWith (pyLower (pyStrip ln)) "## sources".toList ||
  decide (pyLower (pyStrip ln) = "sources".toList) ||
  listStartsWith (pyLower (pyStrip ln)) "sources:".toList

/-- The cut `lines = lines[:cut_idx]` at the first sources marker (no cut if
none), i.e. the prefix of lines before the first marker. -/
def cutSources (lines : List (List Char)) : List (List Char) :=
  lines.takeWhile (fun l => ! isSourcesMarker l)

/-- The numbered-bullet branch `re.match(r"^(\\s*)\\d+\\.\\s+(.*)$", s)`:
inside the raw string each `\\` is a literal backslash atom, so the pattern
is: backslash, a run of `s`, backslash, a non-empty run of `d`, backslash,
any one character, backslash, a non-empty run of `s`, then the captured
rest — it can only match lines containing literal backslashes (a latent bug
kept faithfully). The greedy runs need no backtracking: a shorter run would
have to be followed by the run's own letter. -/
def buggyNumbered (s : List Char) : Option (List Char × List Char) :=
  match s with
  | '\\' :: r1 =>
    match r1.dropWhile (· = 's') with
    | '\\' :: r2 =>
      if r2.takeWhile (· = 'd') = [] then none
      else
        match r2.dropWhile (· = 'd') with
        | '\\' :: _ :: r3 =>
          match r3 with
          | '\\' :: r4 =>
            if r4.takeWhile (· = 's') = [] then none
            else some ('\\' :: r1.takeWhile (· = 's'), r4.dropWhile (· = 's'))
          | _ => none
        | _ => none
    | _ => none
  | _ => none

/-- The bullet-normalisation loop body: `s = ln.rstrip()`,
`ls = s.lstrip()`; `* ` and `• ` bullets become `- ` after the original
indentation `s[: len(s) - len(ls)]`; otherwise the numbered-bullet
rewrite. -/
def normalizeBullet (ln : List Char) : List Char :=
  let s := pyRStrip ln
  let ls := pyLStrip s
  if listStartsWith ls "* ".toList || listStartsWith ls "• ".toList then
    s.take (s.length - ls.length) ++ ('-' :: ' ' :: ls.drop 2)
  else
    match buggyNumbered s with
    | some (g1, g2) => g1 ++ ('-' :: ' ' :: g2)
    | none => s

inductive Sect where
  | what
  | themes
  | why
  | ifyou
deriving DecidableEq

structure CleanState where
  out : List (List Char)
  sect : Option Sect
  whatB : Nat
  whyB : Nat
  ifB : Nat
  themeCnt : Nat
  themeB : Nat
  inThemes : Bool
deriving DecidableEq

def initCleanState : CleanState := ⟨[], none, 0, 0, 0, 0, 0, false⟩

/-- `push_blank()`: append one empty line unless the output is empty or
already ends blank. -/
def pushBlank (out : List (List Char)) : List (List Char) :=
  match out.getLast? with
  | some last => if pyStrip last ≠ [] then out ++ [[]] else out
  | none => out

/-- `allowed_headers` in Python-3.7+ dict insertion order; the two
`## why it matters` keys share the value
`f"## Why it matters (for [aud])"`. -/
def allowedHeaders (aud : List Char) : List (List Char × List Char) :=
  [("## what changed recently".toList, "## What changed recently".toList),
   ("## themes".toList, "## Themes".toList),
   ("## why it matters".toList,
     "## Why it matters (for ".toList ++ aud ++ [')']),
   ("## why it matters (for".toList,
     "## Why it matters (for ".toList ++ aud ++ [')']),
   ("## if i were you".toList, "## If I were you".toList)]

/-- Section selection from the normalised header value (`hdr.lower()`
comparisons in the source). -/
def sectOfHdr (hdr : List Char) : Sect :=
  if pyLower hdr = "## themes".toList then Sect.themes
  else if pyLower hdr = "## what changed recently".toList then Sect.what
  else if listStartsWith (pyLower hdr) "## why it matters".toList then Sect.why
  else Sect.ifyou

/-- The per-line body of the section loop of `_clean_rundown_answer`. -/
def cleanStep (aud : List Char) (st : CleanState) (ln : List Char) : CleanState :=
  let t := pyStrip ln
  if t = [] then st
  else
    let tl := pyLower t
    if listStartsWith tl "## ".toList then
      match (allowedHeaders aud).find? (fun kv => listStartsWith tl kv.1) with
      | none => st
      | some kv =>
        let s := sectOfHdr kv.2
        { out := pushBlank st.out ++ [kv.2]
          sect := some s
          whatB := st.whatB
          whyB := st.whyB
          ifB := st.ifB
          themeCnt := if s = Sect.themes then 0 else st.themeCnt
          themeB := if s = Sect.themes then 0 else st.themeB
          inThemes := s = Sect.themes }
    else if listStartsWith t "###".toList then
      if st.inThemes = false then st
      else if 3 ≤ st.themeCnt then st
      else { st with out := pushBlank st.out ++ [t],
                     themeCnt := st.themeCnt + 1, themeB := 0 }
    else if listStartsWith t "- ".toList then
      match st.sect with
      | some Sect.what =>
        if 5 ≤ st.whatB then st
        else if hasCite t = false then st
        else { st with out := st.out ++ [t], whatB := st.whatB + 1 }
      | some Sect.why =>
        if 3 ≤ st.whyB then st
        else if hasCite t = false then st
        else { st with out := st.out ++ [t], whyB := st.whyB + 1 }
      | some Sect.ifyou =>
        if 3 ≤ st.ifB then st
        else { st with out := st.out ++ [t], ifB := st.ifB + 1 }
      | some Sect.themes =>
        if st.themeCnt = 0 then st
        else if 3 ≤ st.themeB then st
        else if hasCite t = false then st
        else { st with out := st.out ++ [t], themeB := st.themeB + 1 }
      | none => st
    else st

/-- The pipeline of `_clean_rundown_answer` after the sources cut: normalise
bullets, strip out-of-range citations, run the section loop, join, strip,
strip citations once more. `aud = (audience or "Exec").strip()`. -/
def cleanFromLines (aud0 : List Char) (maxSources : Int)
    (lines : List (List Char)) : List Char :=
  let lines3 := lines.map normalizeBullet
  let lines4 :=
    pySplitlines (strip_out_of_range_citations maxSources (joinLines lines3))
  let aud := pyStrip (if aud0 = [] then "Exec".toList else aud0)
  let final := (lines4.foldl (cleanStep aud) initCleanState).out
  strip_out_of_range_citations maxSources (pyStrip (joinLines final))

/-- `ChatService._clean_rundown_answer(answer, audience=aud0, max_sources=m)`:
strip, return if empty, split into lines, cut any sources section, then the
`cleanFromLines` pipeline. -/
def clean_rundown_answer (aud0 : List Char) (maxSources : Int)
    (answer : List Char) : List Char :=
  let raw := pyStrip answer
  if raw = [] then raw
  else cleanFromLines aud0 maxSources (cutSources (pySplitlines raw))

/-! ## Candidate Retriever, semantic path
(`ChatService.retrieve_relevant_articles`, src/backend/services/chat_service.py)

External state as parameters: the vector index's kNN result is the ordered
hit list (`search_similar`), the relational store lookup by `article_id` is
`dbLookup`. Distances are modelled in `ℚ` (only order comparisons are
used). Python dicts preserve insertion order, so the `best` dict is an
association list updated in place. -/

structure VecHit where
  article_id : Option Nat
  title : List Char
  url : List Char
  source : List Char
  source_type : List Char
  published_date : Option (List Char)
  document : List Char
  distance : Option ℚ
deriving DecidableEq

structure ArticleRow where
  title : List Char
  url : List Char
  source : List Char
  source_type : List Char
  published_date : Option (List Char)
  content : List Char
deriving DecidableEq

structure RankedItem where
  item : NewsItem
  distance : Option ℚ
deriving DecidableEq

/-- `ChatService._looks_like_datacenter_article(title, content)`. -/
def looks_like_datacenter_article (title content : List Char) : Bool :=
  let t := pyLower (title ++ ' ' :: content)
  if EXCLUDE_KEYWORDS.any (fun k => containsSub t k) then false
  else if DC_RELEVANCE_KEYWORDS_high.any (fun k => containsSub t k) then true
  else if DC_RELEVANCE_KEYWORDS_companies.any (fun k => containsSub t k) then
    true
  else if 2 ≤ (DC_RELEVANCE_KEYWORDS_medium.filter
      (fun k => containsSub t k)).length then true
  else if (["mw", "megawatt", "substation", "power capacity", "data centre",
      "datacentre"].map String.toList).any (fun k => containsSub t k) then true
  else false

/-- Python `or`-merge for possibly-blank date strings. -/
def pubMerge (x y : Option (List Char)) : Option (List Char) :=
  match x with
  | some s => if s = [] then y else some s
  | none => y

/-- Decimal digits of `str(n)` for the dict key `str(article_id or url)`. -/
def natToChars (n : Nat) : List Char := Nat.toDigits 10 n

/-- Resolution of one kNN hit (the first half of the semantic loop):
prefer metadata, fall back to the store by `article_id` when title or url
is missing, drop the hit if either is still missing or the allowlist
guardrail rejects it; otherwise the dict key `str(article_id or url)` and
the candidate dict. -/
def resolveHit (dbLookup : Nat → Option ArticleRow) (h : VecHit) :
    Option (List Char × RankedItem) :=
  let fallback :=
    if h.title = [] ∨ h.url = [] then
      match h.article_id with
      | some aid =>
        match dbLookup aid with
        | some a =>
          (if h.title = [] then a.title else h.title,
           if h.url = [] then a.url else h.url,
           if h.source = [] then a.source else h.source,
           if h.source_type = [] then a.source_type else h.source_type,
           pubMerge h.published_date a.published_date,
           if h.document = [] then a.content.take 2000 else h.document)
        | none =>
          (h.title, h.url, h.source, h.source_type, h.published_date,
           h.document)
      | none =>
        (h.title, h.url, h.source, h.source_type, h.published_date, h.document)
    else
      (h.title, h.url, h.source, h.source_type, h.published_date, h.document)
  match fallback with
  | (title, url, source, source_type, published_date, doc) =>
    if title = [] ∨ url = [] then none
    else if looks_like_datacenter_article title doc = false then none
    else
      let key := match h.article_id with
        | some aid => if aid = 0 then url else natToChars aid
        | none => url
      some (key,
        ⟨⟨title, doc.take 2000, url, source, source_type, published_date⟩,
         h.distance⟩)

/-- In-place dict update `best[key] = candidate` with the smaller-distance
preference: replace iff the new distance is present and the previous is
missing or larger (`try/except` around `float()` cannot fire on `ℚ`). -/
def updateBest (best : List (List Char × RankedItem)) (k : List Char)
    (c : RankedItem) : List (List Char × RankedItem) :=
  match best with
  | [] => [(k, c)]
  | (k', p) :: rest =>
    if k' = k then
      if (match c.distance, p.distance with
          | some d, some pd => decide (d < pd)
          | some _, none => true
          | none, _ => false) then (k', c) :: rest
      else (k', p) :: rest
    else (k', p) :: updateBest rest k c

/-- The semantic loop over the hits. -/
def retrieveBest (dbLookup : Nat → Option ArticleRow) :
    List VecHit → List (List Char × RankedItem) →
      List (List Char × RankedItem)
  | [], best => best
  | h :: rest, best =>
    match resolveHit dbLookup h with
    | none => retrieveBest dbLookup rest best
    | some kc => retrieveBest dbLookup rest (updateBest best kc.1 kc.2)

/-- The Python sort key `(x.get("distance") is None, x.get("distance") or 0.0)`
in ascending tuple order; `list.sort` is stable, and any stable sort with a
total preorder computes the same list, so the model uses insertion sort. -/
def distLe (a b : RankedItem) : Prop :=
  (a.distance.isNone = false ∧ b.distance.isNone = true) ∨
  (a.distance.isNone = b.distance.isNone ∧
    a.distance.getD 0 ≤ b.distance.getD 0)

instance : DecidableRel distLe := fun a b => by
  unfold distLe
  infer_instance

instance : IsTotal RankedItem distLe := by
  constructor
  intro a b
  unfold distLe
  cases ha : a.distance.isNone <;> cases hb : b.distance.isNone
  · rcases le_total (a.distance.getD 0) (b.distance.getD 0) with h | h
    · exact Or.inl (Or.inr ⟨rfl, h⟩)
    · exact Or.inr (Or.inr ⟨rfl, h⟩)
  · exact Or.inl (Or.inl ⟨rfl, rfl⟩)
  · exact Or.inr (Or.inl ⟨rfl, rfl⟩)
  · rcases le_total (a.distance.getD 0) (b.distance.getD 0) with h | h
    · exact Or.inl (Or.inr ⟨rfl, h⟩)
    · exact Or.inr (Or.inr ⟨rfl, h⟩)

instance : IsTrans RankedItem distLe := by
  constructor
  intro a b c hab hbc
  unfold distLe at *
  rcases hab with ⟨ha, hb⟩ | ⟨hab, hq⟩
  · rcases hbc with ⟨hb2, _⟩ | ⟨hbc, _⟩
    · rw [hb] at hb2; cases hb2
    · exact Or.inl ⟨ha, by rw [← hbc, hb]⟩
  · rcases hbc with ⟨hb2, hc⟩ | ⟨hbc, hq2⟩
    · exact Or.inl ⟨by rw [hab, hb2], hc⟩
    · exact Or.inr ⟨by rw [hab, hbc], le_trans hq hq2⟩

/-- `ChatService.retrieve_relevant_articles(query, n_results)` — semantic
branch after the loop: `list(best.values())`, the stable sort on the
distance key, `pop("distance")`, and the slice `[:max(n_results, 10)]`. -/
def retrieve_semantic (dbLookup : Nat → Option ArticleRow) (n_results : Nat)
    (hits : List VecHit) : List NewsItem :=
  let best := retrieveBest dbLookup hits []
  let sorted := List.insertionSort distLe (best.map Prod.snd)
  (sorted.map RankedItem.item).take (max n_results 10)

/-- The resolved hits, in kNN order. -/
def resolvedOf (dbLookup : Nat → Option ArticleRow) (hits : List VecHit) :
    List (List Char × RankedItem) :=
  hits.filterMap (resolveHit dbLookup)

/-- The effective sort key value `x.get("distance") or 0.0`. -/
def dq (c : RankedItem) : ℚ := c.distance.getD 0

/-! ## Conversation Memory Manager
(`ChatService._maybe_summarize_and_prune` and the message helpers,
src/backend/services/chat_service.py)

One conversation's slice of the store: its messages in ascending primary-key
order and its `memory_summary`. The summarizer LLM call is the parameter
`llmResult` (`none` = the call raised); `enabled` is
`self.enabled and self.client`. Environment knobs arrive unclamped, as
`int(os.getenv(...))` does. -/

structure Msg where
  id : Nat
  role : List Char
  content : List Char
  tokens_est : Nat
deriving DecidableEq

structure Conv where
  messages : List Msg
  memory_summary : Option (List Char)
deriving DecidableEq

/-- Python `str.upper()` on ASCII (roles are "user"/"assistant"). -/
def pyUpper (s : List Char) : List Char := s.map Char.toUpper

/-- `ChatService._estimate_tokens(text)`: 0 for empty text, else
`max(1, int(len(text) / 4))`. -/
def estimate_tokens (s : List Char) : Nat :=
  if s = [] then 0 else max 1 (s.length / 4)

/-- The transcript lines built from the messages to summarize:
`f"ROLE: content"` for each message with non-blank content. -/
def transcriptLines (msgs : List Msg) : List (List Char) :=
  msgs.filterMap fun m =>
    let role := pyStrip (if m.role = [] then "user".toList else m.role)
    let content := pyStrip m.content
    if content = [] then none
    else some (pyUpper role ++ ':' :: ' ' :: content)

/-- `ChatService._maybe_summarize_and_prune(db, conv=conv)`. Clamps, the
trigger test, the `keep_last` split, transcript build, the summary update
(crude concatenation when the LLM is unavailable, LLM rewrite when it
returns non-blank text, no update when it raises or returns blank), then
the prune deleting every row of the conversation whose id is not among the
kept (truthy) ids. -/
def maybe_summarize_and_prune (enabled : Bool) (llmResult : Option (List Char))
    (max_messages0 keep_last0 max_tokens0 : Int) (conv : Conv) : Conv :=
  let keep_last := max 6 (min keep_last0 30)
  let max_messages := max (keep_last + 2) (min max_messages0 200)
  let max_tokens := max 2000 (min max_tokens0 50000)
  let tok_total : Int := ((conv.messages.map Msg.tokens_est).sum : Int)
  if (conv.messages.length : Int) ≤ max_messages ∧ tok_total ≤ max_tokens then
    conv
  else if (conv.messages.length : Int) ≤ keep_last then conv
  else
    let keepN : Nat := keep_last.toNat
    let to_summarize := conv.messages.take (conv.messages.length - keepN)
    let to_keep := conv.messages.drop (conv.messages.length - keepN)
    let transcript_text := joinLines (transcriptLines to_summarize)
    if transcript_text = [] then conv
    else
      let summary_after :=
        if enabled = false then
          let existing := pyStrip (conv.memory_summary.getD [])
          let combined := pyStrip (existing ++ '\n' :: transcript_text)
          some (combined.drop (combined.length - 6000))
        else
          match llmResult with
          | some s => if pyStrip s = [] then conv.memory_summary
                      else some (pyStrip s)
          | none => conv.memory_summary
      let keep_ids := (to_keep.filter (fun m => m.id ≠ 0)).map Msg.id
      let messages_after :=
        if keep_ids = [] then conv.messages
        else conv.messages.filter (fun m => m.id ∈ keep_ids)
      ⟨messages_after, summary_after⟩

/-! ## Router, time-window parsing and the chat turn
(`ChatService._router`, `_parse_time_window_days`, `_location_terms`,
`chat`, `generate_response`, src/backend/services/chat_service.py)

External effects are `ChatDeps` fields: the article count, the two
retrieval results (before/after the proactive fetch), the proactive insert
count, the embedding-clusterer output (member indices into the deduped
list), the synthesis outcome, the summarizer-LLM call, environment knobs,
the clock and the datetime parser. The audience string is the already
resolved `aud` (its or-chain over request/conversation defaults does not
affect the claims settled here). Message ids are the autoincrement
`max id + 1`. The router's constraint extraction only augments the
retrieval query, which is external here, so it is not modelled. -/

/-- `ChatService._estimate_tokens` on append; DB autoincrement id. -/
def nextId (c : Conv) : Nat := (c.messages.map Msg.id).foldr max 0 + 1

def appendMsg (c : Conv) (role content : List Char) : Conv :=
  ⟨c.messages ++ [⟨nextId c, role, content, estimate_tokens content⟩],
   c.memory_summary⟩

/-- Python `str.split()` word count (maximal non-space runs). -/
def wordCountGo : Bool → List Char → Nat
  | _, [] => 0
  | inWord, c :: r =>
    if pyIsSpace c then wordCountGo false r
    else (if inWord then 0 else 1) + wordCountGo true r

def wordCount (s : List Char) : Nat := wordCountGo false s

/-- `ChatService._router` intent chain. -/
def routerIntent (ql : List Char) : List Char :=
  if (["compare", "vs", "versus"].map String.toList).any
      (fun k => containsSub ql k) then "compare".toList
  else if (["recommend", "should we", "what should i",
      "what do you recommend"].map String.toList).any
      (fun k => containsSub ql k) then "recommend".toList
  else if (["explain", "what is", "how does", "definition"].map
      String.toList).any (fun k => containsSub ql k) then
    "explain_concept".toList
  else if (["forecast", "predict", "next 12 months", "outlook"].map
      String.toList).any (fun k => containsSub ql k) then "forecast".toList
  else if (["deal", "raise", "funding", "acquisition", "m&a"].map
      String.toList).any (fun k => containsSub ql k) then
    "deal_monitor".toList
  else if (["deep dive", "profile", "winners", "who are the winners",
      "who\x27s winning", "leader"].map String.toList).any
      (fun k => containsSub ql k) then "deep_dive_company".toList
  else "news_update".toList

/-- `ChatService._router` construction-projects mode. -/
def routerModeConstruction (ql : List Char) : Bool :=
  (["construction projects", "latest construction projects",
    "data center construction", "new builds", "breaking ground"].map
    String.toList).any (fun k => containsSub ql k)

def ambiguousTopics : List (List Char) :=
  ["cooling innovations", "power constraints", "chip supply",
   "ai data centers", "site selection"].map String.toList

def coolingClarifier : List Char :=
  ("Quick clarifier: are you asking about facility cooling " ++
   "(chillers/CRAH/heat rejection) or chip-level cooling " ++
   "(direct-to-chip/immersion), and what rack density range " ++
   "(e.g., 20–40kW vs 60–100kW+)?").toList

def powerClarifier : List Char :=
  ("Quick clarifier: which region/market (e.g., N. Virginia, DFW, Phoenix) " ++
   "and are you focused on near-term interconnect delays or longer-term " ++
   "capacity buildout?").toList

def genericClarifier : List Char :=
  ("Quick clarifier: what specific segment (hyperscalers vs colos vs " ++
   "enterprise) and what time window (last 7 days vs last 30 days) " ++
   "should I focus on?").toList

/-- `ChatService._router` ambiguity check and clarifying question. -/
def routerClarifier (ql : List Char) : Option (List Char) :=
  let intent := routerIntent ql
  let highAmbiguity :=
    wordCount ql ≤ 3 ∨ ambiguousTopics.any (fun t => decide (t = ql))
  if highAmbiguity ∧ (intent = "news_update".toList ∨
      intent = "explain_concept".toList) then
    some (if containsSub ql "cooling".toList then coolingClarifier
      else if containsSub ql "power".toList ∨ containsSub ql "grid".toList
      then powerClarifier
      else genericClarifier)
  else none

/-- One position of the buggy raw-string regex
`r"last\\s+(\\d{1,3})\\s+days"`: each `\\` is a literal backslash atom, so
it matches `last`, a backslash, `s`+, a backslash, 1–3 `d`s, a backslash,
`s`+, then `days`. The group captures the backslash and the `d`s, so
`int(m.group(1))` always raises ValueError and the branch yields `None`. -/
def lastDaysBuggyAt : List Char → Bool
  | 'l' :: 'a' :: 's' :: 't' :: '\\' :: r1 =>
    if r1.takeWhile (· = 's') = [] then false
    else
      match r1.dropWhile (· = 's') with
      | '\\' :: r2 =>
        let dn := (r2.takeWhile (· = 'd')).length
        if 1 ≤ dn ∧ dn ≤ 3 then
          match r2.dropWhile (· = 'd') with
          | '\\' :: r3 =>
            if r3.takeWhile (· = 's') = [] then false
            else listStartsWith (r3.dropWhile (· = 's')) "days".toList
          | _ => false
        else false
      | _ => false
  | _ => false

def lastDaysBuggyMatch : List Char → Bool
  | [] => false
  | c :: r => lastDaysBuggyAt (c :: r) || lastDaysBuggyMatch r

/-- `ChatService._parse_time_window_days(query)`: the (dead) buggy
"last N days" regex branch returns `None` whenever it matches at all
(its capture can never parse as an int); then the week/month phrase
checks. -/
def parse_time_window_days (query : List Char) : Option Int :=
  let ql := pyLower query
  if lastDaysBuggyMatch ql then none
  else if (["this week", "past week", "last week"].map String.toList).any
      (fun k => containsSub ql k) then some 7
  else if (["this month", "past month", "last month"].map String.toList).any
      (fun k => containsSub ql k) then some 30
  else none

/-- `ChatService._location_terms(query_lower)`. -/
def location_terms (ql : List Char) : List (List Char) :=
  if containsSub ql "dfw".toList ∨ containsSub ql "dallas".toList ∨
      containsSub ql "fort worth".toList then
    ["dfw", "dallas", "fort worth", "dallas-fort worth", "dallas fort worth",
     "north texas", "texas", "tx", "irving", "plano", "allen", "frisco",
     "lancaster", "red oak", "mesquite", "garland", "arlington",
     "grand prairie"].map String.toList
  else []

structure WidenResult where
  articles : List NewsItem
  time_window_days : Option Int
  coverage_thin : Bool
  widened : Bool
deriving DecidableEq

/-- Lines 1470–1519 of `chat()`: `time_window_days = requested or default`,
the recency filter, and the one-shot auto-widen
(`len < 4 and requested is None and window < 30` → refilter at 30 days,
set `coverage_thin`/`widened`). `requested` ranges over 7/30/None so the
Python zero-falsy case of `or` cannot arise. -/
def recencyWidenStep (parseDt : List Char → Option Int) (now : Int)
    (requested defaultDays : Option Int) (pool : List NewsItem) :
    WidenResult :=
  let tw := match requested with
    | some d => some d
    | none => defaultDays
  match tw with
  | none => ⟨pool, none, false, false⟩
  | some w =>
    let arts := filter_by_recency_days parseDt now w pool
    if arts.length < 4 ∧ requested = none ∧ w < 30 then
      ⟨filter_by_recency_days parseDt now 30 pool, some 30, true, true⟩
    else ⟨arts, some w, false, false⟩

structure MetaRec where
  time_window_days : Option Int
  sources_used : Nat
  coverage_thin : Bool
  widened_to_days : Option Int
  semantic_enabled : Bool
deriving DecidableEq

/-- Outcome of the external side of `generate_response`: provider not
configured, the pre-call cost-limit trip, a raw LLM completion (then
cleaned), or an exception with its message. -/
inductive GenOutcome where
  | unavailable
  | costPre
  | ok (raw : List Char)
  | exc (msg : List Char)
deriving DecidableEq

/-- `ChatService.generate_response(query, selected, ...)` reduced to its
answer/sources/meta behaviour: the unavailable and pre-call cost-limit
replies carry no `meta` key (modelled `none`); a completion is cleaned by
`_clean_rundown_answer` with `max_sources = len(sources)`; exception
replies keep `meta` and match the cost-substring test. -/
def generate_response_model (outcome : GenOutcome) (aud : List Char)
    (selected : List NewsItem) (meta : MetaRec) :
    List Char × List SourceEntry × Option MetaRec :=
  let srcs := selected.map
    (fun a => (⟨a.title, a.url, a.source⟩ : SourceEntry))
  match outcome with
  | .unavailable =>
    (("Sorry, the AI service is not available. " ++
      "Please configure your OpenAI API key.").toList, [], none)
  | .costPre =>
    (("Sorry, I\x27ve reached the daily cost limit. Please try again " ++
      "tomorrow or adjust your cost limits in the .env file.").toList,
     [], none)
  | .ok raw =>
    (clean_rundown_answer aud (srcs.length : Int) raw, srcs, some meta)
  | .exc msg =>
    if containsSub (pyLower msg) "cost limit".toList ∨
        containsSub (pyLower msg) "limit exceeded".toList then
      (("I\x27ve reached the cost limit. Please check your usage or " ++
        "adjust limits in the .env file.").toList, [], some meta)
    else
      ("Sorry, I encountered an error: ".toList ++ msg, srcs, some meta)

/-- The 50-capped URL dedupe of `chat()` (lines 1570–1580; also the one in
`_build_theme_hints`, which defines the index space of the clusterer). -/
def dedupeCapUrls (cap : Nat) (seen : List (List Char)) :
    List NewsItem → List NewsItem
  | [] => []
  | a :: rest =>
    if pyStrip a.url = [] ∨ pyStrip a.url ∈ seen then
      dedupeCapUrls cap seen rest
    else if cap ≤ 1 then [a]
    else a :: dedupeCapUrls (cap - 1) (pyStrip a.url :: seen) rest

/-- Inner loop of the cluster-balanced selection (`for idx in c["indices"]`):
skip out-of-range indices and duplicate URLs, stop after `per_cluster`
picks. -/
def clusterPick (deduped : List NewsItem) (perCluster : Nat) :
    List Nat → List NewsItem → List (List Char) → Nat →
      List NewsItem × List (List Char)
  | [], sel, urls, _ => (sel, urls)
  | i :: rest, sel, urls, count =>
    if h : i < deduped.length then
      let a := deduped.get ⟨i, h⟩
      if pyStrip a.url = [] ∨ pyStrip a.url ∈ urls then
        clusterPick deduped perCluster rest sel urls count
      else if perCluster ≤ count + 1 then
        (sel ++ [a], pyStrip a.url :: urls)
      else
        clusterPick deduped perCluster rest (sel ++ [a])
          (pyStrip a.url :: urls) (count + 1)
    else clusterPick deduped perCluster rest sel urls count

/-- Outer loop over `clusters[:3]`. -/
def clustersPick (deduped : List NewsItem) (perCluster : Nat) :
    List (List Nat) → List NewsItem → List (List Char) →
      List NewsItem × List (List Char)
  | [], sel, urls => (sel, urls)
  | c :: cs, sel, urls =>
    let p := clusterPick deduped perCluster c sel urls 0
    clustersPick deduped perCluster cs p.1 p.2

/-- The remainder fill (`for a in deduped: if len(selected) >= max_sources:
break; ...`). -/
def fillRemainder (maxSources : Nat) :
    List NewsItem → List (List Char) → List NewsItem → List NewsItem
  | sel, _, [] => sel
  | sel, urls, a :: rest =>
    if maxSources ≤ sel.length then sel
    else if pyStrip a.url = [] ∨ pyStrip a.url ∈ urls then
      fillRemainder maxSources sel urls rest
    else fillRemainder maxSources (sel ++ [a]) (pyStrip a.url :: urls) rest

structure ChatDeps where
  totalArticles : Nat
  pool1 : List NewsItem
  proactiveInserted : Nat
  pool2 : List NewsItem
  clusters : List (List Nat)
  genOutcome : GenOutcome
  enabled : Bool
  llmResult : Option (List Char)
  maxMessagesEnv : Int
  keepLastEnv : Int
  maxTokensEnv : Int
  now : Int
  parseDt : List Char → Option Int
  semanticEnabled : Bool

structure ChatResult where
  answer : List Char
  sources : List SourceEntry
  meta : Option MetaRec

def emptyDbAnswer : List Char :=
  ("I don\x27t have any articles in my database yet. The scraper runs " ++
   "every 30 minutes to collect news. Please wait a bit and try again, " ++
   "or ask me a general question about data centers and I\x27ll do my " ++
   "best to help!").toList

def noCoverageAnswer : List Char :=
  ("I couldn\x27t find any strong coverage for that query. Try " ++
   "specifying a time window (last 7–30 days), region/market, and any " ++
   "constraints (MW, rack kW, cooling type).").toList

/-- The final persistence step of `chat()`: the assistant message is stored
(separate commit) only when the stripped answer is non-empty. -/
def persistAnswer (conv2 : Conv) (r : ChatResult) : ChatResult × Conv :=
  (r, if pyStrip r.answer ≠ []
      then appendMsg conv2 "assistant".toList (pyStrip r.answer) else conv2)

/-- `chat()` after routing: the no-coverage reply (persisted), else
cluster-balanced selection over the 50-capped dedupe, source binding to at
most 10 entries, synthesis, and the answer persistence step. -/
def chatAfterRouting (deps : ChatDeps) (aud : List Char) (conv2 : Conv)
    (step1 : WidenResult) (articles : List NewsItem) : ChatResult × Conv :=
  if articles = [] then
    (⟨noCoverageAnswer, [],
      some ⟨step1.time_window_days, 0, step1.coverage_thin,
        if step1.widened then some 30 else none, deps.semanticEnabled⟩⟩,
     appendMsg conv2 "assistant".toList noCoverageAnswer)
  else
    let deduped := dedupeCapUrls 50 [] articles
    let selected :=
      if deps.clusters = [] then deduped
      else
        let p := clustersPick deduped (max 2 ((10 + 2) / 3))
          (deps.clusters.take 3) [] []
        fillRemainder 10 p.1 p.2 deduped
    let pair := dedupe_and_cap_sources selected 10
    let meta : MetaRec := ⟨step1.time_window_days, pair.2.length,
      step1.coverage_thin, if step1.widened then some 30 else none,
      deps.semanticEnabled⟩
    let g := generate_response_model deps.genOutcome aud pair.1 meta
    persistAnswer conv2 ⟨g.1, g.2.1, g.2.2⟩

/-- `ChatService.chat(query, audience=aud, conversation_id=cid)` for one
conversation: persist the user message (commit), run maintenance, the
empty-corpus early return, the clarifier short-circuit (which persists the
assistant clarifier), recency/auto-widen over the retrieved pool, the
proactive location fetch and refilter, then `chatAfterRouting`. -/
def chatTurn (deps : ChatDeps) (query aud : List Char) (conv : Conv) :
    ChatResult × Conv :=
  let conv2 := maybe_summarize_and_prune deps.enabled deps.llmResult
      deps.maxMessagesEnv deps.keepLastEnv deps.maxTokensEnv
      (appendMsg conv "user".toList query)
  if deps.totalArticles = 0 then
    (⟨emptyDbAnswer, [], some ⟨none, 0, false, none, false⟩⟩, conv2)
  else
    let ql := pyLower (pyStrip query)
    match routerClarifier ql with
    | some clar =>
      (⟨clar, [], some ⟨none, 0, false, none, deps.semanticEnabled⟩⟩,
       appendMsg conv2 "assistant".toList clar)
    | none =>
      let requested := parse_time_window_days query
      let intent := routerIntent ql
      let defaultDays : Option Int :=
        if intent = "news_update".toList ∨ intent = "deal_monitor".toList ∨
            routerModeConstruction ql = true then some 14 else none
      let step1 := recencyWidenStep deps.parseDt deps.now requested
        defaultDays deps.pool1
      let locs := location_terms (pyLower query)
      let articles :=
        if locs ≠ [] ∧
            (step1.articles.any (fun a => locs.any (fun t =>
              containsSub (pyLower a.title ++ ' ' :: pyLower a.content) t))
              = false) ∧ 0 < deps.proactiveInserted then
          match step1.time_window_days with
          | some w => filter_by_recency_days deps.parseDt deps.now w deps.pool2
          | none => deps.pool2
        else step1.articles
      chatAfterRouting deps aud conv2 step1 articles

def replacementChar : Char := Char.ofNat 0xFFFD

/-- `str.encode("utf-8")` of one scalar (Lean `Char` is a Unicode scalar,
as Python `str` code points outside surrogates). -/
def utf8EncodeChar (c : Char) : List Nat :=
  let n := c.toNat
  if n < 0x80 then [n]
  else if n < 0x800 then [0xC0 + n / 0x40, 0x80 + n % 0x40]
  else if n < 0x10000 then
    [0xE0 + n / 0x1000, 0x80 + n / 0x40 % 0x40, 0x80 + n % 0x40]
  else
    [0xF0 + n / 0x40000, 0x80 + n / 0x1000 % 0x40, 0x80 + n / 0x40 % 0x40,
     0x80 + n % 0x40]

def utf8Encode (s : List Char) : List Nat := (s.map utf8EncodeChar).flatten

/-- Fuel-indexed core of `bytes.decode("utf-8", errors="replace")`: each
maximal subpart of an ill-formed sequence becomes one U+FFFD (CPython
follows the Unicode recommended practice); one unit of fuel per decoded
unit suffices. -/
def utf8DecFuel : Nat → List Nat → List Char
  | 0, _ => []
  | _ + 1, [] => []
  | f + 1, b :: rest =>
    if b < 0x80 then Char.ofNat b :: utf8DecFuel f rest
    else if 0xC2 ≤ b ∧ b ≤ 0xDF then
      if rest = [] then [replacementChar]
      else if 0x80 ≤ rest.headD 0 ∧ rest.headD 0 ≤ 0xBF then
        Char.ofNat ((b - 0xC0) * 0x40 + (rest.headD 0 - 0x80)) ::
          utf8DecFuel f rest.tail
      else replacementChar :: utf8DecFuel f rest
    else if 0xE0 ≤ b ∧ b ≤ 0xEF then
      if rest = [] then [replacementChar]
      else if (if b = 0xE0 then 0xA0 else 0x80) ≤ rest.headD 0 ∧
          rest.headD 0 ≤ (if b = 0xED then 0x9F else 0xBF) then
        if rest.tail = [] then [replacementChar]
        else if 0x80 ≤ rest.tail.headD 0 ∧ rest.tail.headD 0 ≤ 0xBF then
          Char.ofNat ((b - 0xE0) * 0x1000 + (rest.headD 0 - 0x80) * 0x40 +
            (rest.tail.headD 0 - 0x80)) :: utf8DecFuel f rest.tail.tail
        else replacementChar :: utf8DecFuel f rest.tail
      else replacementChar :: utf8DecFuel f rest
    else if 0xF0 ≤ b ∧ b ≤ 0xF4 then
      if rest = [] then [replacementChar]
      else if (if b = 0xF0 then 0x90 else 0x80) ≤ rest.headD 0 ∧
          rest.headD 0 ≤ (if b = 0xF4 then 0x8F else 0xBF) then
        if rest.tail = [] then [replacementChar]
        else if 0x80 ≤ rest.tail.headD 0 ∧ rest.tail.headD 0 ≤ 0xBF then
          if rest.tail.tail = [] then [replacementChar]
          else if 0x80 ≤ rest.tail.tail.headD 0 ∧
              rest.tail.tail.headD 0 ≤ 0xBF then
            Char.ofNat ((b - 0xF0) * 0x40000 +
              (rest.headD 0 - 0x80) * 0x1000 +
              (rest.tail.headD 0 - 0x80) * 0x40 +
              (rest.tail.tail.headD 0 - 0x80)) ::
              utf8DecFuel f rest.tail.tail.tail
          else replacementChar :: utf8DecFuel f rest.tail.tail
        else replacementChar :: utf8DecFuel f rest.tail
      else replacementChar :: utf8DecFuel f rest
    else replacementChar :: utf8DecFuel f rest

def utf8DecodeReplace (bs : List Nat) : List Char :=
  utf8DecFuel bs.length bs

/-- `urllib.parse.quote`'s always-safe bytes: ALPHA / DIGIT / `_.-~`. -/
def isAlwaysSafeByte (b : Nat) : Bool :=
  (0x41 ≤ b ∧ b ≤ 0x5A) ∨ (0x61 ≤ b ∧ b ≤ 0x7A) ∨ (0x30 ≤ b ∧ b ≤ 0x39) ∨
  b = 0x5F ∨ b = 0x2E ∨ b = 0x2D ∨ b = 0x7E

def hexUpper (n : Nat) : Char :=
  if n < 10 then Char.ofNat (0x30 + n) else Char.ofNat (0x37 + n)

def quoteByte (spaceSafe : Bool) (b : Nat) : List Char :=
  if isAlwaysSafeByte b = true ∨ (spaceSafe = true ∧ b = 0x20) then
    [Char.ofNat b]
  else ['%', hexUpper (b / 16), hexUpper (b % 16)]

/-- `urllib.parse.quote(s, safe)` with `safe=""` (`spaceSafe = false`) or
`safe=" "` (`spaceSafe = true`), as `quote_plus` uses it. -/
def quote (spaceSafe : Bool) (s : List Char) : List Char :=
  ((utf8Encode s).map (quoteByte spaceSafe)).flatten

/-- `urllib.parse.quote_plus(s, safe="")`. -/
def quote_plus (s : List Char) : List Char :=
  if ' ' ∈ s then (quote true s).map (fun c => if c = ' ' then '+' else c)
  else quote false s

/-- `urllib.parse.urlencode(pairs, doseq=True)` for string pairs. -/
def urlencode (pairs : List (List Char × List Char)) : List Char :=
  List.intercalate ['&']
    (pairs.map (fun kv => quote_plus kv.1 ++ '=' :: quote_plus kv.2))

def isHexDigitCh (c : Char) : Bool :=
  ('0' ≤ c ∧ c ≤ '9') ∨ ('a' ≤ c ∧ c ≤ 'f') ∨ ('A' ≤ c ∧ c ≤ 'F')

def hexVal (c : Char) : Nat :=
  if '0' ≤ c ∧ c ≤ '9' then c.toNat - 0x30
  else if 'a' ≤ c ∧ c ≤ 'f' then c.toNat - 0x57
  else c.toNat - 0x37

/-- Fuel-indexed scanner behind `unquote_to_bytes`; one unit of fuel per
consumed character suffices. -/
def uqbFuel : Nat → List Char → List Nat
  | 0, _ => []
  | _ + 1, [] => []
  | f + 1, c :: r =>
    if c = '%' then
      if 2 ≤ r.length ∧ isHexDigitCh (r.headD ' ') = true ∧
          isHexDigitCh (r.tail.headD ' ') = true then
        (hexVal (r.headD ' ') * 16 + hexVal (r.tail.headD ' ')) ::
          uqbFuel f r.tail.tail
      else 0x25 :: uqbFuel f r
    else c.toNat :: uqbFuel f r

/-- `urllib.parse.unquote_to_bytes` on an ASCII chunk: `%XY` with two hex
digits becomes the byte, any other `%` stays literal. -/
def unquote_to_bytes (s : List Char) : List Nat := uqbFuel s.length s

def isAsciiCh (c : Char) : Bool := c.toNat ≤ 0x7F

/-- Grouping of a string into maximal runs of ASCII / non-ASCII characters
(the `_asciire.split` of `urllib.parse.unquote`). -/
def asciiRuns : List Char → List (Bool × List Char)
  | [] => []
  | c :: r =>
    let rs := asciiRuns r
    if rs = [] then [(isAsciiCh c, [c])]
    else if (rs.headD (true, [])).1 = isAsciiCh c then
      (isAsciiCh c, c :: (rs.headD (true, [])).2) :: rs.tail
    else (isAsciiCh c, [c]) :: rs

/-- `urllib.parse.unquote(s, encoding="utf-8", errors="replace")`: each
maximal ASCII run is percent-decoded to bytes and UTF-8-decoded with
replacement; non-ASCII runs pass through; a string without `%` is
returned unchanged. -/
def unquote (s : List Char) : List Char :=
  if '%' ∈ s then
    ((asciiRuns s).map (fun r =>
      if r.1 = true then utf8DecodeReplace (unquote_to_bytes r.2)
      else r.2)).flatten
  else s

def replacePlus (s : List Char) : List Char :=
  s.map (fun c => if c = '+' then ' ' else c)

def splitOn (sep : Char) : List Char → List (List Char)
  | [] => [[]]
  | c :: r =>
    match splitOn sep r with
    | [] => [[c]]
    | p :: ps => if c = sep then [] :: p :: ps else (c :: p) :: ps

/-- `urllib.parse.parse_qsl(qs, keep_blank_values=True)` as `canonicalize_url`
calls it: empty segments are skipped; a segment without `=` keeps a blank
value; `+` becomes a space before percent-decoding. -/
def parse_qsl (qs : List Char) : List (List Char × List Char) :=
  if qs = [] then []
  else (splitOn '&' qs).filterMap (fun nv =>
    if nv = [] then none
    else if '=' ∈ nv then
      some (unquote (replacePlus (nv.takeWhile (· ≠ '='))),
            unquote (replacePlus ((nv.dropWhile (· ≠ '=')).tail)))
    else some (unquote (replacePlus nv), []))

def c0OrSpace (c : Char) : Bool := c.toNat ≤ 0x20

def tabCrLf (c : Char) : Bool := c = '\t' ∨ c = '\r' ∨ c = '\n'

def isSchemeChar (c : Char) : Bool :=
  ('a' ≤ c ∧ c ≤ 'z') ∨ ('A' ≤ c ∧ c ≤ 'Z') ∨ ('0' ≤ c ∧ c ≤ '9') ∨
  c = '+' ∨ c = '-' ∨ c = '.'

structure SplitResult where
  scheme : List Char
  netloc : List Char
  path : List Char
  query : List Char
  fragment : List Char
deriving DecidableEq

/-- The scheme detection of `urlsplit`: `i = url.find(':')`, `i > 0`, all
chars of `url[:i]` in `scheme_chars` — then lowercased scheme and rest. -/
def schemeSplit (url : List Char) : List Char × List Char :=
  if ':' ∈ url ∧ url.takeWhile (· ≠ ':') ≠ [] ∧
      (url.takeWhile (· ≠ ':')).all isSchemeChar = true then
    (pyLower (url.takeWhile (· ≠ ':')), (url.dropWhile (· ≠ ':')).tail)
  else ([], url)

/-- `urllib.parse._splitnetloc(url, 2)`: the netloc runs to the first of
`/?#` after the `//`. -/
def splitnetloc (url : List Char) : List Char × List Char :=
  ((url.drop 2).takeWhile (fun c => c ≠ '/' ∧ c ≠ '?' ∧ c ≠ '#'),
   (url.drop 2).dropWhile (fun c => c ≠ '/' ∧ c ≠ '?' ∧ c ≠ '#'))

/-- `url.split("#", 1)` when `#` occurs, else no fragment. -/
def fragSplit (url : List Char) : List Char × List Char :=
  if '#' ∈ url then
    (url.takeWhile (· ≠ '#'), (url.dropWhile (· ≠ '#')).tail)
  else (url, [])

/-- `url.split("?", 1)` when `?` occurs, else no query. -/
def querySplit (url : List Char) : List Char × List Char :=
  if '?' ∈ url then
    (url.takeWhile (· ≠ '?'), (url.dropWhile (· ≠ '?')).tail)
  else (url, [])

/-- CPython 3.10 `urllib.parse.urlsplit` (allow_fragments=True): WHATWG
lstrip of C0-controls/space, removal of tab/CR/LF, scheme detection
(lowercased), `_splitnetloc` at the first of `/?#`, the IPv6 bracket
`ValueError` (modelled as `none`), then fragment and query splits. -/
def urlsplit (url0 : List Char) : Option SplitResult :=
  let url1 := (url0.dropWhile c0OrSpace).filter (fun c => tabCrLf c = false)
  let sr := schemeSplit url1
  let nr :=
    if listStartsWith sr.2 "//".toList then splitnetloc sr.2
    else ([], sr.2)
  if ('[' ∈ nr.1 ∧ ¬ ']' ∈ nr.1) ∨ (']' ∈ nr.1 ∧ ¬ '[' ∈ nr.1) then none
  else
    let rf := fragSplit nr.2
    let pq := querySplit rf.1
    some ⟨sr.1, nr.1, pq.1, pq.2, rf.2⟩

/-- `urllib.parse.urlunsplit` with the fragment always empty (as
`canonicalize_url` passes it). -/
def urlunsplit (scheme netloc path query : List Char) : List Char :=
  let url1 :=
    if netloc ≠ [] ∨ (path ≠ [] ∧ listStartsWith path "//".toList) then
      '/' :: '/' :: (netloc ++
        (if path ≠ [] ∧ ¬ listStartsWith path "/".toList
         then '/' :: path else path))
    else path
  let url2 := if scheme ≠ [] then scheme ++ ':' :: url1 else url1
  if query ≠ [] then url2 ++ '?' :: query else url2

/-- Strict lexicographic comparison of strings by code point (Python
`str <`). -/
def strLtB : List Char → List Char → Bool
  | [], [] => false
  | [], _ :: _ => true
  | _ :: _, [] => false
  | a :: as, b :: bs => if a < b then true else if b < a then false
    else strLtB as bs

/-- Total preorder underlying `kept.sort(key=lambda kv: (kv[0].lower(),
kv[1]))`. -/
def keyLe (a b : List Char × List Char) : Bool :=
  if strLtB (pyLower a.1) (pyLower b.1) then true
  else if strLtB (pyLower b.1) (pyLower a.1) then false
  else if strLtB b.2 a.2 then false
  else true

def drop_params : List (List Char) :=
  ["utm_source", "utm_medium", "utm_campaign", "utm_term", "utm_content",
   "utm_id", "utm_name", "utm_reader", "utm_viz_id", "utm_pubreferrer",
   "fbclid", "gclid", "igshid", "mc_cid", "mc_eid", "mkt_tok",
   "ref", "ref_src"].map String.toList

/-- `db.canonicalize_url`: strip, urlsplit, lowercase scheme (default
`https`) and netloc, default path `/`, drop the fragment, drop tracking
params, stable-sort the remaining pairs by `(k.lower(), v)`, re-encode;
on `ValueError` return the stripped input. The stable sort is modelled by
`List.insertionSort` over the total preorder `keyLe`. -/
def canonicalize_url (url : List Char) : List Char :=
  match urlsplit (pyStrip url) with
  | none => pyStrip url
  | some parts =>
    let scheme := if pyLower parts.scheme = [] then "https".toList
      else pyLower parts.scheme
    let netloc := pyLower parts.netloc
    let path := if parts.path = [] then "/".toList else parts.path
    let kept := (parse_qsl parts.query).filter
      (fun kv => ¬ pyLower kv.1 ∈ drop_params)
    let sorted := List.insertionSort (fun a b => keyLe a b = true) kept
    urlunsplit scheme netloc path (urlencode sorted)

theorem listStartsWith_iff {hay pre : List Char} :
    listStartsWith hay pre = true ↔ pre <+: hay := by
  induction hay generalizing pre with
  | nil =>
    cases pre with
    | nil => simp [listStartsWith]
    | cons b bs => simp [listStartsWith]
  | cons a as ih =>
    cases pre with
    | nil => simp [listStartsWith]
    | cons b bs =>
      simp only [listStartsWith, Bool.and_eq_true, decide_eq_true_eq, ih,
        List.cons_prefix_cons]
      exact ⟨fun h => ⟨h.1.symm, h.2⟩, fun h => ⟨h.1.symm, h.2⟩⟩

theorem containsSub_iff {hay needle : List Char} :
    containsSub hay needle = true ↔ needle <:+: hay := by
  induction hay with
  | nil =>
    simp [containsSub, listStartsWith_iff]
  | cons a as ih =>
    simp only [containsSub, Bool.or_eq_true, listStartsWith_iff, ih,
      List.infix_cons_iff]

/-- C9: for every (title, body) pair, if any keyword of the exclusion set
occurs as a (case-insensitive) substring of title+body then the Relevance
Gate's score is 0, regardless of how many high/medium/company/tech keywords
also match; in particular any title containing "Best recipes for apple pie"
scores 0 whatever the body is. -/
theorem C9_exclusion_forces_zero_score :
    (∀ title content : List Char,
      (∃ kw ∈ EXCLUDE_KEYWORDS, kw <:+: pyLower (title ++ ' ' :: content)) →
      calculate_relevance_score title content = 0) ∧
    (∀ content : List Char,
      calculate_relevance_score "Best recipes for apple pie".toList content = 0) := by
  constructor
  · intro title content h
    unfold calculate_relevance_score
    rw [if_pos]
    exact List.any_eq_true.mpr
      (h.imp fun kw ⟨hmem, hsub⟩ => ⟨hmem, containsSub_iff.mpr hsub⟩)
  · intro content
    unfold calculate_relevance_score
    rw [if_pos]
    refine List.any_eq_true.mpr ⟨"recipe".toList, by decide, ?_⟩
    have h1 : "recipe".toList <:+: pyLower "Best recipes for apple pie".toList := by
      decide
    have h2 : pyLower "Best recipes for apple pie".toList <:+:
        pyLower ("Best recipes for apple pie".toList ++ ' ' :: content) := by
      unfold pyLower
      rw [List.map_append]
      exact (List.prefix_append _ _).isInfix
    exact containsSub_iff.mpr (h1.trans h2)

/-- Witness for C9: the exclusion hypothesis holds at a concrete pair whose
body carries several otherwise-scoring keywords, and the gate returns 0. -/
theorem C9_exclusion_forces_zero_score_witness :
    calculate_relevance_score "Best recipes for apple pie".toList
      "hyperscale data center colocation campus".toList = 0 :=
  C9_exclusion_forces_zero_score.1 _ _ ⟨"recipe".toList, by decide, by decide⟩

theorem recencyKeep_iff {parseDt : List Char → Option Int} {cutoff : Int}
    {a : NewsItem} :
    recencyKeep parseDt cutoff a = true ↔
      ∃ pd, a.published_date = some pd ∧ pd ≠ [] ∧
        ∃ dt, parseDt pd = some dt ∧ cutoff ≤ dt := by
  unfold recencyKeep
  cases hpd : a.published_date with
  | none => simp
  | some pd =>
    by_cases he : pd = []
    · simp [he]
    · cases hdt : parseDt pd with
      | none => simp [he, hdt]
      | some dt => simp [he, hdt]

/-- C7 counterexample: the code has no upper bound `dt ≤ now`: an article
whose `published_date` parses to one day in the future (now = 0,
dt = 86400) is returned by the filter with an active 7-day window, while
the claim's interval `[now - 7 days, now]` excludes it. -/
theorem C7_recency_filter_counterexample :
    filter_by_recency_days (fun s => if s = "f".toList then some 86400 else none)
        0 7 [⟨[], [], [], [], [], some "f".toList⟩] =
      [⟨[], [], [], [], [], some "f".toList⟩] ∧
    ¬ ((86400 : Int) ≤ 0) := by
  constructor
  · decide
  · decide

/-- C7 (amended): for every candidate list and every `window_days > 0` the
recency filter returns exactly (order preserved) the candidates whose
`published_at` is present, non-empty and parses to a timestamp
`≥ now - window_days` (no upper bound is enforced, so future-dated items
pass); candidates lacking a parseable `published_at` are dropped while the
window is active, and with `window_days ≤ 0` the input is returned
unchanged. -/
theorem C7_recency_filter_amended (parseDt : List Char → Option Int)
    (now days : Int) (articles : List NewsItem) :
    (0 < days →
      (filter_by_recency_days parseDt now days articles).Sublist articles ∧
      ∀ a, a ∈ filter_by_recency_days parseDt now days articles ↔
        a ∈ articles ∧ ∃ pd, a.published_date = some pd ∧ pd ≠ [] ∧
          ∃ dt, parseDt pd = some dt ∧ now - days * 86400 ≤ dt) ∧
    (days ≤ 0 → filter_by_recency_days parseDt now days articles = articles) := by
  constructor
  · intro hpos
    have hneg : ¬ days ≤ 0 := not_le.mpr hpos
    constructor
    · unfold filter_by_recency_days
      rw [if_neg hneg]
      exact List.filter_sublist _
    · intro a
      unfold filter_by_recency_days
      rw [if_neg hneg]
      simp only [List.mem_filter, recencyKeep_iff]
  · intro hle
    unfold filter_by_recency_days
    rw [if_pos hle]

/-- Witness for C7 (amended): both implications hold at concrete inputs. -/
theorem C7_recency_filter_amended_witness :
    (filter_by_recency_days (fun _ => some 5) 10 7
        [(⟨"t".toList, [], [], [], [], some "d".toList⟩ : NewsItem)]).Sublist
      [(⟨"t".toList, [], [], [], [], some "d".toList⟩ : NewsItem)] ∧
    filter_by_recency_days (fun _ => some 5) 10 0 [] = [] :=
  ⟨((C7_recency_filter_amended (fun _ => some 5) 10 7
      [(⟨"t".toList, [], [], [], [], some "d".toList⟩ : NewsItem)]).1
      (by decide)).1,
   (C7_recency_filter_amended (fun _ => some 5) 10 0 []).2 (by decide)⟩

theorem firstOccByUrl_sublist (seen : List (List Char)) (items : List NewsItem) :
    List.Sublist (firstOccByUrl seen items) items := by
  induction items generalizing seen with
  | nil => simp [firstOccByUrl]
  | cons it rest ih =>
    unfold firstOccByUrl
    by_cases hs : pyStrip it.url = [] ∨ pyStrip it.url ∈ seen
    · rw [if_pos hs]
      exact (ih seen).cons it
    · rw [if_neg hs]
      exact (ih _).cons₂ it

theorem firstOccByUrl_not_seen (seen : List (List Char)) (items : List NewsItem) :
    ∀ a ∈ firstOccByUrl seen items, pyStrip a.url ∉ seen ∧ pyStrip a.url ≠ [] := by
  induction items generalizing seen with
  | nil => simp [firstOccByUrl]
  | cons it rest ih =>
    unfold firstOccByUrl
    by_cases hs : pyStrip it.url = [] ∨ pyStrip it.url ∈ seen
    · rw [if_pos hs]
      exact ih seen
    · rw [if_neg hs]
      push_neg at hs
      intro a ha
      rcases List.mem_cons.mp ha with rfl | ha
      · exact ⟨hs.2, hs.1⟩
      · have h := ih _ a ha
        exact ⟨fun hc => h.1 (List.mem_cons_of_mem _ hc), h.2⟩

theorem firstOccByUrl_pairwise (seen : List (List Char)) (items : List NewsItem) :
    (firstOccByUrl seen items).Pairwise
      (fun a b => pyStrip a.url ≠ pyStrip b.url) := by
  induction items generalizing seen with
  | nil => simp [firstOccByUrl]
  | cons it rest ih =>
    unfold firstOccByUrl
    by_cases hs : pyStrip it.url = [] ∨ pyStrip it.url ∈ seen
    · rw [if_pos hs]
      exact ih seen
    · rw [if_neg hs]
      refine List.Pairwise.cons ?_ (ih _)
      intro b hb hc
      have h := (firstOccByUrl_not_seen _ _ b hb).1
      exact h (by rw [← hc]; exact List.mem_cons_self _ _)

theorem dedupeGo_eq (items : List NewsItem) :
    ∀ (cap : Nat) (seen : List (List Char)), 1 ≤ cap →
    dedupeGo cap seen items =
      ((firstOccByUrl seen items).take cap,
       ((firstOccByUrl seen items).take cap).map mkSourceEntry) := by
  induction items with
  | nil => intro cap seen _; simp [dedupeGo, firstOccByUrl]
  | cons it rest ih =>
    intro cap seen hcap
    unfold dedupeGo firstOccByUrl
    by_cases hs : pyStrip it.url = [] ∨ pyStrip it.url ∈ seen
    · rw [if_pos hs, if_pos hs]
      exact ih cap seen hcap
    · rw [if_neg hs, if_neg hs]
      by_cases hc : cap ≤ 1
      · have hone : cap = 1 := le_antisymm hc hcap
        subst hone
        simp
      · obtain ⟨cap', rfl⟩ : ∃ c, cap = c + 1 := ⟨cap - 1, by omega⟩
        rw [if_neg hc]
        have h1 : 1 ≤ cap' := by omega
        rw [show cap' + 1 - 1 = cap' from rfl, ih cap' _ h1]
        simp

/-- C1 counterexample: with cap `N = 0` (Python `max_sources or 10` turns 0
into the default 10, then clamps to `[1, 25]`), a single-item list yields
one source, so `len(sources) ≤ N` fails. -/
theorem C1_dedupe_and_cap_counterexample :
    (dedupe_and_cap_sources
        [⟨"t".toList, [], "u".toList, "s".toList, [], none⟩] 0).2.length = 1 ∧
    ¬ ((1 : Int) ≤ 0) := by
  constructor
  · decide
  · decide

/-- C1 (amended): for every ordered candidate list and every cap `N ≥ 1`
(the effective cap is `min N 25`; a cap of 0 defaults to 10 and negative
caps clamp to 1), `_dedupe_and_cap_sources` returns `(selected, sources)`
where `sources` lists pairwise-distinct URLs, for each duplicate URL the
first occurrence in the input wins (`selected` is the cap-truncation of the
first-occurrence dedup of the input), `len(sources) = len(selected) ≤ N`,
`selected` preserves input order, and `sources[i]` is populated from
`selected[i]`'s title/stripped url/source (bound to citation index `i+1` by
its position). -/
theorem C1_dedupe_and_cap_amended (items : List NewsItem) (N : Int)
    (hN : 1 ≤ N) :
    (dedupe_and_cap_sources items N).2 =
        (dedupe_and_cap_sources items N).1.map mkSourceEntry ∧
      ((dedupe_and_cap_sources items N).2.map SourceEntry.url).Pairwise (· ≠ ·) ∧
      (dedupe_and_cap_sources items N).2.length =
        (dedupe_and_cap_sources items N).1.length ∧
      ((dedupe_and_cap_sources items N).2.length : Int) ≤ N ∧
      List.Sublist (dedupe_and_cap_sources items N).1 items ∧
      (dedupe_and_cap_sources items N).1 =
        (firstOccByUrl [] items).take (min N 25).toNat := by
  have hne : ¬ N = 0 := by omega
  have hcap1 : 1 ≤ (max 1 (min N 25)).toNat := by omega
  have hmaxeq : max 1 (min N 25) = min N 25 := by omega
  have heq := dedupeGo_eq items (max 1 (min N 25)).toNat [] hcap1
  have hfst : (dedupe_and_cap_sources items N).1 =
      (firstOccByUrl [] items).take (max 1 (min N 25)).toNat := by
    unfold dedupe_and_cap_sources
    rw [if_neg hne, heq]
  have hsnd : (dedupe_and_cap_sources items N).2 =
      ((firstOccByUrl [] items).take (max 1 (min N 25)).toNat).map mkSourceEntry := by
    unfold dedupe_and_cap_sources
    rw [if_neg hne, heq]
  refine ⟨by rw [hfst, hsnd], ?_, ?_, ?_, ?_, ?_⟩
  · rw [hsnd]
    have hpw := (firstOccByUrl_pairwise [] items).sublist
      (List.take_sublist (max 1 (min N 25)).toNat (firstOccByUrl [] items))
    rw [List.map_map]
    exact (List.pairwise_map).mpr hpw
  · rw [hfst, hsnd, List.length_map]
  · rw [hsnd, List.length_map]
    calc (((firstOccByUrl [] items).take (max 1 (min N 25)).toNat).length : Int)
        ≤ ((max 1 (min N 25)).toNat : Int) := by
          exact_mod_cast List.length_take_le _ _
      _ ≤ N := by omega
  · rw [hfst]
    exact (List.take_sublist _ _).trans (firstOccByUrl_sublist [] items)
  · rw [hfst, hmaxeq]

/-- Witness for C1 (amended): a concrete list with a duplicate URL and cap 2
is deduplicated, capped and aligned. -/
theorem C1_dedupe_and_cap_amended_witness :
    (dedupe_and_cap_sources
        [⟨"a".toList, [], "u1".toList, "s".toList, [], none⟩,
         ⟨"b".toList, [], "u1".toList, "s".toList, [], none⟩,
         ⟨"c".toList, [], "u2".toList, "s".toList, [], none⟩] 2).2 =
      (dedupe_and_cap_sources
        [⟨"a".toList, [], "u1".toList, "s".toList, [], none⟩,
         ⟨"b".toList, [], "u1".toList, "s".toList, [], none⟩,
         ⟨"c".toList, [], "u2".toList, "s".toList, [], none⟩] 2).1.map
        mkSourceEntry :=
  (C1_dedupe_and_cap_amended
    [⟨"a".toList, [], "u1".toList, "s".toList, [], none⟩,
     ⟨"b".toList, [], "u1".toList, "s".toList, [], none⟩,
     ⟨"c".toList, [], "u2".toList, "s".toList, [], none⟩] 2 (by decide)).1

theorem renderToks_cons (t : CTok) (ts : List CTok) :
    renderToks (t :: ts) = renderTok t ++ renderToks ts := by
  simp [renderToks]

theorem parseMark_some {rest ds tail : List Char}
    (h : parseMark rest = some (ds, tail)) :
    rest = ds ++ ']' :: tail ∧ ds ≠ [] ∧ ds.all isDigitCh = true ∧
      tail.length < rest.length := by
  unfold parseMark at h
  by_cases hc : rest.takeWhile isDigitCh ≠ [] ∧
      (rest.dropWhile isDigitCh).head? = some ']'
  · rw [if_pos hc] at h
    obtain ⟨rfl, rfl⟩ : rest.takeWhile isDigitCh = ds ∧
        (rest.dropWhile isDigitCh).tail = tail := by simpa using h
    have hsplit := List.takeWhile_append_dropWhile isDigitCh rest
    have hdw : rest.dropWhile isDigitCh =
        ']' :: (rest.dropWhile isDigitCh).tail := by
      rcases hd : rest.dropWhile isDigitCh with _ | ⟨c, t⟩
      · exact absurd hc.2 (by simp [hd])
      · have hcj : c = ']' := by
          have := hc.2
          rw [hd] at this
          simpa using this
        rw [hcj]
        rfl
    refine ⟨?_, hc.1, ?_, ?_⟩
    · calc rest = rest.takeWhile isDigitCh ++ rest.dropWhile isDigitCh :=
            hsplit.symm
        _ = rest.takeWhile isDigitCh ++
              ']' :: (rest.dropWhile isDigitCh).tail := by rw [← hdw]
    · exact List.all_eq_true.mpr fun c hcm => List.mem_takeWhile_imp hcm
    · have h1 := congrArg List.length hsplit
      have h2 := congrArg List.length hdw
      have h3 : 0 < (rest.takeWhile isDigitCh).length :=
        List.length_pos.mpr hc.1
      simp only [List.length_append, List.length_cons] at h1 h2
      omega
  · rw [if_neg hc] at h
    exact absurd h (by simp)

theorem parseMark_append {ds r : List Char} (hne : ds ≠ [])
    (hdig : ds.all isDigitCh = true) :
    parseMark (ds ++ ']' :: r) = some (ds, r) := by
  have hnd : isDigitCh ']' = false := rfl
  have htw : ∀ ds : List Char, ds.all isDigitCh = true →
      (ds ++ ']' :: r).takeWhile isDigitCh = ds := by
    intro ds hdig
    induction ds with
    | nil => simp [List.takeWhile_cons, hnd]
    | cons d dt ih =>
      simp only [List.all_cons, Bool.and_eq_true] at hdig
      simp only [List.cons_append, List.takeWhile_cons, hdig.1, if_true]
      rw [ih hdig.2]
  have hdw : ∀ ds : List Char, ds.all isDigitCh = true →
      (ds ++ ']' :: r).dropWhile isDigitCh = ']' :: r := by
    intro ds hdig
    induction ds with
    | nil => simp [List.dropWhile_cons, hnd]
    | cons d dt ih =>
      simp only [List.all_cons, Bool.and_eq_true] at hdig
      simp only [List.cons_append, List.dropWhile_cons, hdig.1, if_true]
      exact ih hdig.2
  unfold parseMark
  rw [if_pos]
  · rw [htw ds hdig, hdw ds hdig]
    rfl
  · rw [htw ds hdig, hdw ds hdig]
    exact ⟨hne, rfl⟩

theorem ctokFuel_eq_of_le :
    ∀ (f g : Nat) (s : List Char), s.length ≤ f → s.length ≤ g →
      ctokFuel f s = ctokFuel g s := by
  intro f
  induction f with
  | zero =>
    intro g s hf _
    have : s = [] := List.length_eq_zero.mp (Nat.le_zero.mp hf)
    subst this
    cases g <;> rfl
  | succ f ih =>
    intro g s hf hg
    cases s with
    | nil => cases g <;> rfl
    | cons c rest =>
      cases g with
      | zero => simp at hg
      | succ g =>
        simp only [List.length_cons] at hf hg
        simp only [ctokFuel]
        by_cases hcb : c = '['
        · rw [if_pos hcb, if_pos hcb]
          cases hp : parseMark rest with
          | none =>
            rw [ih g rest (by omega) (by omega)]
          | some pr =>
            obtain ⟨ds, tail⟩ := pr
            have hl := (parseMark_some hp).2.2.2
            show CTok.mark ds :: ctokFuel f tail = CTok.mark ds :: ctokFuel g tail
            rw [ih g tail (by omega) (by omega)]
        · rw [if_neg hcb, if_neg hcb, ih g rest (by omega) (by omega)]

theorem stripCiteFuel_eq_render (maxCite : Int) :
    ∀ (f : Nat) (s : List Char), s.length ≤ f →
      stripCiteFuel maxCite f s =
        renderToks ((ctokFuel f s).filter (keepTok maxCite)) := by
  intro f
  induction f with
  | zero =>
    intro s h
    have : s = [] := List.length_eq_zero.mp (Nat.le_zero.mp h)
    subst this
    rfl
  | succ f ih =>
    intro s h
    cases s with
    | nil => rfl
    | cons c rest =>
      simp only [List.length_cons] at h
      simp only [stripCiteFuel, ctokFuel]
      by_cases hcb : c = '['
      · rw [if_pos hcb, if_pos hcb]
        cases hp : parseMark rest with
        | none =>
          show c :: stripCiteFuel maxCite f rest =
            renderToks ((CTok.chr c :: ctokFuel f rest).filter (keepTok maxCite))
          rw [ih rest (by omega)]
          simp [renderToks_cons, renderTok, keepTok, List.filter_cons]
        | some pr =>
          obtain ⟨ds, tail⟩ := pr
          have hl := (parseMark_some hp).2.2.2
          show (if citeInRange maxCite ds then '[' :: (ds ++ [']']) else []) ++
              stripCiteFuel maxCite f tail =
            renderToks ((CTok.mark ds :: ctokFuel f tail).filter (keepTok maxCite))
          rw [ih tail (by omega)]
          by_cases hk : citeInRange maxCite ds = true
          · simp [renderToks_cons, renderTok, keepTok, hk, List.filter_cons]
          · simp [renderToks_cons, renderTok, keepTok, hk, List.filter_cons]
      · rw [if_neg hcb, if_neg hcb, ih rest (by omega)]
        simp [renderToks_cons, renderTok, keepTok, List.filter_cons]

/-- The stripper is the canonical decomposition filtered on the keep test:
out-of-range markers are removed, in-range markers and all plain characters
are kept verbatim, in order. -/
theorem strip_eq_renderFilter (maxCite : Int) (s : List Char) :
    strip_out_of_range_citations maxCite s =
      renderToks ((ctokenize s).filter (keepTok maxCite)) :=
  stripCiteFuel_eq_render maxCite s.length s le_rfl

theorem ctokFuel_renderToks :
    ∀ (ts : List CTok) (f : Nat), (renderToks ts).length ≤ f →
      (∀ t ∈ ts, wfTok t = true) → ctokFuel f (renderToks ts) = ts := by
  intro ts
  induction ts with
  | nil =>
    intro f _ _
    cases f <;> rfl
  | cons t ts ih =>
    intro f hf hwf
    have hwft := hwf t (List.mem_cons_self _ _)
    have hwfr : ∀ u ∈ ts, wfTok u = true :=
      fun u hu => hwf u (List.mem_cons_of_mem _ hu)
    cases t with
    | mark ds =>
      simp only [wfTok, Bool.and_eq_true, decide_eq_true_eq] at hwft
      have hr : renderToks (.mark ds :: ts) =
          '[' :: (ds ++ ']' :: renderToks ts) := by
        rw [renderToks_cons]
        simp [renderTok]
      rw [hr] at hf ⊢
      cases f with
      | zero => simp at hf
      | succ f =>
        simp only [List.length_cons, List.length_append] at hf
        simp only [ctokFuel, if_pos]
        rw [parseMark_append hwft.1 hwft.2]
        show CTok.mark ds :: ctokFuel f (renderToks ts) = CTok.mark ds :: ts
        rw [ih f (by simp at hf; omega) hwfr]
    | chr c =>
      simp only [wfTok, decide_eq_true_eq] at hwft
      have hr : renderToks (.chr c :: ts) = c :: renderToks ts := by
        rw [renderToks_cons]
        simp [renderTok]
      rw [hr] at hf ⊢
      cases f with
      | zero => simp at hf
      | succ f =>
        simp only [List.length_cons] at hf
        simp only [ctokFuel]
        rw [if_neg hwft, ih f (by omega) hwfr]

/-- C10 counterexample: with `max_cite = 1`, stripping `[1[2]3]` removes the
well-formed `[2]` and splices the remaining characters into the new marker
`[13]`, which only a second pass removes — so one application differs from
two, and the output still contains an out-of-range marker. -/
theorem C10_strip_not_idempotent_counterexample :
    strip_out_of_range_citations 1
        (strip_out_of_range_citations 1 "[1[2]3]".toList) ≠
      strip_out_of_range_citations 1 "[1[2]3]".toList ∧
    strip_out_of_range_citations 1 "[1[2]3]".toList = "[13]".toList := by
  constructor
  · decide
  · decide

/-- C10 (amended): `_strip_out_of_range_citations` is idempotent on every
text whose bracket characters all belong to well-formed `[n]` markers
(no stray `[` outside a marker, the `BracketClean` tokenisation condition);
on such texts its output contains no marker with `n` outside
`[1, max_cite]`. In general a removal can concatenate surrounding
characters into a fresh marker and idempotence fails. -/
theorem C10_strip_idempotent_amended (maxCite : Int) (s : List Char)
    (h : BracketClean s = true) :
    strip_out_of_range_citations maxCite
        (strip_out_of_range_citations maxCite s) =
      strip_out_of_range_citations maxCite s := by
  have hwf : ∀ t ∈ ctokenize s, wfTok t = true := by
    intro t ht
    exact List.all_eq_true.mp h t ht
  have hwfF : ∀ t ∈ (ctokenize s).filter (keepTok maxCite), wfTok t = true :=
    fun t ht => hwf t (List.mem_of_mem_filter ht)
  have hL : ctokenize (renderToks ((ctokenize s).filter (keepTok maxCite))) =
      (ctokenize s).filter (keepTok maxCite) :=
    ctokFuel_renderToks ((ctokenize s).filter (keepTok maxCite)) _ le_rfl hwfF
  rw [strip_eq_renderFilter maxCite s]
  rw [strip_eq_renderFilter maxCite
    (renderToks ((ctokenize s).filter (keepTok maxCite)))]
  rw [hL]
  rw [List.filter_eq_self.mpr]
  intro t ht
  exact List.of_mem_filter ht

/-- Witness for C10 (amended): a concrete bracket-clean text, strip applied
twice equals strip applied once. -/
theorem C10_strip_idempotent_amended_witness :
    strip_out_of_range_citations 1
        (strip_out_of_range_citations 1 "a[1]b[2]c".toList) =
      strip_out_of_range_citations 1 "a[1]b[2]c".toList :=
  C10_strip_idempotent_amended 1 "a[1]b[2]c".toList (by decide)

theorem cutSources_append {pre post : List (List Char)} {mk : List Char}
    (hpre : ∀ l ∈ pre, isSourcesMarker l = false)
    (hmk : isSourcesMarker mk = true) :
    cutSources (pre ++ mk :: post) = pre := by
  induction pre with
  | nil => simp [cutSources, List.takeWhile_cons, hmk]
  | cons a pre ih =>
    have ha := hpre a (List.mem_cons_self _ _)
    have ih2 := ih (fun l hl => hpre l (List.mem_cons_of_mem _ hl))
    simp only [cutSources] at ih2 ⊢
    simp [List.takeWhile_cons, ha, ih2]

/-- C2 counterexample: the cut test for a bare `sources` heading is exact
equality (`low == "sources"`), not "starts with": the line
"sources are listed below" starts with "sources" (which the claim says
triggers deletion of it and everything after), yet the cleanup keeps the
content after it. -/
theorem C2_citation_validator_counterexample :
    listStartsWith (pyLower (pyStrip "sources are listed below".toList))
        "sources".toList = true ∧
    isSourcesMarker "sources are listed below".toList = false ∧
    clean_rundown_answer "Exec".toList 1
        "sources are listed below\n## What changed recently\n- Item [1]".toList =
      "## What changed recently\n- Item [1]".toList := by
  refine ⟨by decide, by decide, by decide⟩

/-- C2 (amended): the citation validator removes exactly the `[n]` markers
with `n` outside `[1, max_index]` (all of them when `max_index ≤ 0`),
keeping in-range markers and all other text unchanged — stated as: the
output renders the marker/character decomposition of the input filtered on
the in-range test. The answer-cleanup pass deletes any embedded Sources
section — every line from the first marker line on, where a marker line is
one whose stripped lowercase form starts with "## sources" or "sources:"
or equals "sources" (not: merely starts with "sources") — before the rest
of its pipeline, which only reorders/filters the remaining lines. -/
theorem C2_citation_validator_amended :
    (∀ (maxCite : Int) (s : List Char),
      strip_out_of_range_citations maxCite s =
        renderToks ((ctokenize s).filter (keepTok maxCite))) ∧
    (∀ (pre post : List (List Char)) (mk : List Char),
      (∀ l ∈ pre, isSourcesMarker l = false) → isSourcesMarker mk = true →
      cutSources (pre ++ mk :: post) = pre) ∧
    (∀ (aud0 : List Char) (m : Int) (answer : List Char),
      clean_rundown_answer aud0 m answer =
        cleanFromLines aud0 m (cutSources (pySplitlines (pyStrip answer)))) := by
  refine ⟨strip_eq_renderFilter, ?_, ?_⟩
  · exact fun pre post mk h1 h2 => cutSources_append h1 h2
  · intro aud0 m answer
    unfold clean_rundown_answer
    by_cases h : pyStrip answer = []
    · rw [if_pos h, h]
      rfl
    · rw [if_neg h]

/-- Witness for C2 (amended): the cut deletes a concrete marker line and
everything following it. -/
theorem C2_citation_validator_amended_witness :
    cutSources (["intro line".toList] ++
        "## Sources".toList :: ["www.example.com".toList]) =
      ["intro line".toList] :=
  C2_citation_validator_amended.2.1 ["intro line".toList]
    ["www.example.com".toList] "## Sources".toList (by decide) (by decide)

theorem retrieveBest_eq_fold (dbLookup : Nat → Option ArticleRow)
    (hits : List VecHit) :
    ∀ best, retrieveBest dbLookup hits best =
      (resolvedOf dbLookup hits).foldl (fun b kc => updateBest b kc.1 kc.2)
        best := by
  induction hits with
  | nil => intro best; rfl
  | cons h rest ih =>
    intro best
    unfold retrieveBest resolvedOf
    cases hr : resolveHit dbLookup h with
    | none =>
      have hfm : List.filterMap (resolveHit dbLookup) (h :: rest) =
          List.filterMap (resolveHit dbLookup) rest := by
        simp [List.filterMap_cons, hr]
      rw [hfm]
      exact ih best
    | some kc =>
      have hfm : List.filterMap (resolveHit dbLookup) (h :: rest) =
          kc :: List.filterMap (resolveHit dbLookup) rest := by
        simp [List.filterMap_cons, hr]
      rw [hfm]
      show retrieveBest dbLookup rest (updateBest best kc.1 kc.2) =
        List.foldl (fun b kc => updateBest b kc.1 kc.2)
          (updateBest best kc.1 kc.2) (List.filterMap (resolveHit dbLookup) rest)
      exact ih (updateBest best kc.1 kc.2)

theorem updateBest_keys (best : List (List Char × RankedItem)) (k : List Char)
    (c : RankedItem) :
    (updateBest best k c).map Prod.fst =
      if k ∈ best.map Prod.fst then best.map Prod.fst
      else best.map Prod.fst ++ [k] := by
  induction best with
  | nil => simp [updateBest]
  | cons p rest ih =>
    obtain ⟨k', v⟩ := p
    unfold updateBest
    by_cases hk : k' = k
    · subst hk
      by_cases hrep : (match c.distance, v.distance with
          | some d, some pd => decide (d < pd)
          | some _, none => true
          | none, _ => false) = true
      · rw [if_pos rfl, if_pos hrep]
        have hm : k' ∈ ((k', v) :: rest).map Prod.fst := by
          simp only [List.map_cons]
          exact List.mem_cons_self _ _
        rw [if_pos hm]
        simp only [List.map_cons]
      · rw [if_pos rfl, if_neg hrep]
        have hm : k' ∈ ((k', v) :: rest).map Prod.fst := by
          simp only [List.map_cons]
          exact List.mem_cons_self _ _
        rw [if_pos hm]
    · rw [if_neg hk]
      simp only [List.map_cons, List.mem_cons]
      by_cases hmem : k ∈ rest.map Prod.fst
      · rw [if_pos (Or.inr hmem)]
        simp only [List.map_cons, ih, if_pos hmem]
      · have : ¬ (k = k' ∨ k ∈ rest.map Prod.fst) := by
          rintro (h | h)
          · exact hk h.symm
          · exact hmem h
        rw [if_neg this]
        simp only [List.map_cons, ih, if_neg hmem, List.cons_append]

theorem updateBest_mem (k : List Char) (c : RankedItem) :
    ∀ B p, p ∈ updateBest B k c → p ∈ B ∨ p = (k, c) := by
  intro B
  induction B with
  | nil =>
    intro p hp
    simp only [updateBest] at hp
    right
    simpa using hp
  | cons hd rest ih =>
    obtain ⟨k', v⟩ := hd
    intro p hp
    unfold updateBest at hp
    by_cases hk : k' = k
    · subst hk
      rw [if_pos rfl] at hp
      by_cases hrep : (match c.distance, v.distance with
          | some d, some pd => decide (d < pd)
          | some _, none => true
          | none, _ => false) = true
      · rw [if_pos hrep] at hp
        rcases List.mem_cons.mp hp with rfl | hp
        · exact Or.inr rfl
        · exact Or.inl (List.mem_cons_of_mem _ hp)
      · rw [if_neg hrep] at hp
        exact Or.inl hp
    · rw [if_neg hk] at hp
      rcases List.mem_cons.mp hp with rfl | hp
      · exact Or.inl (List.mem_cons_self _ _)
      · rcases ih p hp with h | h
        · exact Or.inl (List.mem_cons_of_mem _ h)
        · exact Or.inr h

theorem updateBest_mem_ne {k₀ k : List Char} (hne : k₀ ≠ k)
    (c₀ c : RankedItem) :
    ∀ B, ((k₀, c₀) ∈ updateBest B k c ↔ (k₀, c₀) ∈ B) := by
  intro B
  induction B with
  | nil =>
    simp only [updateBest, List.mem_singleton, List.not_mem_nil, iff_false]
    intro h
    exact hne (by simpa using congrArg Prod.fst h)
  | cons hd rest ih =>
    obtain ⟨k', v⟩ := hd
    unfold updateBest
    by_cases hk : k' = k
    · subst hk
      rw [if_pos rfl]
      by_cases hrep : (match c.distance, v.distance with
          | some d, some pd => decide (d < pd)
          | some _, none => true
          | none, _ => false) = true
      · rw [if_pos hrep]
        simp only [List.mem_cons]
        constructor
        · rintro (h | h)
          · exact absurd (congrArg Prod.fst h) (by simpa using hne)
          · exact Or.inr h
        · rintro (h | h)
          · exact absurd (congrArg Prod.fst h) (by simpa using hne)
          · exact Or.inr h
      · rw [if_neg hrep]
    · rw [if_neg hk]
      simp only [List.mem_cons, ih]

theorem updateBest_exists_min (k : List Char) (c : RankedItem) :
    ∀ B, ((B.map Prod.fst).Pairwise (· ≠ ·)) →
      (∀ p ∈ B, p.2.distance.isSome = true) → c.distance.isSome = true →
      ∃ e, (k, e) ∈ updateBest B k c ∧ dq e ≤ dq c ∧
        (∀ p, (k, p) ∈ B → dq e ≤ dq p) := by
  intro B
  induction B with
  | nil =>
    intro _ _ _
    exact ⟨c, by simp [updateBest], le_refl _, by simp⟩
  | cons hd rest ih =>
    obtain ⟨k', v⟩ := hd
    intro hdist hsome hcsome
    simp only [List.map_cons, List.pairwise_cons] at hdist
    by_cases hk : k' = k
    · subst hk
      obtain ⟨dc, hdc⟩ := Option.isSome_iff_exists.mp hcsome
      obtain ⟨dv, hdv⟩ :=
        Option.isSome_iff_exists.mp (hsome (k', v) (List.mem_cons_self _ _))
      have hnotail : ∀ p, (k', p) ∈ rest → False := by
        intro p hp
        exact hdist.1 k' (List.mem_map_of_mem Prod.fst hp) rfl
      unfold updateBest
      rw [if_pos rfl]
      have hmatch : (match c.distance, v.distance with
          | some d, some pd => decide (d < pd)
          | some _, none => true
          | none, _ => false) = decide (dc < dv) := by
        rw [hdc, hdv]
      rw [hmatch]
      have hdqc : dq c = dc := by
        unfold dq
        rw [hdc]
        rfl
      have hdqv : dq v = dv := by
        unfold dq
        rw [hdv]
        rfl
      by_cases hlt : dc < dv
      · rw [if_pos (by simpa using hlt)]
        refine ⟨c, List.mem_cons_self _ _, le_refl _, ?_⟩
        intro p hp
        rcases List.mem_cons.mp hp with h | h
        · have hpv : p = v := by simpa using h
          rw [hpv, hdqc, hdqv]
          exact le_of_lt hlt
        · exact absurd h (fun h => hnotail p h)
      · rw [if_neg (by simpa using hlt)]
        refine ⟨v, List.mem_cons_self _ _, ?_, ?_⟩
        · rw [hdqc, hdqv]
          exact le_of_not_lt hlt
        · intro p hp
          rcases List.mem_cons.mp hp with h | h
          · have hpv : p = v := by simpa using h
            rw [hpv]
          · exact absurd h (fun h => hnotail p h)
    · unfold updateBest
      rw [if_neg hk]
      obtain ⟨e, he, h1, h2⟩ :=
        ih hdist.2 (fun p hp => hsome p (List.mem_cons_of_mem _ hp)) hcsome
      refine ⟨e, List.mem_cons_of_mem _ he, h1, ?_⟩
      intro p hp
      rcases List.mem_cons.mp hp with h | h
      · exact absurd (congrArg Prod.fst h).symm hk
      · exact h2 p h

theorem updateBest_some (k : List Char) (c : RankedItem)
    (hc : c.distance.isSome = true) (B : List (List Char × RankedItem))
    (hB : ∀ p ∈ B, p.2.distance.isSome = true) :
    ∀ p ∈ updateBest B k c, p.2.distance.isSome = true := by
  intro p hp
  rcases updateBest_mem k c B p hp with h | h
  · exact hB p h
  · rw [h]
    exact hc

theorem updateBest_pairwise (k : List Char) (c : RankedItem)
    (B : List (List Char × RankedItem))
    (hB : (B.map Prod.fst).Pairwise (· ≠ ·)) :
    ((updateBest B k c).map Prod.fst).Pairwise (· ≠ ·) := by
  rw [updateBest_keys]
  by_cases hmem : k ∈ B.map Prod.fst
  · rw [if_pos hmem]; exact hB
  · rw [if_neg hmem]
    rw [List.pairwise_append]
    refine ⟨hB, List.pairwise_singleton _ _, ?_⟩
    intro a ha b hb
    have : b = k := by simpa using hb
    subst this
    intro hc
    exact hmem (hc ▸ ha)

theorem mem_unique_of_pairwise_keys {B : List (List Char × RankedItem)}
    (h : (B.map Prod.fst).Pairwise (· ≠ ·)) {k : List Char} {a b : RankedItem}
    (ha : (k, a) ∈ B) (hb : (k, b) ∈ B) : a = b := by
  induction B with
  | nil => cases ha
  | cons hd rest ih =>
    simp only [List.map_cons, List.pairwise_cons] at h
    rcases List.mem_cons.mp ha with ha' | ha' <;>
      rcases List.mem_cons.mp hb with hb' | hb'
    · rw [← ha'] at hb'
      exact (congrArg Prod.snd hb').symm
    · exfalso
      have hk : hd.1 = k := congrArg Prod.fst ha'.symm
      exact h.1 k (List.mem_map_of_mem Prod.fst hb') hk
    · exfalso
      have hk : hd.1 = k := congrArg Prod.fst hb'.symm
      exact h.1 k (List.mem_map_of_mem Prod.fst ha') hk
    · exact ih h.2 ha' hb'

theorem foldBest_inv :
    ∀ (L acc : List (List Char × RankedItem)),
    (∀ p ∈ L, p.2.distance.isSome = true) →
    (∀ p ∈ acc, p.2.distance.isSome = true) →
    ((acc.map Prod.fst).Pairwise (· ≠ ·)) →
    (((L.foldl (fun b kc => updateBest b kc.1 kc.2) acc).map
        Prod.fst).Pairwise (· ≠ ·)) ∧
    (∀ p ∈ L.foldl (fun b kc => updateBest b kc.1 kc.2) acc,
      p ∈ acc ∨ p ∈ L) ∧
    (∀ kk cc, (kk, cc) ∈ L.foldl (fun b kc => updateBest b kc.1 kc.2) acc →
      ∀ p, (kk, p) ∈ acc → dq cc ≤ dq p) ∧
    (∀ kk cc, (kk, cc) ∈ L.foldl (fun b kc => updateBest b kc.1 kc.2) acc →
      ∀ c', (kk, c') ∈ L → dq cc ≤ dq c') := by
  intro L
  induction L with
  | nil =>
    intro acc _ hsome hdist
    refine ⟨hdist, fun p hp => Or.inl hp, fun kk cc hm p hp => ?_,
      fun kk cc _ c' hc' => absurd hc' (List.not_mem_nil _)⟩
    rw [mem_unique_of_pairwise_keys hdist hm hp]
  | cons p₀ L' ih =>
    intro acc hLsome haccsome haccdist
    obtain ⟨k₀, c₀⟩ := p₀
    have hc₀some : c₀.distance.isSome = true :=
      hLsome (k₀, c₀) (List.mem_cons_self _ _)
    have hL'some : ∀ p ∈ L', p.2.distance.isSome = true :=
      fun p hp => hLsome p (List.mem_cons_of_mem _ hp)
    have hacc'some : ∀ p ∈ updateBest acc k₀ c₀, p.2.distance.isSome = true :=
      updateBest_some k₀ c₀ hc₀some acc haccsome
    have hacc'dist := updateBest_pairwise k₀ c₀ acc haccdist
    obtain ⟨e, hemem, hec, hemin⟩ :=
      updateBest_exists_min k₀ c₀ acc haccdist haccsome hc₀some
    obtain ⟨hA, hB, hC, hD⟩ :=
      ih (updateBest acc k₀ c₀) hL'some hacc'some hacc'dist
    refine ⟨hA, ?_, ?_, ?_⟩
    · intro p hp
      rcases hB p hp with h | h
      · rcases updateBest_mem k₀ c₀ acc p h with h2 | h2
        · exact Or.inl h2
        · exact Or.inr (h2 ▸ List.mem_cons_self _ _)
      · exact Or.inr (List.mem_cons_of_mem _ h)
    · intro kk cc hm p hp
      by_cases hkk : kk = k₀
      · subst hkk
        calc dq cc ≤ dq e := hC kk cc hm e hemem
          _ ≤ dq p := hemin p hp
      · have hp' : (kk, p) ∈ updateBest acc k₀ c₀ :=
          (updateBest_mem_ne hkk p c₀ acc).mpr hp
        exact hC kk cc hm p hp'
    · intro kk cc hm c' hc'
      rcases List.mem_cons.mp hc' with h | h
      · have hk : kk = k₀ := congrArg Prod.fst h
        have hcc : c' = c₀ := congrArg Prod.snd h
        subst hk
        calc dq cc ≤ dq e := hC kk cc hm e hemem
          _ ≤ dq c₀ := hec
          _ = dq c' := by rw [hcc]
      · exact hD kk cc hm c' h

/-- C6 counterexample: with `k = 1` and two gate-passing hits with distinct
article ids, the semantic path returns 2 candidates — the final slice is
`articles[:max(n_results, 10)]`, not `[:n_results]`, so the claim's
"truncated to at most k" fails for every k < 10. -/
theorem C6_retrieve_truncation_counterexample :
    (retrieve_semantic (fun _ => none) 1
        [⟨some 1, "data center alpha".toList, "u1".toList, "s".toList,
          [], none, "colocation campus".toList, some 1⟩,
         ⟨some 2, "data center beta".toList, "u2".toList, "s".toList,
          [], none, "hyperscale build".toList, some 2⟩]).length = 2 ∧
    ¬ (2 ≤ 1) := by
  constructor
  · decide
  · decide

/-- C6 (amended): on the semantic path, `retrieve(query, k)` returns a list
deduplicated by document id (string of `article_id`, falling back to the
url) keeping the smallest distance (when every resolved hit carries a
distance), sorted ascending by the distance key (missing distances last),
and truncated to at most `max(k, 10)` candidates — not `k`. -/
theorem C6_retrieve_semantic_amended (dbLookup : Nat → Option ArticleRow)
    (k : Nat) (hits : List VecHit)
    (hsome : ∀ p ∈ resolvedOf dbLookup hits, p.2.distance.isSome = true) :
    (retrieve_semantic dbLookup k hits).length ≤ max k 10 ∧
    ((retrieveBest dbLookup hits []).map Prod.fst).Pairwise (· ≠ ·) ∧
    (∀ kk cc, (kk, cc) ∈ retrieveBest dbLookup hits [] →
      (kk, cc) ∈ resolvedOf dbLookup hits ∧
      ∀ c', (kk, c') ∈ resolvedOf dbLookup hits → dq cc ≤ dq c') ∧
    List.Sorted distLe (List.insertionSort distLe
      ((retrieveBest dbLookup hits []).map Prod.snd)) ∧
    retrieve_semantic dbLookup k hits =
      ((List.insertionSort distLe
          ((retrieveBest dbLookup hits []).map Prod.snd)).map
        RankedItem.item).take (max k 10) := by
  have hfold := retrieveBest_eq_fold dbLookup hits []
  obtain ⟨hA, hB, hC, hD⟩ := foldBest_inv (resolvedOf dbLookup hits) []
    hsome (by simp) (by simp)
  refine ⟨?_, ?_, ?_, ?_, rfl⟩
  · unfold retrieve_semantic
    exact List.length_take_le _ _
  · rw [hfold]
    exact hA
  · intro kk cc hm
    rw [hfold] at hm
    constructor
    · rcases hB (kk, cc) hm with h | h
      · exact absurd h (List.not_mem_nil _)
      · exact h
    · exact fun c' hc' => hD kk cc hm c' hc'
  · exact List.sorted_insertionSort distLe _

/-- Witness for C6 (amended): one concrete gate-passing hit with a present
distance; the length bound holds. -/
theorem C6_retrieve_semantic_amended_witness :
    (retrieve_semantic (fun _ => none) 5
        [⟨some 1, "data center alpha".toList, "u1".toList, "s".toList,
          [], none, "colocation campus".toList, some 1⟩]).length ≤ max 5 10 :=
  (C6_retrieve_semantic_amended (fun _ => none) 5
    [⟨some 1, "data center alpha".toList, "u1".toList, "s".toList,
      [], none, "colocation campus".toList, some 1⟩] (by decide)).1

/-- C3 counterexample: a triggered pass (23 one-token messages, defaults
20/12/8000) with the summarizer configured but failing (`llmResult = none`)
prunes the conversation to 12 raw messages while `memory_summary` stays
`None` — the summarized turns are deleted without any summary being
written, so "memory_summary is non-empty" fails. -/
theorem C3_memory_manager_counterexample :
    (maybe_summarize_and_prune true none 20 12 8000
        ⟨(List.range 23).map
          (fun i => ⟨i + 1, "user".toList, "m".toList, 1⟩),
         none⟩).messages.length = 12 ∧
    (maybe_summarize_and_prune true none 20 12 8000
        ⟨(List.range 23).map
          (fun i => ⟨i + 1, "user".toList, "m".toList, 1⟩),
         none⟩).memory_summary = none := by
  constructor
  · decide
  · decide

theorem routerClarifier_ne_nil {ql c : List Char}
    (h : routerClarifier ql = some c) : c ≠ [] := by
  simp only [routerClarifier] at h
  by_cases hcond : (wordCount ql ≤ 3 ∨
      ambiguousTopics.any (fun t => decide (t = ql)) = true) ∧
      (routerIntent ql = "news_update".toList ∨
       routerIntent ql = "explain_concept".toList)
  · rw [if_pos hcond] at h
    have hc := Option.some.inj h
    rw [← hc]
    by_cases h1 : containsSub ql "cooling".toList = true
    · rw [if_pos h1]
      decide
    · rw [if_neg h1]
      by_cases h2 : containsSub ql "power".toList = true ∨
          containsSub ql "grid".toList = true
      · rw [if_pos h2]
        decide
      · rw [if_neg h2]
        decide
  · rw [if_neg hcond] at h
    cases h

theorem persistAnswer_messages (conv2 : Conv) (r : ChatResult) :
    (persistAnswer conv2 r).2.messages = conv2.messages ∨
    ∃ a, a ≠ [] ∧ (persistAnswer conv2 r).2.messages =
      conv2.messages ++
      [⟨nextId conv2, "assistant".toList, a, estimate_tokens a⟩] := by
  unfold persistAnswer
  by_cases h : pyStrip r.answer ≠ []
  · rw [if_pos h]
    exact Or.inr ⟨pyStrip r.answer, h, rfl⟩
  · rw [if_neg h]
    exact Or.inl rfl

theorem chatAfterRouting_messages (deps : ChatDeps) (aud : List Char)
    (conv2 : Conv) (step1 : WidenResult) (articles : List NewsItem) :
    (chatAfterRouting deps aud conv2 step1 articles).2.messages =
      conv2.messages ∨
    ∃ a, a ≠ [] ∧
      (chatAfterRouting deps aud conv2 step1 articles).2.messages =
        conv2.messages ++
        [⟨nextId conv2, "assistant".toList, a, estimate_tokens a⟩] := by
  unfold chatAfterRouting
  by_cases hart : articles = []
  · rw [if_pos hart]
    exact Or.inr ⟨noCoverageAnswer, by decide, rfl⟩
  · rw [if_neg hart]
    exact persistAnswer_messages conv2 _

theorem chatTurn_messages_shape (deps : ChatDeps) (query aud : List Char)
    (conv : Conv) :
    (chatTurn deps query aud conv).2.messages =
      (maybe_summarize_and_prune deps.enabled deps.llmResult
        deps.maxMessagesEnv deps.keepLastEnv deps.maxTokensEnv
        (appendMsg conv "user".toList query)).messages ∨
    ∃ a, a ≠ [] ∧ (chatTurn deps query aud conv).2.messages =
      (maybe_summarize_and_prune deps.enabled deps.llmResult
        deps.maxMessagesEnv deps.keepLastEnv deps.maxTokensEnv
        (appendMsg conv "user".toList query)).messages ++
      [⟨nextId (maybe_summarize_and_prune deps.enabled deps.llmResult
          deps.maxMessagesEnv deps.keepLastEnv deps.maxTokensEnv
          (appendMsg conv "user".toList query)),
        "assistant".toList, a, estimate_tokens a⟩] := by
  simp only [chatTurn]
  by_cases h0 : deps.totalArticles = 0
  · rw [if_pos h0]
    exact Or.inl rfl
  · rw [if_neg h0]
    cases hcl : routerClarifier (pyLower (pyStrip query)) with
    | some clar =>
      exact Or.inr ⟨clar, routerClarifier_ne_nil hcl, rfl⟩
    | none =>
      exact chatAfterRouting_messages deps aud _ _ _

theorem maintenance_keeps_appended (enabled : Bool) (llm : Option (List Char))
    (m0 k0 t0 : Int) (c : Conv) (role content : List Char) :
    (⟨nextId c, role, content, estimate_tokens content⟩ : Msg) ∈
      (maybe_summarize_and_prune enabled llm m0 k0 t0
        (appendMsg c role content)).messages := by
  have huid : nextId c ≠ 0 := Nat.succ_ne_zero _
  have humem : (⟨nextId c, role, content, estimate_tokens content⟩ : Msg) ∈
      (appendMsg c role content).messages := by
    simp [appendMsg]
  simp only [maybe_summarize_and_prune]
  split
  · exact humem
  · split
    · exact humem
    next hB2 =>
      split
      · exact humem
      · have hlen : (appendMsg c role content).messages.length =
            c.messages.length + 1 := by
          simp [appendMsg]
        have hkl6 : (6 : Int) ≤ max 6 (min k0 30) := le_max_left _ _
        have hklN : ((max 6 (min k0 30)).toNat : Int) = max 6 (min k0 30) :=
          Int.toNat_of_nonneg (by omega)
        have hkle : (max 6 (min k0 30)).toNat ≤ c.messages.length := by
          rw [hlen] at hB2
          omega
        have hkpos : 1 ≤ (max 6 (min k0 30)).toNat := by omega
        have hdrop : (appendMsg c role content).messages.drop
            ((appendMsg c role content).messages.length -
              (max 6 (min k0 30)).toNat) =
            c.messages.drop (c.messages.length + 1 -
              (max 6 (min k0 30)).toNat) ++
            [⟨nextId c, role, content, estimate_tokens content⟩] := by
          have : (appendMsg c role content).messages =
              c.messages ++
              [⟨nextId c, role, content, estimate_tokens content⟩] := by
            simp [appendMsg]
          rw [this]
          rw [List.drop_append_of_le_length]
          · rw [List.length_append]
            simp
          · rw [List.length_append]
            simp only [List.length_singleton]
            omega
        have hmemkeep : (⟨nextId c, role, content,
            estimate_tokens content⟩ : Msg) ∈
            (appendMsg c role content).messages.drop
              ((appendMsg c role content).messages.length -
                (max 6 (min k0 30)).toNat) := by
          rw [hdrop]
          exact List.mem_append_right _ (List.mem_singleton.mpr rfl)
        split
        · exact humem
        next hkids =>
          refine List.mem_filter.mpr ⟨humem, ?_⟩
          simp only [decide_eq_true_eq]
          refine List.mem_map.mpr
            ⟨⟨nextId c, role, content, estimate_tokens content⟩,
             List.mem_filter.mpr ⟨hmemkeep, by simpa using huid⟩, rfl⟩

/-- C8 counterexample: with an empty corpus the turn commits the user
message (first commit) and returns a non-empty reply, but the early return
stores no assistant message — the persisted conversation holds a partial
turn, so the user/assistant pair does not commit atomically. -/
theorem C8_atomic_turn_counterexample :
    ((chatTurn ⟨0, [], 0, [], [], GenOutcome.unavailable, false, none, 20,
        12, 8000, 0, fun _ => none, false⟩ "hello data centers".toList
        "Exec".toList ⟨[], none⟩).2).messages.map Msg.role =
      ["user".toList] ∧
    (chatTurn ⟨0, [], 0, [], [], GenOutcome.unavailable, false, none, 20,
        12, 8000, 0, fun _ => none, false⟩ "hello data centers".toList
        "Exec".toList ⟨[], none⟩).1.answer ≠ [] := by
  constructor
  · decide
  · decide

/-- C8 (amended): the user message commits on its own at the start of the
turn (it is in the store after the turn on every path); the assistant
message is a separate, later commit — after the turn the store holds
exactly the maintenance result of the store-plus-user-message, plus at most
one appended non-empty assistant message; and the empty-corpus early return
performs no assistant write at all, leaving the user message unpaired. The
pair is not atomic. -/
theorem C8_atomic_turn_amended (deps : ChatDeps) (query aud : List Char)
    (conv : Conv) :
    ((chatTurn deps query aud conv).2.messages =
        (maybe_summarize_and_prune deps.enabled deps.llmResult
          deps.maxMessagesEnv deps.keepLastEnv deps.maxTokensEnv
          (appendMsg conv "user".toList query)).messages ∨
      ∃ a, a ≠ [] ∧ (chatTurn deps query aud conv).2.messages =
        (maybe_summarize_and_prune deps.enabled deps.llmResult
          deps.maxMessagesEnv deps.keepLastEnv deps.maxTokensEnv
          (appendMsg conv "user".toList query)).messages ++
        [⟨nextId (maybe_summarize_and_prune deps.enabled deps.llmResult
            deps.maxMessagesEnv deps.keepLastEnv deps.maxTokensEnv
            (appendMsg conv "user".toList query)),
          "assistant".toList, a, estimate_tokens a⟩]) ∧
    (deps.totalArticles = 0 →
      (chatTurn deps query aud conv).2 =
        maybe_summarize_and_prune deps.enabled deps.llmResult
          deps.maxMessagesEnv deps.keepLastEnv deps.maxTokensEnv
          (appendMsg conv "user".toList query)) ∧
    ((⟨nextId conv, "user".toList, query, estimate_tokens query⟩ : Msg) ∈
      (chatTurn deps query aud conv).2.messages) := by
  refine ⟨chatTurn_messages_shape deps query aud conv, ?_, ?_⟩
  · intro h0
    simp only [chatTurn]
    rw [if_pos h0]
  · have hu := maintenance_keeps_appended deps.enabled deps.llmResult
      deps.maxMessagesEnv deps.keepLastEnv deps.maxTokensEnv conv
      "user".toList query
    rcases chatTurn_messages_shape deps query aud conv with h | ⟨a, _, h⟩
    · rw [h]
      exact hu
    · rw [h]
      exact List.mem_append_left _ hu

/-- Witness for C8 (amended): a concrete empty-corpus turn ends with the
store equal to the maintenance result — no assistant row. -/
theorem C8_atomic_turn_amended_witness :
    (chatTurn ⟨0, [], 0, [], [], GenOutcome.unavailable, false, none, 20,
        12, 8000, 0, fun _ => none, false⟩ "hello data centers".toList
        "Exec".toList ⟨[], none⟩).2 =
      maybe_summarize_and_prune false none 20 12 8000
        (appendMsg ⟨[], none⟩ "user".toList "hello data centers".toList) :=
  (C8_atomic_turn_amended ⟨0, [], 0, [], [], GenOutcome.unavailable, false,
    none, 20, 12, 8000, 0, fun _ => none, false⟩ "hello data centers".toList
    "Exec".toList ⟨[], none⟩).2.1 rfl

theorem pyStrip_eq_nil_forall {s : List Char} (h : pyStrip s = []) :
    ∀ ch ∈ s, pyIsSpace ch = true := by
  intro ch hch
  unfold pyStrip pyRStrip pyLStrip at h
  have h1 : (s.dropWhile pyIsSpace).reverse.dropWhile pyIsSpace = [] := by
    rwa [List.reverse_eq_nil_iff] at h
  have h3 : ∀ x ∈ s.dropWhile pyIsSpace, pyIsSpace x = true := by
    intro x hx
    exact List.dropWhile_eq_nil_iff.mp h1 x (List.mem_reverse.mpr hx)
  have hsplit := List.takeWhile_append_dropWhile pyIsSpace s
  rw [← hsplit] at hch
  rcases List.mem_append.mp hch with hx | hx
  · exact List.mem_takeWhile_imp hx
  · exact h3 ch hx

theorem pyStrip_ne_nil_of_mem {s : List Char} {ch : Char}
    (hch : ch ∈ s) (hns : pyIsSpace ch = false) : pyStrip s ≠ [] := by
  intro h
  rw [pyStrip_eq_nil_forall h ch hch] at hns
  cases hns

theorem transcriptLines_colon {msgs : List Msg} :
    ∀ ln ∈ transcriptLines msgs, ':' ∈ ln := by
  intro ln hln
  unfold transcriptLines at hln
  obtain ⟨m, _, hsome⟩ := List.mem_filterMap.mp hln
  simp only at hsome
  by_cases hc : pyStrip m.content = []
  · rw [if_pos hc] at hsome
    cases hsome
  · rw [if_neg hc] at hsome
    have := Option.some.inj hsome
    rw [← this]
    exact List.mem_append_right _ (List.mem_cons_self _ _)

theorem mem_joinLines_head {c : Char} {x : List Char} {l : List (List Char)}
    (hc : c ∈ x) : c ∈ joinLines (x :: l) := by
  cases l with
  | nil => simpa [joinLines] using hc
  | cons y ys =>
    show c ∈ x ++ '\n' :: joinLines (y :: ys)
    exact List.mem_append_left _ hc

theorem filter_mem_ids_of_append {t d : List Msg}
    (hcross : ∀ a ∈ t.map Msg.id, ∀ b ∈ d.map Msg.id, a ≠ b) :
    (t ++ d).filter (fun m => m.id ∈ d.map Msg.id) = d := by
  rw [List.filter_append]
  have h1 : t.filter (fun m => m.id ∈ d.map Msg.id) = [] := by
    rw [List.filter_eq_nil_iff]
    intro m hm
    simp only [decide_eq_true_eq]
    intro hmem
    exact hcross m.id (List.mem_map_of_mem Msg.id hm) m.id hmem rfl
  have h2 : d.filter (fun m => m.id ∈ d.map Msg.id) = d := by
    refine List.filter_eq_self.mpr ?_
    intro m hm
    simpa using List.mem_map_of_mem Msg.id hm
  rw [h1, h2, List.nil_append]

/-- C3 (amended): for a maintenance pass that was triggered
(`message_count > max_messages` or token sum `> max_tokens`, after the
clamps) on a conversation with more than `keep_last` rows, distinct
positive ids and at least one non-blank older message: the store retains
exactly the last `keep_last` rows (so at most `keep_last`), the messages
removed are exactly those outside the last `keep_last` rows, and
`memory_summary` is non-empty when the summarizer is unconfigured (crude
concatenation fallback) or returns non-blank text — but when the
configured summarizer raises, the messages are still pruned while
`memory_summary` is left unchanged (possibly empty). This maintenance pass
is the only deletion path: a whole chat turn leaves the store at exactly
the maintenance result plus at most one appended assistant message. -/
theorem C3_memory_manager_amended (enabled : Bool)
    (llm : Option (List Char)) (max_messages0 keep_last0 max_tokens0 : Int)
    (conv : Conv)
    (hdist : (conv.messages.map Msg.id).Pairwise (· ≠ ·))
    (hpos : ∀ m ∈ conv.messages, m.id ≠ 0)
    (htrig : ¬ ((conv.messages.length : Int) ≤
        max (max 6 (min keep_last0 30) + 2) (min max_messages0 200) ∧
      ((conv.messages.map Msg.tokens_est).sum : Int) ≤
        max 2000 (min max_tokens0 50000)))
    (hlen : max 6 (min keep_last0 30) < (conv.messages.length : Int))
    (htrans : transcriptLines (conv.messages.take
      (conv.messages.length - (max 6 (min keep_last0 30)).toNat)) ≠ []) :
    (maybe_summarize_and_prune enabled llm max_messages0 keep_last0
        max_tokens0 conv).messages =
      conv.messages.drop
        (conv.messages.length - (max 6 (min keep_last0 30)).toNat) ∧
    (maybe_summarize_and_prune enabled llm max_messages0 keep_last0
        max_tokens0 conv).messages.length =
      (max 6 (min keep_last0 30)).toNat ∧
    (enabled = false → ∃ s, (maybe_summarize_and_prune enabled llm
        max_messages0 keep_last0 max_tokens0 conv).memory_summary = some s ∧
      s ≠ []) ∧
    (∀ s, enabled = true → llm = some s → pyStrip s ≠ [] →
      (maybe_summarize_and_prune enabled llm max_messages0 keep_last0
        max_tokens0 conv).memory_summary = some (pyStrip s)) ∧
    (enabled = true → llm = none →
      (maybe_summarize_and_prune enabled llm max_messages0 keep_last0
        max_tokens0 conv).memory_summary = conv.memory_summary) ∧
    (∀ (deps : ChatDeps) (query aud : List Char) (c : Conv),
      (chatTurn deps query aud c).2.messages =
        (maybe_summarize_and_prune deps.enabled deps.llmResult
          deps.maxMessagesEnv deps.keepLastEnv deps.maxTokensEnv
          (appendMsg c "user".toList query)).messages ∨
      ∃ a, a ≠ [] ∧ (chatTurn deps query aud c).2.messages =
        (maybe_summarize_and_prune deps.enabled deps.llmResult
          deps.maxMessagesEnv deps.keepLastEnv deps.maxTokensEnv
          (appendMsg c "user".toList query)).messages ++
        [⟨nextId (maybe_summarize_and_prune deps.enabled deps.llmResult
            deps.maxMessagesEnv deps.keepLastEnv deps.maxTokensEnv
            (appendMsg c "user".toList query)),
          "assistant".toList, a, estimate_tokens a⟩]) := by
  have hkl0 : (0 : Int) ≤ max 6 (min keep_last0 30) := by
    have := le_max_left (6 : Int) (min keep_last0 30)
    omega
  have hklN : ((max 6 (min keep_last0 30)).toNat : Int) =
      max 6 (min keep_last0 30) := Int.toNat_of_nonneg hkl0
  have hkN6 : 6 ≤ (max 6 (min keep_last0 30)).toNat := by
    have := le_max_left (6 : Int) (min keep_last0 30)
    omega
  have hkNlen : (max 6 (min keep_last0 30)).toNat ≤ conv.messages.length := by
    omega
  have hlen2 : ¬ ((conv.messages.length : Int) ≤ max 6 (min keep_last0 30)) :=
    by omega
  -- the transcript is non-empty as a string: its first line contains ':'
  have htj : joinLines (transcriptLines (conv.messages.take
      (conv.messages.length - (max 6 (min keep_last0 30)).toNat))) ≠ [] := by
    rcases hT : transcriptLines (conv.messages.take
        (conv.messages.length - (max 6 (min keep_last0 30)).toNat)) with
      _ | ⟨l, ls⟩
    · exact absurd hT htrans
    · have hcl : ':' ∈ l := transcriptLines_colon l (hT ▸ List.mem_cons_self l ls)
      intro hj
      have hm : ':' ∈ joinLines (l :: ls) := mem_joinLines_head hcl
      rw [hj] at hm
      exact List.not_mem_nil _ hm
  -- enter the pruning branch
  simp only [maybe_summarize_and_prune]
  rw [if_neg htrig, if_neg hlen2, if_neg htj]
  -- the kept ids
  have hfilterpos : (conv.messages.drop (conv.messages.length -
      (max 6 (min keep_last0 30)).toNat)).filter (fun m => m.id ≠ 0) =
      conv.messages.drop (conv.messages.length -
        (max 6 (min keep_last0 30)).toNat) := by
    refine List.filter_eq_self.mpr ?_
    intro m hm
    simpa using hpos m (List.mem_of_mem_drop hm)
  have hdropne : conv.messages.drop (conv.messages.length -
      (max 6 (min keep_last0 30)).toNat) ≠ [] := by
    intro h
    have := congrArg List.length h
    rw [List.length_drop] at this
    simp at this
    omega
  have hkidsne : ((conv.messages.drop (conv.messages.length -
      (max 6 (min keep_last0 30)).toNat)).filter
        (fun m => m.id ≠ 0)).map Msg.id ≠ [] := by
    rw [hfilterpos]
    intro h
    exact hdropne (List.map_eq_nil_iff.mp h)
  rw [if_neg hkidsne]
  -- the filter keeps exactly the kept rows
  have hcross : ∀ a ∈ (conv.messages.take (conv.messages.length -
        (max 6 (min keep_last0 30)).toNat)).map Msg.id,
      ∀ b ∈ (conv.messages.drop (conv.messages.length -
        (max 6 (min keep_last0 30)).toNat)).map Msg.id, a ≠ b := by
    have hsplit : conv.messages.map Msg.id =
        (conv.messages.take (conv.messages.length -
          (max 6 (min keep_last0 30)).toNat)).map Msg.id ++
        (conv.messages.drop (conv.messages.length -
          (max 6 (min keep_last0 30)).toNat)).map Msg.id := by
      rw [← List.map_append, List.take_append_drop]
    rw [hsplit] at hdist
    exact (List.pairwise_append.mp hdist).2.2
  have hmsgs : conv.messages.filter (fun m => m.id ∈
      ((conv.messages.drop (conv.messages.length -
        (max 6 (min keep_last0 30)).toNat)).filter
          (fun m => m.id ≠ 0)).map Msg.id) =
      conv.messages.drop (conv.messages.length -
        (max 6 (min keep_last0 30)).toNat) := by
    rw [hfilterpos]
    calc conv.messages.filter (fun m => m.id ∈
          (conv.messages.drop (conv.messages.length -
            (max 6 (min keep_last0 30)).toNat)).map Msg.id)
        = ((conv.messages.take (conv.messages.length -
              (max 6 (min keep_last0 30)).toNat)) ++
           (conv.messages.drop (conv.messages.length -
              (max 6 (min keep_last0 30)).toNat))).filter (fun m => m.id ∈
            (conv.messages.drop (conv.messages.length -
              (max 6 (min keep_last0 30)).toNat)).map Msg.id) := by
          rw [List.take_append_drop]
      _ = conv.messages.drop (conv.messages.length -
            (max 6 (min keep_last0 30)).toNat) :=
          filter_mem_ids_of_append hcross
  refine ⟨hmsgs, ?_, ?_, ?_, ?_, ?_⟩
  · rw [hmsgs, List.length_drop]
    omega
  · intro hen
    rw [if_pos hen]
    refine ⟨_, rfl, ?_⟩
    have hcolon : ':' ∈ pyStrip (conv.memory_summary.getD []) ++
        '\n' :: joinLines (transcriptLines (conv.messages.take
          (conv.messages.length - (max 6 (min keep_last0 30)).toNat))) := by
      rcases hT : transcriptLines (conv.messages.take
          (conv.messages.length - (max 6 (min keep_last0 30)).toNat)) with
        _ | ⟨l, ls⟩
      · exact absurd hT htrans
      · have hcl : ':' ∈ l :=
          transcriptLines_colon l (hT ▸ List.mem_cons_self l ls)
        exact List.mem_append_right _
          (List.mem_cons_of_mem _ (mem_joinLines_head hcl))
    have hstrip : pyStrip (pyStrip (conv.memory_summary.getD []) ++
        '\n' :: joinLines (transcriptLines (conv.messages.take
          (conv.messages.length -
            (max 6 (min keep_last0 30)).toNat)))) ≠ [] :=
      pyStrip_ne_nil_of_mem hcolon rfl
    intro hdropnil
    rw [List.drop_eq_nil_iff] at hdropnil
    have hlp : 0 < (pyStrip (pyStrip (conv.memory_summary.getD []) ++
        '\n' :: joinLines (transcriptLines (conv.messages.take
          (conv.messages.length -
            (max 6 (min keep_last0 30)).toNat))))).length :=
      List.length_pos.mpr hstrip
    omega
  · intro s hen hllm hs
    rw [hen, hllm]
    simp only [Bool.true_eq_false]
    rw [if_neg hs]
    exact if_neg not_false
  · intro hen hllm
    rw [hen, hllm]
    simp only []
    rw [if_neg (fun h => Bool.noConfusion h)]
  · exact fun deps query aud c => chatTurn_messages_shape deps query aud c

theorem generate_response_meta {outcome : GenOutcome} {aud : List Char}
    {selected : List NewsItem} {meta m : MetaRec}
    (h : (generate_response_model outcome aud selected meta).2.2 = some m) :
    m = meta := by
  cases outcome with
  | unavailable => simp [generate_response_model] at h
  | costPre => simp [generate_response_model] at h
  | ok raw =>
    simp only [generate_response_model] at h
    exact (Option.some.inj h).symm
  | exc msg =>
    simp only [generate_response_model] at h
    by_cases hc : containsSub (pyLower msg) "cost limit".toList = true ∨
        containsSub (pyLower msg) "limit exceeded".toList = true
    · rw [if_pos hc] at h
      exact (Option.some.inj h).symm
    · rw [if_neg hc] at h
      exact (Option.some.inj h).symm

theorem chatAfterRouting_meta (deps : ChatDeps) (aud : List Char)
    (conv2 : Conv) (step1 : WidenResult) (articles : List NewsItem)
    (m : MetaRec)
    (hm : (chatAfterRouting deps aud conv2 step1 articles).1.meta = some m) :
    m.coverage_thin = step1.coverage_thin ∧
    m.widened_to_days = (if step1.widened then some 30 else none) := by
  by_cases ha : articles = []
  · simp only [chatAfterRouting] at hm
    rw [if_pos ha] at hm
    have hinj := Option.some.inj hm
    rw [← hinj]
    exact ⟨rfl, rfl⟩
  · simp only [chatAfterRouting] at hm
    rw [if_neg ha] at hm
    have hmm := generate_response_meta hm
    rw [hmm]
    exact ⟨rfl, rfl⟩

theorem C3_memory_manager_amended_witness :
    (maybe_summarize_and_prune true (some "Fresh summary.".toList) 20 12 8000
        ⟨(List.range 23).map
          (fun i => ⟨i + 1, "user".toList, "m".toList, 1⟩),
         none⟩).messages.length = 12 ∧
    (maybe_summarize_and_prune true (some "Fresh summary.".toList) 20 12 8000
        ⟨(List.range 23).map
          (fun i => ⟨i + 1, "user".toList, "m".toList, 1⟩),
         none⟩).memory_summary = some (pyStrip "Fresh summary.".toList) := by
  have h := C3_memory_manager_amended true (some "Fresh summary.".toList)
    20 12 8000
    ⟨(List.range 23).map (fun i => ⟨i + 1, "user".toList, "m".toList, 1⟩),
     none⟩
    (by decide) (by decide) (by decide) (by decide) (by decide)
  refine ⟨?_, h.2.2.2.1 "Fresh summary.".toList rfl rfl (by decide)⟩
  rw [h.2.1]
  decide

/-- C4 counterexample: a turn whose query is phrased "last 45 days" (which
the dead doubled-backslash regex cannot parse, so no explicit window is
recorded) does auto-widen — yet when the LLM provider is not configured,
`generate_response` returns early without a `meta` key, so the response
metadata carries neither `coverage_thin` nor `widened_to_days`. -/
theorem C4_auto_widen_counterexample :
    (recencyWidenStep (fun s => if s = "D1".toList then some 0 else none) 0
        (parse_time_window_days
          "give me a data center news rundown from the last 45 days".toList)
        (some 14)
        [⟨"t".toList, "c".toList, "u".toList, "s".toList, "rss".toList,
          some "D1".toList⟩]).widened = true ∧
    parse_time_window_days
      "give me a data center news rundown from the last 45 days".toList =
      none ∧
    (chatTurn
      ⟨5,
       [⟨"t".toList, "c".toList, "u".toList, "s".toList, "rss".toList,
         some "D1".toList⟩],
       0, [], [], GenOutcome.unavailable, false, none, 20, 12, 8000, 0,
       (fun s => if s = "D1".toList then some 0 else none), false⟩
      "give me a data center news rundown from the last 45 days".toList
      "general".toList ⟨[], none⟩).1.meta = none := by
  refine ⟨by decide, by decide, ?_⟩
  decide

/-- C4 (amended): with an active window below 30 days that the query did
not explicitly request, fewer than 4 surviving candidates widen the filter
exactly once to 30 days with `coverage_thin` and `widened` set; an
explicitly requested window is never widened; `_parse_time_window_days`
only ever yields None, 7 or 30 (the "last N days" branch is dead); and
whenever a chat turn does carry response metadata, its `coverage_thin` and
`widened_to_days` fields are exactly those of the widening step — but the
unconfigured-provider and pre-call cost-limit replies carry no metadata at
all. -/
theorem C4_auto_widen_amended :
    (∀ (pd : List Char → Option Int) (now : Int) (pool : List NewsItem)
        (w : Int), w < 30 →
      (filter_by_recency_days pd now w pool).length < 4 →
      recencyWidenStep pd now none (some w) pool =
        ⟨filter_by_recency_days pd now 30 pool, some 30, true, true⟩) ∧
    (∀ (pd : List Char → Option Int) (now r : Int) (d : Option Int)
        (pool : List NewsItem),
      recencyWidenStep pd now (some r) d pool =
        ⟨filter_by_recency_days pd now r pool, some r, false, false⟩) ∧
    (∀ q : List Char, parse_time_window_days q = none ∨
      parse_time_window_days q = some 7 ∨
      parse_time_window_days q = some 30) ∧
    (∀ (deps : ChatDeps) (q aud : List Char) (conv : Conv) (m : MetaRec),
      deps.totalArticles ≠ 0 →
      routerClarifier (pyLower (pyStrip q)) = none →
      (chatTurn deps q aud conv).1.meta = some m →
      m.coverage_thin = (recencyWidenStep deps.parseDt deps.now
          (parse_time_window_days q)
          (if routerIntent (pyLower (pyStrip q)) = "news_update".toList ∨
              routerIntent (pyLower (pyStrip q)) = "deal_monitor".toList ∨
              routerModeConstruction (pyLower (pyStrip q)) = true
            then some 14 else none) deps.pool1).coverage_thin ∧
      m.widened_to_days = (if (recencyWidenStep deps.parseDt deps.now
          (parse_time_window_days q)
          (if routerIntent (pyLower (pyStrip q)) = "news_update".toList ∨
              routerIntent (pyLower (pyStrip q)) = "deal_monitor".toList ∨
              routerModeConstruction (pyLower (pyStrip q)) = true
            then some 14 else none) deps.pool1).widened
          then some 30 else none)) := by
  refine ⟨?_, ?_, ?_, ?_⟩
  · intro pd now pool w hw hlt
    simp only [recencyWidenStep]
    rw [if_pos ⟨hlt, trivial, hw⟩]
  · intro pd now r d pool
    simp only [recencyWidenStep]
    rw [if_neg (fun h => Option.noConfusion h.2.1)]
  · intro q
    simp only [parse_time_window_days]
    by_cases h1 : lastDaysBuggyMatch (pyLower q) = true
    · rw [if_pos h1]
      exact Or.inl rfl
    · rw [if_neg h1]
      by_cases h2 : ((["this week", "past week", "last week"].map
          String.toList).any (fun k => containsSub (pyLower q) k)) = true
      · rw [if_pos h2]
        exact Or.inr (Or.inl rfl)
      · rw [if_neg h2]
        by_cases h3 : ((["this month", "past month", "last month"].map
            String.toList).any (fun k => containsSub (pyLower q) k)) = true
        · rw [if_pos h3]
          exact Or.inr (Or.inr rfl)
        · rw [if_neg h3]
          exact Or.inl rfl
  · intro deps q aud conv m h0 hclar hmeta
    simp only [chatTurn] at hmeta
    rw [if_neg h0, hclar] at hmeta
    exact chatAfterRouting_meta deps aud _ _ _ m hmeta

theorem C4_auto_widen_amended_witness :
    recencyWidenStep (fun _ => some 0) 0 none (some 14)
        [⟨"t".toList, "c".toList, "u".toList, "s".toList, "rss".toList,
          some "D".toList⟩] =
      ⟨filter_by_recency_days (fun _ => some 0) 0 30
        [⟨"t".toList, "c".toList, "u".toList, "s".toList, "rss".toList,
          some "D".toList⟩], some 30, true, true⟩ :=
  C4_auto_widen_amended.1 (fun _ => some 0) 0
    [⟨"t".toList, "c".toList, "u".toList, "s".toList, "rss".toList,
      some "D".toList⟩] 14 (by decide) (by decide)

/-- C5 counterexample: `canonicalize_url` is not idempotent — the path's
trailing space in `https://ex.com/a #x` survives the first pass (only the
fragment is cut) and is stripped by the second — and two URLs differing
only in query-pair order keep their order when the sort keys
`(k.lower(), v)` tie, so they do not collapse. -/
theorem C5_canonicalize_counterexample :
    canonicalize_url (canonicalize_url "https://ex.com/a #x".toList) ≠
      canonicalize_url "https://ex.com/a #x".toList ∧
    canonicalize_url "https://e/?A=1&a=1".toList ≠
      canonicalize_url "https://e/?a=1&A=1".toList := by
  decide

theorem char_eq_of_toNat {a b : Char} (h : a.toNat = b.toNat) : a = b :=
  Char.ext (UInt32.ext h)

theorem charToNatOfNat {n : Nat} (h : n.isValidChar) :
    (Char.ofNat n).toNat = n := by
  unfold Char.ofNat
  rw [dif_pos h]
  unfold Char.ofNatAux
  show (UInt32.mk (BitVec.ofNatLt n _)).toNat = n
  simp [UInt32.toNat, BitVec.toNat_ofNatLt]

theorem char_lt_iff {a b : Char} : a < b ↔ a.toNat < b.toNat := by
  rw [Char.lt_def, UInt32.lt_def, BitVec.lt_def]
  exact Iff.rfl

theorem char_le_iff {a b : Char} : a ≤ b ↔ a.toNat ≤ b.toNat := by
  rw [Char.le_def, UInt32.le_def, BitVec.le_def]
  exact Iff.rfl

theorem char_valid (c : Char) :
    c.toNat < 0xD800 ∨ (0xDFFF < c.toNat ∧ c.toNat < 0x110000) := c.valid

theorem charToNatOfNat_small {n : Nat} (h : n < 0xD800) :
    (Char.ofNat n).toNat = n := charToNatOfNat (Or.inl h)

theorem utf8DecFuel_eq_of_le : ∀ (f g : Nat) (bs : List Nat),
    bs.length ≤ f → bs.length ≤ g → utf8DecFuel f bs = utf8DecFuel g bs := by
  intro f
  induction f with
  | zero =>
    intro g bs hf _
    have hbs : bs = [] := List.length_eq_zero.mp (Nat.le_zero.mp hf)
    subst hbs
    cases g with
    | zero => rfl
    | succ g => rfl
  | succ fi ih =>
    intro g bs hf hg
    cases bs with
    | nil =>
      cases g with
      | zero => rfl
      | succ g => rfl
    | cons b rest =>
      cases g with
      | zero => simp at hg
      | succ gi =>
        simp only [List.length_cons] at hf hg
        have hlt : rest.tail.length ≤ rest.length := by
          rw [List.length_tail]
          omega
        have hlt2 : rest.tail.tail.length ≤ rest.length := by
          rw [List.length_tail, List.length_tail]
          omega
        have hlt3 : rest.tail.tail.tail.length ≤ rest.length := by
          rw [List.length_tail, List.length_tail, List.length_tail]
          omega
        have hA : utf8DecFuel fi rest = utf8DecFuel gi rest :=
          ih gi rest (by omega) (by omega)
        have hB : utf8DecFuel fi rest.tail = utf8DecFuel gi rest.tail :=
          ih gi rest.tail (by omega) (by omega)
        have hC : utf8DecFuel fi rest.tail.tail =
            utf8DecFuel gi rest.tail.tail :=
          ih gi rest.tail.tail (by omega) (by omega)
        have hD : utf8DecFuel fi rest.tail.tail.tail =
            utf8DecFuel gi rest.tail.tail.tail :=
          ih gi rest.tail.tail.tail (by omega) (by omega)
        rw [utf8DecFuel, utf8DecFuel, hA, hB, hC, hD]

theorem decode1 (f b : Nat) (rest : List Nat) (h1 : b < 0x80) :
    utf8DecFuel (f + 1) (b :: rest) =
      Char.ofNat b :: utf8DecFuel f rest := by
  rw [utf8DecFuel, if_pos h1]

theorem decode2 (f b b2 : Nat) (rest : List Nat) (h1 : ¬ b < 0x80)
    (h2 : 0xC2 ≤ b ∧ b ≤ 0xDF) (h3 : 0x80 ≤ b2 ∧ b2 ≤ 0xBF) :
    utf8DecFuel (f + 1) (b :: b2 :: rest) =
      Char.ofNat ((b - 0xC0) * 0x40 + (b2 - 0x80)) ::
        utf8DecFuel f rest := by
  rw [utf8DecFuel, if_neg h1, if_pos h2, if_neg (List.cons_ne_nil b2 rest)]
  simp only [List.headD_cons, List.tail_cons]
  rw [if_pos h3]

theorem decode3 (f b b2 b3 : Nat) (rest : List Nat) (h1 : ¬ b < 0x80)
    (h2 : ¬ (0xC2 ≤ b ∧ b ≤ 0xDF)) (h3 : 0xE0 ≤ b ∧ b ≤ 0xEF)
    (h4 : (if b = 0xE0 then 0xA0 else 0x80) ≤ b2 ∧
      b2 ≤ (if b = 0xED then 0x9F else 0xBF))
    (h5 : 0x80 ≤ b3 ∧ b3 ≤ 0xBF) :
    utf8DecFuel (f + 1) (b :: b2 :: b3 :: rest) =
      Char.ofNat ((b - 0xE0) * 0x1000 + (b2 - 0x80) * 0x40 + (b3 - 0x80)) ::
        utf8DecFuel f rest := by
  rw [utf8DecFuel, if_neg h1, if_neg h2, if_pos h3,
    if_neg (List.cons_ne_nil b2 (b3 :: rest))]
  simp only [List.headD_cons, List.tail_cons]
  rw [if_pos h4, if_neg (List.cons_ne_nil b3 rest), if_pos h5]

theorem decode4 (f b b2 b3 b4 : Nat) (rest : List Nat) (h1 : ¬ b < 0x80)
    (h2 : ¬ (0xC2 ≤ b ∧ b ≤ 0xDF)) (h3 : ¬ (0xE0 ≤ b ∧ b ≤ 0xEF))
    (h4 : 0xF0 ≤ b ∧ b ≤ 0xF4)
    (h5 : (if b = 0xF0 then 0x90 else 0x80) ≤ b2 ∧
      b2 ≤ (if b = 0xF4 then 0x8F else 0xBF))
    (h6 : 0x80 ≤ b3 ∧ b3 ≤ 0xBF) (h7 : 0x80 ≤ b4 ∧ b4 ≤ 0xBF) :
    utf8DecFuel (f + 1) (b :: b2 :: b3 :: b4 :: rest) =
      Char.ofNat ((b - 0xF0) * 0x40000 + (b2 - 0x80) * 0x1000 +
        (b3 - 0x80) * 0x40 + (b4 - 0x80)) :: utf8DecFuel f rest := by
  rw [utf8DecFuel, if_neg h1, if_neg h2, if_neg h3, if_pos h4,
    if_neg (List.cons_ne_nil b2 (b3 :: b4 :: rest))]
  simp only [List.headD_cons, List.tail_cons]
  rw [if_pos h5, if_neg (List.cons_ne_nil b3 (b4 :: rest)), if_pos h6,
    if_neg (List.cons_ne_nil b4 rest), if_pos h7]

theorem utf8DecodeReplace_encodeChar (c : Char) (rest : List Nat) :
    utf8DecodeReplace (utf8EncodeChar c ++ rest) =
      c :: utf8DecodeReplace rest := by
  have hv := char_valid c
  have hirr : ∀ k, rest.length ≤ k → utf8DecFuel k rest =
      utf8DecodeReplace rest := fun k hk =>
    utf8DecFuel_eq_of_le k rest.length rest hk (le_refl _)
  by_cases h1 : c.toNat < 0x80
  · have henc : utf8EncodeChar c = [c.toNat] := by
      simp only [utf8EncodeChar]
      rw [if_pos h1]
    rw [henc]
    show utf8DecFuel (rest.length + 1) (c.toNat :: rest) = _
    rw [decode1 rest.length c.toNat rest h1, Char.ofNat_toNat,
      hirr _ (by omega)]
  · by_cases h2 : c.toNat < 0x800
    · have henc : utf8EncodeChar c =
          [0xC0 + c.toNat / 0x40, 0x80 + c.toNat % 0x40] := by
        simp only [utf8EncodeChar]
        rw [if_neg h1, if_pos h2]
      rw [henc]
      show utf8DecFuel (rest.length + 1 + 1)
        ((0xC0 + c.toNat / 0x40) :: (0x80 + c.toNat % 0x40) :: rest) = _
      rw [decode2 (rest.length + 1) (0xC0 + c.toNat / 0x40)
        (0x80 + c.toNat % 0x40) rest (by omega) (by omega) (by omega)]
      have harith : (0xC0 + c.toNat / 0x40 - 0xC0) * 0x40 +
          (0x80 + c.toNat % 0x40 - 0x80) = c.toNat := by omega
      rw [harith, Char.ofNat_toNat, hirr _ (by omega)]
    · by_cases h3 : c.toNat < 0x10000
      · have henc : utf8EncodeChar c = [0xE0 + c.toNat / 0x1000,
            0x80 + c.toNat / 0x40 % 0x40, 0x80 + c.toNat % 0x40] := by
          simp only [utf8EncodeChar]
          rw [if_neg h1, if_neg h2, if_pos h3]
        rw [henc]
        show utf8DecFuel (rest.length + 1 + 1 + 1)
          ((0xE0 + c.toNat / 0x1000) :: (0x80 + c.toNat / 0x40 % 0x40) ::
           (0x80 + c.toNat % 0x40) :: rest) = _
        have hb2 : (if 0xE0 + c.toNat / 0x1000 = 0xE0 then 0xA0 else 0x80) ≤
            0x80 + c.toNat / 0x40 % 0x40 ∧
            0x80 + c.toNat / 0x40 % 0x40 ≤
              (if 0xE0 + c.toNat / 0x1000 = 0xED then 0x9F else 0xBF) := by
          constructor
          · by_cases he : 0xE0 + c.toNat / 0x1000 = 0xE0
            · rw [if_pos he]
              omega
            · rw [if_neg he]
              omega
          · by_cases he : 0xE0 + c.toNat / 0x1000 = 0xED
            · rw [if_pos he]
              omega
            · rw [if_neg he]
              omega
        rw [decode3 (rest.length + 1 + 1) (0xE0 + c.toNat / 0x1000)
          (0x80 + c.toNat / 0x40 % 0x40) (0x80 + c.toNat % 0x40) rest
          (by omega) (by omega) (by omega) hb2 (by omega)]
        have harith : (0xE0 + c.toNat / 0x1000 - 0xE0) * 0x1000 +
            (0x80 + c.toNat / 0x40 % 0x40 - 0x80) * 0x40 +
            (0x80 + c.toNat % 0x40 - 0x80) = c.toNat := by omega
        rw [harith, Char.ofNat_toNat, hirr _ (by omega)]
      · have henc : utf8EncodeChar c = [0xF0 + c.toNat / 0x40000,
            0x80 + c.toNat / 0x1000 % 0x40, 0x80 + c.toNat / 0x40 % 0x40,
            0x80 + c.toNat % 0x40] := by
          simp only [utf8EncodeChar]
          rw [if_neg h1, if_neg h2, if_neg h3]
        rw [henc]
        show utf8DecFuel (rest.length + 1 + 1 + 1 + 1)
          ((0xF0 + c.toNat / 0x40000) :: (0x80 + c.toNat / 0x1000 % 0x40) ::
           (0x80 + c.toNat / 0x40 % 0x40) :: (0x80 + c.toNat % 0x40) ::
           rest) = _
        have hb2 : (if 0xF0 + c.toNat / 0x40000 = 0xF0 then 0x90 else 0x80) ≤
            0x80 + c.toNat / 0x1000 % 0x40 ∧
            0x80 + c.toNat / 0x1000 % 0x40 ≤
              (if 0xF0 + c.toNat / 0x40000 = 0xF4 then 0x8F else 0xBF) := by
          constructor
          · by_cases he : 0xF0 + c.toNat / 0x40000 = 0xF0
            · rw [if_pos he]
              omega
            · rw [if_neg he]
              omega
          · by_cases he : 0xF0 + c.toNat / 0x40000 = 0xF4
            · rw [if_pos he]
              omega
            · rw [if_neg he]
              omega
        rw [decode4 (rest.length + 1 + 1 + 1) (0xF0 + c.toNat / 0x40000)
          (0x80 + c.toNat / 0x1000 % 0x40) (0x80 + c.toNat / 0x40 % 0x40)
          (0x80 + c.toNat % 0x40) rest (by omega) (by omega) (by omega)
          (by omega) hb2 (by omega) (by omega)]
        have harith : (0xF0 + c.toNat / 0x40000 - 0xF0) * 0x40000 +
            (0x80 + c.toNat / 0x1000 % 0x40 - 0x80) * 0x1000 +
            (0x80 + c.toNat / 0x40 % 0x40 - 0x80) * 0x40 +
            (0x80 + c.toNat % 0x40 - 0x80) = c.toNat := by omega
        rw [harith, Char.ofNat_toNat, hirr _ (by omega)]

theorem utf8EncodeChar_lt (c : Char) : ∀ b ∈ utf8EncodeChar c, b < 0x100 := by
  have hv := char_valid c
  intro b hb
  simp only [utf8EncodeChar] at hb
  by_cases h1 : c.toNat < 0x80
  · rw [if_pos h1] at hb
    simp only [List.mem_singleton] at hb
    omega
  · rw [if_neg h1] at hb
    by_cases h2 : c.toNat < 0x800
    · rw [if_pos h2] at hb
      simp only [List.mem_cons, List.not_mem_nil, or_false] at hb
      rcases hb with hb | hb <;> omega
    · rw [if_neg h2] at hb
      by_cases h3 : c.toNat < 0x10000
      · rw [if_pos h3] at hb
        simp only [List.mem_cons, List.not_mem_nil, or_false] at hb
        rcases hb with hb | hb | hb <;> omega
      · rw [if_neg h3] at hb
        simp only [List.mem_cons, List.not_mem_nil, or_false] at hb
        rcases hb with hb | hb | hb | hb <;> omega

theorem utf8Encode_lt (s : List Char) : ∀ b ∈ utf8Encode s, b < 0x100 := by
  intro b hb
  simp only [utf8Encode] at hb
  rw [List.mem_flatten] at hb
  obtain ⟨l, hl, hbl⟩ := hb
  obtain ⟨c, _, hcl⟩ := List.mem_map.mp hl
  exact utf8EncodeChar_lt c b (hcl ▸ hbl)

theorem safe_lt {b : Nat} (h : isAlwaysSafeByte b = true) : b < 0x80 := by
  simp only [isAlwaysSafeByte, decide_eq_true_eq] at h
  omega

theorem safe_ne_percent {b : Nat} (h : isAlwaysSafeByte b = true) :
    b ≠ 0x25 := by
  simp only [isAlwaysSafeByte, decide_eq_true_eq] at h
  omega

theorem ofNat_eq_iff {b : Nat} (hb : b < 0x80) (c : Char) :
    Char.ofNat b = c ↔ b = c.toNat := by
  constructor
  · intro h
    have := congrArg Char.toNat h
    rwa [charToNatOfNat_small (by omega)] at this
  · intro h
    rw [h, Char.ofNat_toNat]

theorem hexUpper_spec (n : Nat) (h : n < 16) :
    isHexDigitCh (hexUpper n) = true ∧ hexVal (hexUpper n) = n ∧
    hexUpper n ≠ '%' ∧ isAsciiCh (hexUpper n) = true ∧ hexUpper n ≠ '+' ∧
    hexUpper n ≠ '=' ∧ hexUpper n ≠ '&' ∧ hexUpper n ≠ '#' ∧
    hexUpper n ≠ '?' ∧ tabCrLf (hexUpper n) = false := by
  interval_cases n <;> decide

theorem flatten_singletons {α β : Type} (f : α → β) :
    ∀ l : List α, (l.map (fun a => [f a])).flatten = l.map f := by
  intro l
  induction l with
  | nil => rfl
  | cons a r ih =>
    simp only [List.map_cons, List.flatten_cons, List.cons_append,
      List.nil_append, ih]

theorem uqb_quote (sp : Bool) : ∀ (bs : List Nat) (f : Nat),
    (∀ b ∈ bs, b < 0x100) →
    ((bs.map (quoteByte sp)).flatten).length ≤ f →
    uqbFuel f ((bs.map (quoteByte sp)).flatten) = bs := by
  intro bs
  induction bs with
  | nil =>
    intro f _ _
    cases f with
    | zero => rfl
    | succ f => rfl
  | cons b rest ih =>
    intro f hlt hf
    have hb : b < 0x100 := hlt b (List.mem_cons_self b rest)
    simp only [List.map_cons, List.flatten_cons] at hf ⊢
    by_cases hs : isAlwaysSafeByte b = true ∨ (sp = true ∧ b = 0x20)
    · have hq : quoteByte sp b = [Char.ofNat b] := by
        rw [quoteByte, if_pos hs]
      rw [hq] at hf ⊢
      simp only [List.cons_append, List.nil_append] at hf ⊢
      cases f with
      | zero => simp at hf
      | succ fi =>
        have hblt : b < 0x80 := by
          rcases hs with hs | ⟨_, hs⟩
          · exact safe_lt hs
          · omega
        have hnp : ¬ (Char.ofNat b = '%') := by
          intro hcontra
          have hb37 : b = 0x25 := by
            have := (ofNat_eq_iff hblt '%').mp hcontra
            simpa using this
          rcases hs with hs | ⟨_, hs⟩
          · exact safe_ne_percent hs hb37
          · omega
        rw [uqbFuel, if_neg hnp, charToNatOfNat_small (by omega)]
        have hlen : ((rest.map (quoteByte sp)).flatten).length ≤ fi := by
          simp only [List.length_cons] at hf
          omega
        rw [ih fi (fun x hx => hlt x (List.mem_cons_of_mem b hx)) hlen]
    · have hq : quoteByte sp b =
          ['%', hexUpper (b / 16), hexUpper (b % 16)] := by
        rw [quoteByte, if_neg hs]
      rw [hq] at hf ⊢
      simp only [List.cons_append, List.nil_append] at hf ⊢
      cases f with
      | zero => simp at hf
      | succ fi =>
        have hh1 := hexUpper_spec (b / 16) (by omega)
        have hh2 := hexUpper_spec (b % 16) (by omega)
        rw [uqbFuel, if_pos rfl]
        have hcond : 2 ≤ (hexUpper (b / 16) :: hexUpper (b % 16) ::
            (rest.map (quoteByte sp)).flatten).length ∧
            isHexDigitCh ((hexUpper (b / 16) :: hexUpper (b % 16) ::
              (rest.map (quoteByte sp)).flatten).headD ' ') = true ∧
            isHexDigitCh ((hexUpper (b / 16) :: hexUpper (b % 16) ::
              (rest.map (quoteByte sp)).flatten).tail.headD ' ') = true := by
          refine ⟨by simp, ?_, ?_⟩
          · simpa using hh1.1
          · simpa using hh2.1
        rw [if_pos hcond]
        simp only [List.headD_cons, List.tail_cons]
        rw [hh1.2.1, hh2.2.1]
        have hval : b / 16 * 16 + b % 16 = b := by omega
        rw [hval]
        have hlen : ((rest.map (quoteByte sp)).flatten).length ≤ fi := by
          simp only [List.length_cons] at hf
          omega
        rw [ih fi (fun x hx => hlt x (List.mem_cons_of_mem b hx)) hlen]

theorem utf8DecodeReplace_encode (s : List Char) :
    utf8DecodeReplace (utf8Encode s) = s := by
  induction s with
  | nil => rfl
  | cons c r ih =>
    have hco : utf8Encode (c :: r) = utf8EncodeChar c ++ utf8Encode r := by
      simp [utf8Encode]
    rw [hco, utf8DecodeReplace_encodeChar, ih]

theorem asciiRuns_all : ∀ (l : List Char), l ≠ [] →
    (∀ c ∈ l, isAsciiCh c = true) → asciiRuns l = [(true, l)] := by
  intro l
  induction l with
  | nil => intro h _; cases h rfl
  | cons c r ih =>
    intro _ h
    have hc : isAsciiCh c = true := h c (List.mem_cons_self c r)
    by_cases hr : r = []
    · subst hr
      simp only [asciiRuns]
      rw [if_pos trivial, hc]
    · have hrs := ih hr (fun x hx => h x (List.mem_cons_of_mem c hx))
      simp only [asciiRuns, hrs]
      rw [if_neg (List.cons_ne_nil _ _)]
      simp only [List.headD_cons, List.tail_cons]
      rw [if_pos (by rw [hc])]
      rw [hc]

theorem quote_mem {sp : Bool} {s : List Char} {c : Char}
    (hc : c ∈ quote sp s) :
    (∃ b, b < 0x80 ∧ (isAlwaysSafeByte b = true ∨ (sp = true ∧ b = 0x20)) ∧
      c = Char.ofNat b) ∨ c = '%' ∨
    (∃ n, n < 16 ∧ c = hexUpper n) := by
  simp only [quote] at hc
  rw [List.mem_flatten] at hc
  obtain ⟨l, hl, hcl⟩ := hc
  obtain ⟨b, hbmem, hbl⟩ := List.mem_map.mp hl
  have hblt : b < 0x100 := utf8Encode_lt s b hbmem
  subst hbl
  by_cases hs : isAlwaysSafeByte b = true ∨ (sp = true ∧ b = 0x20)
  · rw [quoteByte, if_pos hs] at hcl
    simp only [List.mem_singleton] at hcl
    have hb80 : b < 0x80 := by
      rcases hs with h | ⟨_, h⟩
      · exact safe_lt h
      · omega
    exact Or.inl ⟨b, hb80, hs, hcl⟩
  · rw [quoteByte, if_neg hs] at hcl
    simp only [List.mem_cons, List.not_mem_nil, or_false] at hcl
    rcases hcl with h | h | h
    · exact Or.inr (Or.inl h)
    · exact Or.inr (Or.inr ⟨b / 16, by omega, h⟩)
    · exact Or.inr (Or.inr ⟨b % 16, by omega, h⟩)

theorem quote_all_ascii {sp : Bool} {s : List Char} :
    ∀ c ∈ quote sp s, isAsciiCh c = true := by
  intro c hc
  rcases quote_mem hc with ⟨b, hblt, _, hcb⟩ | hcp | ⟨n, hn, hcn⟩
  · rw [hcb]
    simp only [isAsciiCh, decide_eq_true_eq]
    rw [charToNatOfNat_small (by omega)]
    omega
  · rw [hcp]
    decide
  · rw [hcn]
    exact (hexUpper_spec n hn).2.2.2.1

theorem quote_not_mem (sp : Bool) (s : List Char) (c : Char)
    (hsafe : isAlwaysSafeByte c.toNat = false) (hpct : c ≠ '%')
    (hhex : ∀ n, n < 16 → hexUpper n ≠ c) (hns : c.toNat ≠ 0x20) :
    c ∉ quote sp s := by
  intro hc
  rcases quote_mem hc with ⟨b, hblt, hs, hcb⟩ | h | ⟨n, hn, hcn⟩
  · have hbc : c.toNat = b := by
      rw [hcb, charToNatOfNat_small (by omega)]
    rcases hs with h | ⟨_, h⟩
    · rw [← hbc, hsafe] at h
      exact Bool.noConfusion h
    · omega
  · exact hpct h
  · exact hhex n hn hcn.symm

theorem quote_plus_not_mem (s : List Char) (c : Char)
    (hsafe : isAlwaysSafeByte c.toNat = false) (hpct : c ≠ '%')
    (hhex : ∀ n, n < 16 → hexUpper n ≠ c) (hns : c.toNat ≠ 0x20)
    (hplus : c ≠ '+') : c ∉ quote_plus s := by
  rw [quote_plus]
  by_cases hsp : ' ' ∈ s
  · rw [if_pos hsp]
    intro hc
    obtain ⟨d, hd, hdc⟩ := List.mem_map.mp hc
    by_cases hds : d = ' '
    · rw [if_pos hds] at hdc
      exact hplus hdc.symm
    · rw [if_neg hds] at hdc
      rw [← hdc] at hsafe hpct hhex hns
      exact quote_not_mem true s d hsafe hpct hhex hns hd
  · rw [if_neg hsp]
    exact quote_not_mem false s c hsafe hpct hhex hns

theorem unquote_quote_core (sp : Bool) (s : List Char) :
    unquote (((utf8Encode s).map (quoteByte sp)).flatten) = s := by
  by_cases hp : '%' ∈ ((utf8Encode s).map (quoteByte sp)).flatten
  · have hne : ((utf8Encode s).map (quoteByte sp)).flatten ≠ [] :=
      List.ne_nil_of_mem hp
    have hascii : ∀ c ∈ ((utf8Encode s).map (quoteByte sp)).flatten,
        isAsciiCh c = true := fun c hc => quote_all_ascii c hc
    rw [unquote, if_pos hp, asciiRuns_all _ hne hascii]
    calc ([((true : Bool), ((utf8Encode s).map (quoteByte sp)).flatten)].map
          (fun r => if r.1 = true then
            utf8DecodeReplace (unquote_to_bytes r.2) else r.2)).flatten
        = utf8DecodeReplace
            (unquote_to_bytes
              (((utf8Encode s).map (quoteByte sp)).flatten)) := by
          simp
      _ = utf8DecodeReplace
            (uqbFuel ((((utf8Encode s).map (quoteByte sp)).flatten)).length
              (((utf8Encode s).map (quoteByte sp)).flatten)) := rfl
      _ = utf8DecodeReplace (utf8Encode s) := by
          rw [uqb_quote sp (utf8Encode s)
            ((((utf8Encode s).map (quoteByte sp)).flatten)).length
            (utf8Encode_lt s) (le_refl _)]
      _ = s := utf8DecodeReplace_encode s
  · rw [unquote, if_neg hp]
    have hsafe : ∀ b ∈ utf8Encode s,
        isAlwaysSafeByte b = true ∨ (sp = true ∧ b = 0x20) := by
      intro b hbm
      by_contra hcon
      apply hp
      rw [List.mem_flatten]
      refine ⟨quoteByte sp b, List.mem_map_of_mem _ hbm, ?_⟩
      rw [quoteByte, if_neg hcon]
      exact List.mem_cons_self _ _
    have hmapq : (utf8Encode s).map (quoteByte sp) =
        (utf8Encode s).map (fun b => [Char.ofNat b]) := by
      refine List.map_congr_left ?_
      intro b hbm
      rw [quoteByte, if_pos (hsafe b hbm)]
    have hchars : ∀ c ∈ s, c.toNat < 0x80 := by
      intro c hcs
      by_contra hge
      have hhead : ∃ b ∈ utf8EncodeChar c, 0x80 ≤ b := by
        simp only [utf8EncodeChar]
        rw [if_neg hge]
        by_cases h2 : c.toNat < 0x800
        · rw [if_pos h2]
          exact ⟨0xC0 + c.toNat / 0x40, List.mem_cons_self _ _, by omega⟩
        · rw [if_neg h2]
          by_cases h3 : c.toNat < 0x10000
          · rw [if_pos h3]
            exact ⟨0xE0 + c.toNat / 0x1000, List.mem_cons_self _ _, by omega⟩
          · rw [if_neg h3]
            exact ⟨0xF0 + c.toNat / 0x40000, List.mem_cons_self _ _,
              by omega⟩
      obtain ⟨b, hbm, hble⟩ := hhead
      have hbm2 : b ∈ utf8Encode s := by
        simp only [utf8Encode]
        rw [List.mem_flatten]
        exact ⟨utf8EncodeChar c, List.mem_map_of_mem _ hcs, hbm⟩
      rcases hsafe b hbm2 with h | ⟨_, h⟩
      · have := safe_lt h
        omega
      · omega
    have hencs : utf8Encode s = s.map Char.toNat := by
      have hmc : s.map utf8EncodeChar = s.map (fun c => [c.toNat]) := by
        refine List.map_congr_left ?_
        intro c hcs
        simp only [utf8EncodeChar]
        rw [if_pos (hchars c hcs)]
      simp only [utf8Encode]
      rw [hmc, flatten_singletons]
    calc ((utf8Encode s).map (quoteByte sp)).flatten
        = ((utf8Encode s).map (fun b => [Char.ofNat b])).flatten := by
          rw [hmapq]
      _ = (utf8Encode s).map Char.ofNat := flatten_singletons _ _
      _ = (s.map Char.toNat).map Char.ofNat := by rw [hencs]
      _ = s := by
          have hpt : ∀ c ∈ s, (Char.ofNat ∘ Char.toNat) c = c :=
            fun c _ => Char.ofNat_toNat c
          rw [List.map_map, List.map_congr_left hpt]
          exact List.map_id s

theorem unquote_replacePlus_quote_plus (s : List Char) :
    unquote (replacePlus (quote_plus s)) = s := by
  have hnoplus : ∀ sp, '+' ∉ quote sp s := by
    intro sp
    refine quote_not_mem sp s '+' (by decide) (by decide) ?_ (by decide)
    intro n hn
    exact (hexUpper_spec n hn).2.2.2.2.1
  rw [quote_plus]
  by_cases hsp : ' ' ∈ s
  · rw [if_pos hsp]
    have hrp : replacePlus ((quote true s).map
        (fun c => if c = ' ' then '+' else c)) = quote true s := by
      simp only [replacePlus, List.map_map]
      calc (quote true s).map ((fun c => if c = '+' then ' ' else c) ∘
            (fun c => if c = ' ' then '+' else c))
          = (quote true s).map (fun c => c) := by
            refine List.map_congr_left ?_
            intro c hc
            by_cases hcs : c = ' '
            · subst hcs
              rfl
            · simp only [Function.comp, if_neg hcs]
              rw [if_neg ?hnp]
              case hnp =>
                intro hcp
                rw [hcp] at hc
                exact hnoplus true hc
        _ = quote true s := List.map_id _
    rw [hrp]
    show unquote (((utf8Encode s).map (quoteByte true)).flatten) = s
    exact unquote_quote_core true s
  · rw [if_neg hsp]
    have hrp : replacePlus (quote false s) = quote false s := by
      simp only [replacePlus]
      calc (quote false s).map (fun c => if c = '+' then ' ' else c)
          = (quote false s).map (fun c => c) := by
            refine List.map_congr_left ?_
            intro c hc
            rw [if_neg ?hnp2]
            case hnp2 =>
              intro hcp
              rw [hcp] at hc
              exact hnoplus false hc
        _ = quote false s := List.map_id _
    rw [hrp]
    show unquote (((utf8Encode s).map (quoteByte false)).flatten) = s
    exact unquote_quote_core false s

theorem splitOn_ne_nil (sep : Char) : ∀ l, splitOn sep l ≠ [] := by
  intro l
  cases l with
  | nil => exact fun h => List.noConfusion h
  | cons c r =>
    rcases hs : splitOn sep r with _ | ⟨p, ps⟩
    · rw [splitOn, hs]
      exact fun h => List.noConfusion h
    · rw [splitOn, hs]
      show (if c = sep then [] :: p :: ps else (c :: p) :: ps) ≠ []
      by_cases hc : c = sep
      · rw [if_pos hc]
        exact fun h => List.noConfusion h
      · rw [if_neg hc]
        exact fun h => List.noConfusion h

theorem splitOn_no_sep (sep : Char) : ∀ (p : List Char), sep ∉ p →
    splitOn sep p = [p] := by
  intro p
  induction p with
  | nil => intro _; rfl
  | cons c r ih =>
    intro h
    have hcr : sep ∉ r := fun hx => h (List.mem_cons_of_mem c hx)
    have hcs : ¬ c = sep := fun hx => h (hx ▸ List.mem_cons_self c r)
    rw [splitOn, ih hcr]
    show (if c = sep then [] :: r :: [] else (c :: r) :: []) = [c :: r]
    rw [if_neg hcs]

theorem splitOn_append (sep : Char) : ∀ (p rest : List Char), sep ∉ p →
    splitOn sep (p ++ sep :: rest) = p :: splitOn sep rest := by
  intro p
  induction p with
  | nil =>
    intro rest _
    rcases hs : splitOn sep rest with _ | ⟨q, qs⟩
    · exact absurd hs (splitOn_ne_nil sep rest)
    · rw [List.nil_append, splitOn, hs]
      show (if sep = sep then [] :: q :: qs else (sep :: q) :: qs) =
        [] :: q :: qs
      rw [if_pos rfl]
  | cons c p ih =>
    intro rest h
    have hcs : ¬ c = sep := fun hx => h (hx ▸ List.mem_cons_self c p)
    rw [List.cons_append, splitOn,
      ih rest (fun hx => h (List.mem_cons_of_mem c hx))]
    show (if c = sep then [] :: p :: splitOn sep rest
      else (c :: p) :: splitOn sep rest) = (c :: p) :: splitOn sep rest
    rw [if_neg hcs]

theorem splitOn_intercalate (sep : Char) : ∀ (parts : List (List Char)),
    parts ≠ [] → (∀ p ∈ parts, sep ∉ p) →
    splitOn sep (List.intercalate [sep] parts) = parts := by
  intro parts
  induction parts with
  | nil => intro h _; cases h rfl
  | cons p ps ih =>
    intro _ h
    cases ps with
    | nil =>
      have hone : List.intercalate [sep] [p] = p := by
        simp [List.intercalate]
      rw [hone, splitOn_no_sep sep p (h p (List.mem_cons_self _ _))]
    | cons q qs =>
      have hic : List.intercalate [sep] (p :: q :: qs) =
          p ++ sep :: List.intercalate [sep] (q :: qs) := by
        simp [List.intercalate, List.intersperse]
      rw [hic, splitOn_append sep p _ (h p (List.mem_cons_self _ _)),
        ih (List.cons_ne_nil q qs)
          (fun x hx => h x (List.mem_cons_of_mem p hx))]

theorem takeWhile_middle (pr : Char → Bool) : ∀ (l : List Char) (x : Char)
    (r : List Char), (∀ y ∈ l, pr y = true) → pr x = false →
    (l ++ x :: r).takeWhile pr = l ∧ (l ++ x :: r).dropWhile pr = x :: r := by
  intro l
  induction l with
  | nil =>
    intro x r _ hx
    constructor
    · simp [List.takeWhile_cons, hx]
    · simp [List.dropWhile_cons, hx]
  | cons c l ih =>
    intro x r h hx
    have hc : pr c = true := h c (List.mem_cons_self _ _)
    have ihr := ih x r (fun y hy => h y (List.mem_cons_of_mem c hy)) hx
    constructor
    · simp [List.cons_append, List.takeWhile_cons, hc, ihr.1]
    · simp [List.cons_append, List.dropWhile_cons, hc, ihr.2]

theorem filterMap_eq_self {α : Type} : ∀ (f : α → Option α) (l : List α),
    (∀ x ∈ l, f x = some x) → List.filterMap f l = l := by
  intro f l
  induction l with
  | nil => intro _; rfl
  | cons a r ih =>
    intro h
    simp only [List.filterMap_cons]
    rw [h a (List.mem_cons_self _ _)]
    show a :: List.filterMap f r = a :: r
    rw [ih (fun x hx => h x (List.mem_cons_of_mem a hx))]

theorem qp_no_eq (s : List Char) : '=' ∉ quote_plus s :=
  quote_plus_not_mem s '=' (by decide) (by decide)
    (fun n hn => (hexUpper_spec n hn).2.2.2.2.2.1) (by decide) (by decide)

theorem qp_no_amp (s : List Char) : '&' ∉ quote_plus s :=
  quote_plus_not_mem s '&' (by decide) (by decide)
    (fun n hn => (hexUpper_spec n hn).2.2.2.2.2.2.1) (by decide) (by decide)

theorem qp_no_hash (s : List Char) : '#' ∉ quote_plus s :=
  quote_plus_not_mem s '#' (by decide) (by decide)
    (fun n hn => (hexUpper_spec n hn).2.2.2.2.2.2.2.1) (by decide)
    (by decide)

theorem qp_no_question (s : List Char) : '?' ∉ quote_plus s :=
  quote_plus_not_mem s '?' (by decide) (by decide)
    (fun n hn => (hexUpper_spec n hn).2.2.2.2.2.2.2.2.1) (by decide)
    (by decide)

theorem parse_qsl_urlencode (pairs : List (List Char × List Char)) :
    parse_qsl (urlencode pairs) = pairs := by
  cases pairs with
  | nil => rfl
  | cons p ps =>
    have hnoamp : ∀ kv : List Char × List Char,
        '&' ∉ (quote_plus kv.1 ++ '=' :: quote_plus kv.2) := by
      intro kv hc
      rcases List.mem_append.mp hc with h | h
      · exact qp_no_amp kv.1 h
      · rcases List.mem_cons.mp h with h | h
        · exact absurd h (by decide)
        · exact qp_no_amp kv.2 h
    have hsplit : splitOn '&' (urlencode (p :: ps)) =
        (p :: ps).map
          (fun kv => quote_plus kv.1 ++ '=' :: quote_plus kv.2) := by
      refine splitOn_intercalate '&' _ (by simp) ?_
      intro part hpart
      obtain ⟨kv, _, hpe⟩ := List.mem_map.mp hpart
      rw [← hpe]
      exact hnoamp kv
    have hqs_ne : urlencode (p :: ps) ≠ [] := by
      intro h
      rw [h] at hsplit
      have h0 : ([[]] : List (List Char)) =
          (quote_plus p.1 ++ '=' :: quote_plus p.2) ::
            ps.map (fun kv => quote_plus kv.1 ++ '=' :: quote_plus kv.2) :=
        hsplit
      have h2 := List.cons.inj h0
      have hm : '=' ∈ ([] : List Char) := by
        rw [h2.1]
        exact List.mem_append_right _ (List.mem_cons_self _ _)
      exact absurd hm (List.not_mem_nil _)
    rw [parse_qsl, if_neg hqs_ne, hsplit, List.filterMap_map]
    refine filterMap_eq_self _ _ ?_
    intro kv _
    show (if quote_plus kv.1 ++ '=' :: quote_plus kv.2 = [] then none
      else if '=' ∈ quote_plus kv.1 ++ '=' :: quote_plus kv.2 then
        some (unquote (replacePlus ((quote_plus kv.1 ++ '=' ::
            quote_plus kv.2).takeWhile (· ≠ '='))),
          unquote (replacePlus (((quote_plus kv.1 ++ '=' ::
            quote_plus kv.2).dropWhile (· ≠ '=')).tail)))
      else some (unquote (replacePlus (quote_plus kv.1 ++ '=' ::
        quote_plus kv.2)), [])) = some kv
    have hne : quote_plus kv.1 ++ '=' :: quote_plus kv.2 ≠ [] := by
      intro h
      have hm : '=' ∈ ([] : List Char) := by
        rw [← h]
        exact List.mem_append_right _ (List.mem_cons_self _ _)
      exact absurd hm (List.not_mem_nil _)
    have hmem : '=' ∈ quote_plus kv.1 ++ '=' :: quote_plus kv.2 :=
      List.mem_append_right _ (List.mem_cons_self _ _)
    rw [if_neg hne, if_pos hmem]
    have htw := takeWhile_middle (fun c => decide (c ≠ '='))
      (quote_plus kv.1) '=' (quote_plus kv.2) ?_ (by decide)
    · rw [htw.1, htw.2]
      simp only [List.tail_cons]
      rw [unquote_replacePlus_quote_plus, unquote_replacePlus_quote_plus]
    · intro y hy
      simp only [decide_eq_true_eq]
      intro hyeq
      rw [hyeq] at hy
      exact qp_no_eq kv.1 hy

theorem bool_ne_true {b : Bool} (h : b = false) : ¬ b = true := by
  rw [h]
  exact Bool.noConfusion

theorem strLtB_asymm : ∀ (a b : List Char), strLtB a b = true →
    strLtB b a = false := by
  intro a
  induction a with
  | nil =>
    intro b h
    cases b with
    | nil => cases h
    | cons y ys => rfl
  | cons x xs ih =>
    intro b h
    cases b with
    | nil => cases h
    | cons y ys =>
      rw [strLtB] at h ⊢
      by_cases hxy : x < y
      · rw [if_neg (lt_asymm hxy), if_pos hxy]
      · rw [if_neg hxy] at h
        by_cases hyx : y < x
        · rw [if_pos hyx] at h
          cases h
        · rw [if_neg hyx] at h
          rw [if_neg hyx, if_neg hxy]
          exact ih ys h

theorem strLtB_eq_of_not : ∀ (a b : List Char), strLtB a b = false →
    strLtB b a = false → a = b := by
  intro a
  induction a with
  | nil =>
    intro b h1 _
    cases b with
    | nil => rfl
    | cons y ys => cases h1
  | cons x xs ih =>
    intro b h1 h2
    cases b with
    | nil => cases h2
    | cons y ys =>
      rw [strLtB] at h1 h2
      by_cases hxy : x < y
      · rw [if_pos hxy] at h1
        cases h1
      · by_cases hyx : y < x
        · rw [if_pos hyx] at h2
          cases h2
        · rw [if_neg hxy, if_neg hyx] at h1
          have hxyeq : x = y :=
            le_antisymm (le_of_not_lt hyx) (le_of_not_lt hxy)
          rw [if_neg hyx, if_neg hxy] at h2
          rw [hxyeq, ih ys h1 h2]

theorem strLtB_trans : ∀ (a b c : List Char), strLtB a b = true →
    strLtB b c = true → strLtB a c = true := by
  intro a
  induction a with
  | nil =>
    intro b c h1 h2
    cases b with
    | nil => cases h1
    | cons y ys =>
      cases c with
      | nil => cases h2
      | cons z zs => rfl
  | cons x xs ih =>
    intro b c h1 h2
    cases b with
    | nil => cases h1
    | cons y ys =>
      cases c with
      | nil => cases h2
      | cons z zs =>
        rw [strLtB] at h1 h2 ⊢
        by_cases hxy : x < y
        · by_cases hyz : y < z
          · rw [if_pos (lt_trans hxy hyz)]
          · by_cases hzy : z < y
            · rw [if_neg hyz, if_pos hzy] at h2
              cases h2
            · have he : y = z :=
                le_antisymm (le_of_not_lt hzy) (le_of_not_lt hyz)
              rw [if_pos (by rw [← he]; exact hxy)]
        · by_cases hyx : y < x
          · rw [if_neg hxy, if_pos hyx] at h1
            cases h1
          · have hexy : x = y :=
              le_antisymm (le_of_not_lt hyx) (le_of_not_lt hxy)
            rw [if_neg hxy, if_neg hyx] at h1
            by_cases hyz : y < z
            · rw [if_pos (by rw [hexy]; exact hyz)]
            · by_cases hzy : z < y
              · rw [if_neg hyz, if_pos hzy] at h2
                cases h2
              · rw [if_neg hyz, if_neg hzy] at h2
                rw [if_neg (by rw [hexy]; exact hyz),
                  if_neg (by rw [hexy]; exact hzy)]
                exact ih ys zs h1 h2

theorem strLtB_le_trans {a b c : List Char} (h1 : strLtB b a = false)
    (h2 : strLtB c b = false) : strLtB c a = false := by
  by_cases h : strLtB c a = true
  · by_cases hab : strLtB a b = true
    · have hcb := strLtB_trans _ _ _ h hab
      rw [h2] at hcb
      cases hcb
    · have he : a = b := strLtB_eq_of_not _ _
        (Bool.eq_false_iff.mpr hab) h1
      rw [← he] at h2
      rw [h2] at h
      cases h
  · exact Bool.eq_false_iff.mpr h

theorem keyLe_total : ∀ a b : List Char × List Char,
    keyLe a b = true ∨ keyLe b a = true := by
  intro a b
  rw [keyLe, keyLe]
  by_cases h1 : strLtB (pyLower a.1) (pyLower b.1) = true
  · left
    rw [if_pos h1]
  · by_cases h2 : strLtB (pyLower b.1) (pyLower a.1) = true
    · right
      rw [if_pos h2]
    · by_cases h3 : strLtB b.2 a.2 = true
      · right
        rw [if_neg h2, if_neg h1,
          if_neg (bool_ne_true (strLtB_asymm b.2 a.2 h3))]
      · left
        rw [if_neg h1, if_neg h2, if_neg h3]

theorem keyLe_trans : ∀ a b c : List Char × List Char, keyLe a b = true →
    keyLe b c = true → keyLe a c = true := by
  intro a b c h1 h2
  rw [keyLe] at h1 h2 ⊢
  by_cases hab : strLtB (pyLower a.1) (pyLower b.1) = true
  · by_cases hbc : strLtB (pyLower b.1) (pyLower c.1) = true
    · rw [if_pos (strLtB_trans _ _ _ hab hbc)]
    · by_cases hcb : strLtB (pyLower c.1) (pyLower b.1) = true
      · rw [if_neg hbc, if_pos hcb] at h2
        cases h2
      · have hkbc : pyLower b.1 = pyLower c.1 := strLtB_eq_of_not _ _
          (Bool.eq_false_iff.mpr hbc) (Bool.eq_false_iff.mpr hcb)
        rw [if_pos (by rw [← hkbc]; exact hab)]
  · by_cases hba : strLtB (pyLower b.1) (pyLower a.1) = true
    · rw [if_neg hab, if_pos hba] at h1
      cases h1
    · have hkab : pyLower a.1 = pyLower b.1 := strLtB_eq_of_not _ _
        (Bool.eq_false_iff.mpr hab) (Bool.eq_false_iff.mpr hba)
      rw [if_neg hab, if_neg hba] at h1
      have hv1 : strLtB b.2 a.2 = false := by
        by_cases h : strLtB b.2 a.2 = true
        · rw [if_pos h] at h1
          cases h1
        · exact Bool.eq_false_iff.mpr h
      by_cases hbc : strLtB (pyLower b.1) (pyLower c.1) = true
      · rw [if_pos (by rw [hkab]; exact hbc)]
      · by_cases hcb : strLtB (pyLower c.1) (pyLower b.1) = true
        · rw [if_neg hbc, if_pos hcb] at h2
          cases h2
        · have hkbc : pyLower b.1 = pyLower c.1 := strLtB_eq_of_not _ _
            (Bool.eq_false_iff.mpr hbc) (Bool.eq_false_iff.mpr hcb)
          rw [if_neg hbc, if_neg hcb] at h2
          have hv2 : strLtB c.2 b.2 = false := by
            by_cases h : strLtB c.2 b.2 = true
            · rw [if_pos h] at h2
              cases h2
            · exact Bool.eq_false_iff.mpr h
          rw [if_neg (by rw [hkab]; exact hbc),
            if_neg (by rw [hkab]; exact hcb)]
          rw [if_neg (bool_ne_true (strLtB_le_trans hv1 hv2))]

theorem toLower_eq (c : Char) : Char.toLower c =
    if 65 ≤ c.toNat ∧ c.toNat ≤ 90 then Char.ofNat (c.toNat + 32)
    else c := rfl

theorem toLower_toNat (c : Char) : (Char.toLower c).toNat =
    if 65 ≤ c.toNat ∧ c.toNat ≤ 90 then c.toNat + 32 else c.toNat := by
  rw [toLower_eq]
  by_cases h : 65 ≤ c.toNat ∧ c.toNat ≤ 90
  · rw [if_pos h, if_pos h, charToNatOfNat_small (by omega)]
  · rw [if_neg h, if_neg h]

theorem toLower_fix {d : Char} (hd : ¬ (65 ≤ d.toNat ∧ d.toNat ≤ 90)) :
    Char.toLower d = d := by
  rw [toLower_eq, if_neg hd]

theorem toLower_idem (c : Char) :
    Char.toLower (Char.toLower c) = Char.toLower c := by
  apply char_eq_of_toNat
  rw [toLower_toNat (Char.toLower c), toLower_toNat c]
  by_cases h : 65 ≤ c.toNat ∧ c.toNat ≤ 90
  · simp only [if_pos h]
    rw [if_neg (by omega : ¬ (65 ≤ c.toNat + 32 ∧ c.toNat + 32 ≤ 90))]
  · simp only [if_neg h]

theorem pyLower_idem (s : List Char) : pyLower (pyLower s) = pyLower s := by
  simp only [pyLower, List.map_map]
  exact List.map_congr_left (fun c _ => toLower_idem c)

theorem toLower_eq_special {c d : Char}
    (hd : ¬ (97 ≤ d.toNat ∧ d.toNat ≤ 122)) (h : Char.toLower c = d) :
    c = d := by
  rw [toLower_eq] at h
  by_cases hc : 65 ≤ c.toNat ∧ c.toNat ≤ 90
  · rw [if_pos hc] at h
    have hn := congrArg Char.toNat h
    rw [charToNatOfNat_small (by omega)] at hn
    exact absurd (⟨by omega, by omega⟩ : 97 ≤ d.toNat ∧ d.toNat ≤ 122) hd
  · rw [if_neg hc] at h
    exact h

theorem mem_pyLower_iff {l : List Char} {d : Char}
    (hlo : ¬ (97 ≤ d.toNat ∧ d.toNat ≤ 122))
    (hup : ¬ (65 ≤ d.toNat ∧ d.toNat ≤ 90)) : d ∈ pyLower l ↔ d ∈ l := by
  simp only [pyLower, List.mem_map]
  constructor
  · rintro ⟨c, hc, hcd⟩
    exact (toLower_eq_special hlo hcd) ▸ hc
  · intro hd
    exact ⟨d, hd, toLower_fix hup⟩

theorem isSchemeChar_toNat (c : Char) : isSchemeChar c = true ↔
    (97 ≤ c.toNat ∧ c.toNat ≤ 122) ∨ (65 ≤ c.toNat ∧ c.toNat ≤ 90) ∨
    (48 ≤ c.toNat ∧ c.toNat ≤ 57) ∨ c.toNat = 43 ∨ c.toNat = 45 ∨
    c.toNat = 46 := by
  simp only [isSchemeChar, decide_eq_true_eq]
  constructor
  · rintro (⟨h1, h2⟩ | ⟨h1, h2⟩ | ⟨h1, h2⟩ | h | h | h)
    · exact Or.inl ⟨char_le_iff.mp h1, char_le_iff.mp h2⟩
    · exact Or.inr (Or.inl ⟨char_le_iff.mp h1, char_le_iff.mp h2⟩)
    · exact Or.inr (Or.inr (Or.inl ⟨char_le_iff.mp h1, char_le_iff.mp h2⟩))
    · exact Or.inr (Or.inr (Or.inr (Or.inl (by rw [h]; rfl))))
    · exact Or.inr (Or.inr (Or.inr (Or.inr (Or.inl (by rw [h]; rfl)))))
    · exact Or.inr (Or.inr (Or.inr (Or.inr (Or.inr (by rw [h]; rfl)))))
  · rintro (⟨h1, h2⟩ | ⟨h1, h2⟩ | ⟨h1, h2⟩ | h | h | h)
    · exact Or.inl ⟨char_le_iff.mpr h1, char_le_iff.mpr h2⟩
    · exact Or.inr (Or.inl ⟨char_le_iff.mpr h1, char_le_iff.mpr h2⟩)
    · exact Or.inr (Or.inr (Or.inl ⟨char_le_iff.mpr h1, char_le_iff.mpr h2⟩))
    · exact Or.inr (Or.inr (Or.inr (Or.inl (char_eq_of_toNat h))))
    · exact Or.inr (Or.inr (Or.inr (Or.inr (Or.inl (char_eq_of_toNat h)))))
    · exact Or.inr (Or.inr (Or.inr (Or.inr (Or.inr (char_eq_of_toNat h)))))

theorem isSchemeChar_toLower {c : Char} (h : isSchemeChar c = true) :
    isSchemeChar (Char.toLower c) = true := by
  rw [isSchemeChar_toNat] at h ⊢
  rw [toLower_toNat]
  by_cases hc : 65 ≤ c.toNat ∧ c.toNat ≤ 90
  · rw [if_pos hc]
    omega
  · rw [if_neg hc]
    omega

theorem schemeChar_not_c0 {c : Char} (h : isSchemeChar c = true) :
    c0OrSpace c = false := by
  rw [isSchemeChar_toNat] at h
  simp only [c0OrSpace, decide_eq_false_iff_not]
  omega

theorem schemeChar_ne_colon {c : Char} (h : isSchemeChar c = true) :
    c ≠ ':' := by
  rw [isSchemeChar_toNat] at h
  intro he
  rw [he] at h
  revert h
  decide

theorem toLower_not3 {c : Char} (h : (c ≠ '/' ∧ c ≠ '?' ∧ c ≠ '#')) :
    Char.toLower c ≠ '/' ∧ Char.toLower c ≠ '?' ∧ Char.toLower c ≠ '#' := by
  refine ⟨?_, ?_, ?_⟩ <;> intro he
  · exact h.1 (toLower_eq_special (by decide) he)
  · exact h.2.1 (toLower_eq_special (by decide) he)
  · exact h.2.2 (toLower_eq_special (by decide) he)

theorem tabCrLf_toLower {c : Char} (h : tabCrLf c = false) :
    tabCrLf (Char.toLower c) = false := by
  simp only [tabCrLf, decide_eq_false_iff_not] at h ⊢
  intro hcon
  rcases hcon with h1 | h1 | h1
  · exact h (Or.inl (toLower_eq_special (by decide) h1))
  · exact h (Or.inr (Or.inl (toLower_eq_special (by decide) h1)))
  · exact h (Or.inr (Or.inr (toLower_eq_special (by decide) h1)))

theorem schemeSplit_all (url : List Char) :
    ((schemeSplit url).1).all isSchemeChar = true := by
  rw [schemeSplit]
  by_cases h : ':' ∈ url ∧ url.takeWhile (· ≠ ':') ≠ [] ∧
      (url.takeWhile (· ≠ ':')).all isSchemeChar = true
  · rw [if_pos h]
    show (pyLower (url.takeWhile (· ≠ ':'))).all isSchemeChar = true
    rw [List.all_eq_true]
    intro c hc
    obtain ⟨d, hd, hdc⟩ := List.mem_map.mp hc
    rw [← hdc]
    exact isSchemeChar_toLower (List.all_eq_true.mp h.2.2 d hd)
  · rw [if_neg h]
    rfl

theorem schemeSplit_scheme_mem {url : List Char} {c : Char}
    (hc : c ∈ (schemeSplit url).1) : ∃ d ∈ url, c = Char.toLower d := by
  rw [schemeSplit] at hc
  by_cases h : ':' ∈ url ∧ url.takeWhile (· ≠ ':') ≠ [] ∧
      (url.takeWhile (· ≠ ':')).all isSchemeChar = true
  · rw [if_pos h] at hc
    obtain ⟨d, hd, hdc⟩ := List.mem_map.mp hc
    exact ⟨d, (List.takeWhile_sublist _).subset hd, hdc.symm⟩
  · rw [if_neg h] at hc
    exact absurd hc (List.not_mem_nil c)

theorem schemeSplit_rest_mem {url : List Char} {c : Char}
    (hc : c ∈ (schemeSplit url).2) : c ∈ url := by
  rw [schemeSplit] at hc
  by_cases h : ':' ∈ url ∧ url.takeWhile (· ≠ ':') ≠ [] ∧
      (url.takeWhile (· ≠ ':')).all isSchemeChar = true
  · rw [if_pos h] at hc
    exact (List.dropWhile_sublist _).subset ((List.tail_sublist _).subset hc)
  · rw [if_neg h] at hc
    exact hc

theorem splitnetloc_netloc_prop {url : List Char} {c : Char}
    (hc : c ∈ (splitnetloc url).1) : ¬ c = '/' ∧ ¬ c = '?' ∧ ¬ c = '#' := by
  have := List.mem_takeWhile_imp hc
  simpa using this

theorem splitnetloc_netloc_mem {url : List Char} {c : Char}
    (hc : c ∈ (splitnetloc url).1) : c ∈ url :=
  List.mem_of_mem_drop ((List.takeWhile_sublist _).subset hc)

theorem splitnetloc_rest_mem {url : List Char} {c : Char}
    (hc : c ∈ (splitnetloc url).2) : c ∈ url :=
  List.mem_of_mem_drop ((List.dropWhile_sublist _).subset hc)

theorem fragSplit_no_hash (url : List Char) : '#' ∉ (fragSplit url).1 := by
  rw [fragSplit]
  by_cases h : '#' ∈ url
  · rw [if_pos h]
    intro hc
    have := List.mem_takeWhile_imp hc
    simp at this
  · rw [if_neg h]
    exact h

theorem fragSplit_mem {url : List Char} {c : Char}
    (hc : c ∈ (fragSplit url).1) : c ∈ url := by
  rw [fragSplit] at hc
  by_cases h : '#' ∈ url
  · rw [if_pos h] at hc
    exact (List.takeWhile_sublist _).subset hc
  · rw [if_neg h] at hc
    exact hc

theorem querySplit_no_question (url : List Char) :
    '?' ∉ (querySplit url).1 := by
  rw [querySplit]
  by_cases h : '?' ∈ url
  · rw [if_pos h]
    intro hc
    have := List.mem_takeWhile_imp hc
    simp at this
  · rw [if_neg h]
    exact h

theorem querySplit_mem {url : List Char} {c : Char}
    (hc : c ∈ (querySplit url).1) : c ∈ url := by
  rw [querySplit] at hc
  by_cases h : '?' ∈ url
  · rw [if_pos h] at hc
    exact (List.takeWhile_sublist _).subset hc
  · rw [if_neg h] at hc
    exact hc

theorem urlsplit_props {u : List Char} {parts : SplitResult}
    (h : urlsplit u = some parts) :
    parts.scheme.all isSchemeChar = true ∧
    (∀ c ∈ parts.netloc, ¬ c = '/' ∧ ¬ c = '?' ∧ ¬ c = '#') ∧
    ¬ (('[' ∈ parts.netloc ∧ ¬ ']' ∈ parts.netloc) ∨
       (']' ∈ parts.netloc ∧ ¬ '[' ∈ parts.netloc)) ∧
    '#' ∉ parts.path ∧ '?' ∉ parts.path ∧
    (∀ c ∈ parts.scheme, tabCrLf c = false) ∧
    (∀ c ∈ parts.netloc, tabCrLf c = false) ∧
    (∀ c ∈ parts.path, tabCrLf c = false) := by
  simp only [urlsplit] at h
  set u1 := (u.dropWhile c0OrSpace).filter (fun c => tabCrLf c = false)
    with hu1
  set nr := (if listStartsWith (schemeSplit u1).2 "//".toList then
      splitnetloc (schemeSplit u1).2 else ([], (schemeSplit u1).2)) with hnr
  by_cases hbr : ('[' ∈ nr.1 ∧ ¬ ']' ∈ nr.1) ∨
      (']' ∈ nr.1 ∧ ¬ '[' ∈ nr.1)
  · rw [if_pos hbr] at h
    cases h
  · rw [if_neg hbr] at h
    have hparts := Option.some.inj h
    subst hparts
    have htab : ∀ c ∈ u1, tabCrLf c = false := by
      intro c hc
      rw [hu1] at hc
      exact of_decide_eq_true (List.mem_filter.mp hc).2
    have hnl_mem : ∀ c ∈ nr.1, c ∈ u1 := by
      intro c hc
      rw [hnr] at hc
      by_cases hsw : listStartsWith (schemeSplit u1).2 "//".toList = true
      · rw [if_pos hsw] at hc
        exact schemeSplit_rest_mem (splitnetloc_netloc_mem hc)
      · rw [if_neg hsw] at hc
        exact absurd hc (List.not_mem_nil c)
    have hnl_prop : ∀ c ∈ nr.1, ¬ c = '/' ∧ ¬ c = '?' ∧ ¬ c = '#' := by
      intro c hc
      rw [hnr] at hc
      by_cases hsw : listStartsWith (schemeSplit u1).2 "//".toList = true
      · rw [if_pos hsw] at hc
        exact splitnetloc_netloc_prop hc
      · rw [if_neg hsw] at hc
        exact absurd hc (List.not_mem_nil c)
    have hr2_mem : ∀ c ∈ nr.2, c ∈ u1 := by
      intro c hc
      rw [hnr] at hc
      by_cases hsw : listStartsWith (schemeSplit u1).2 "//".toList = true
      · rw [if_pos hsw] at hc
        exact schemeSplit_rest_mem (splitnetloc_rest_mem hc)
      · rw [if_neg hsw] at hc
        exact schemeSplit_rest_mem hc
    refine ⟨?_, ?_, ?_, ?_, ?_, ?_, ?_, ?_⟩
    · show ((schemeSplit u1).1).all isSchemeChar = true
      exact schemeSplit_all u1
    · show ∀ c ∈ nr.1, ¬ c = '/' ∧ ¬ c = '?' ∧ ¬ c = '#'
      exact hnl_prop
    · show ¬ (('[' ∈ nr.1 ∧ ¬ ']' ∈ nr.1) ∨ (']' ∈ nr.1 ∧ ¬ '[' ∈ nr.1))
      exact hbr
    · show '#' ∉ (querySplit (fragSplit nr.2).1).1
      intro hc
      exact fragSplit_no_hash nr.2 (querySplit_mem hc)
    · show '?' ∉ (querySplit (fragSplit nr.2).1).1
      exact querySplit_no_question _
    · show ∀ c ∈ (schemeSplit u1).1, tabCrLf c = false
      intro c hc
      obtain ⟨d, hd, hdc⟩ := schemeSplit_scheme_mem hc
      rw [hdc]
      exact tabCrLf_toLower (htab d hd)
    · show ∀ c ∈ nr.1, tabCrLf c = false
      intro c hc
      exact htab c (hnl_mem c hc)
    · show ∀ c ∈ (querySplit (fragSplit nr.2).1).1, tabCrLf c = false
      intro c hc
      exact htab c (hr2_mem c (fragSplit_mem (querySplit_mem hc)))

theorem tab_free_append {a b : List Char} (ha : ∀ c ∈ a, tabCrLf c = false)
    (hb : ∀ c ∈ b, tabCrLf c = false) :
    ∀ c ∈ a ++ b, tabCrLf c = false := by
  intro c hc
  rcases List.mem_append.mp hc with h | h
  · exact ha c h
  · exact hb c h

theorem tab_free_cons {d : Char} {b : List Char} (hd : tabCrLf d = false)
    (hb : ∀ c ∈ b, tabCrLf c = false) :
    ∀ c ∈ d :: b, tabCrLf c = false := by
  intro c hc
  rcases List.mem_cons.mp hc with h | h
  · rw [h]
    exact hd
  · exact hb c h

theorem not_mem_append {d : Char} {a b : List Char} (ha : d ∉ a)
    (hb : d ∉ b) : d ∉ a ++ b :=
  fun h => (List.mem_append.mp h).elim ha hb

theorem not_mem_cons {d e : Char} {b : List Char} (hde : ¬ d = e)
    (hb : d ∉ b) : d ∉ e :: b :=
  fun h => (List.mem_cons.mp h).elim hde hb

theorem schemeSplit_of_append {scheme R : List Char} (hne : scheme ≠ [])
    (hall : scheme.all isSchemeChar = true) :
    schemeSplit (scheme ++ ':' :: R) = (pyLower scheme, R) := by
  have htw := takeWhile_middle (fun c => decide (c ≠ ':')) scheme ':' R
    (fun y hy => decide_eq_true
      (schemeChar_ne_colon (List.all_eq_true.mp hall y hy)))
    (by decide)
  have hcond : ':' ∈ scheme ++ ':' :: R ∧
      (scheme ++ ':' :: R).takeWhile (· ≠ ':') ≠ [] ∧
      ((scheme ++ ':' :: R).takeWhile (· ≠ ':')).all isSchemeChar = true := by
    refine ⟨List.mem_append_right _ (List.mem_cons_self _ _), ?_, ?_⟩
    · rw [htw.1]
      exact hne
    · rw [htw.1]
      exact hall
  rw [schemeSplit, if_pos hcond, htw.1, htw.2]
  simp only [List.tail_cons]

theorem splitnetloc_of (netloc rest : List Char)
    (hn : ∀ c ∈ netloc, ¬ c = '/' ∧ ¬ c = '?' ∧ ¬ c = '#') :
    splitnetloc ('/' :: '/' :: (netloc ++ '/' :: rest)) =
      (netloc, '/' :: rest) := by
  have htw := takeWhile_middle
    (fun c => decide (c ≠ '/' ∧ c ≠ '?' ∧ c ≠ '#')) netloc '/' rest
    (fun y hy => decide_eq_true (hn y hy)) (by decide)
  rw [splitnetloc]
  show ((netloc ++ '/' :: rest).takeWhile
      (fun c => c ≠ '/' ∧ c ≠ '?' ∧ c ≠ '#'),
    (netloc ++ '/' :: rest).dropWhile
      (fun c => c ≠ '/' ∧ c ≠ '?' ∧ c ≠ '#')) = (netloc, '/' :: rest)
  rw [htw.1, htw.2]

theorem fragSplit_of_no_hash {url : List Char} (h : '#' ∉ url) :
    fragSplit url = (url, []) := by
  rw [fragSplit, if_neg h]

theorem querySplit_of_no_q {url : List Char} (h : '?' ∉ url) :
    querySplit url = (url, []) := by
  rw [querySplit, if_neg h]

theorem querySplit_of_append {p q : List Char} (hp : '?' ∉ p) :
    querySplit (p ++ '?' :: q) = (p, q) := by
  have htw := takeWhile_middle (fun c => decide (c ≠ '?')) p '?' q
    (fun y hy => decide_eq_true (fun he => hp (he ▸ hy))) (by decide)
  have hmem : '?' ∈ p ++ '?' :: q :=
    List.mem_append_right _ (List.mem_cons_self _ _)
  rw [querySplit, if_pos hmem, htw.1, htw.2]
  simp only [List.tail_cons]

theorem starts2_append_q {path q : List Char} (hp : path ≠ [])
    (h : ¬ listStartsWith path ('/' :: '/' :: []) = true) :
    ¬ listStartsWith (path ++ '?' :: q) ('/' :: '/' :: []) = true := by
  rw [listStartsWith_iff] at h ⊢
  intro hpre
  apply h
  obtain ⟨t, ht⟩ := hpre
  cases path with
  | nil => cases hp rfl
  | cons c r =>
    cases r with
    | nil =>
      injection ht with h1 ht2
      injection ht2 with h2 _
      exact absurd h2 (by decide)
    | cons c2 r2 =>
      injection ht with h1 ht2
      injection ht2 with h2 _
      exact ⟨r2, by subst h1; subst h2; rfl⟩

theorem urlsplit_canonical_core (scheme netloc t query : List Char)
    (hs_ne : scheme ≠ []) (hs_all : scheme.all isSchemeChar = true)
    (hn_prop : ∀ c ∈ netloc, ¬ c = '/' ∧ ¬ c = '?' ∧ ¬ c = '#')
    (hbr : ¬ (('[' ∈ netloc ∧ ¬ ']' ∈ netloc) ∨
      (']' ∈ netloc ∧ ¬ '[' ∈ netloc)))
    (ht_hash : '#' ∉ t) (ht_q : '?' ∉ t) (hq_hash : '#' ∉ query)
    (htab_s : ∀ c ∈ scheme, tabCrLf c = false)
    (htab_n : ∀ c ∈ netloc, tabCrLf c = false)
    (htab_t : ∀ c ∈ t, tabCrLf c = false)
    (htab_q : ∀ c ∈ query, tabCrLf c = false) :
    urlsplit (if query ≠ [] then
        (scheme ++ ':' :: ('/' :: '/' :: (netloc ++ '/' :: t))) ++
          '?' :: query
      else scheme ++ ':' :: ('/' :: '/' :: (netloc ++ '/' :: t))) =
      some ⟨pyLower scheme, netloc, '/' :: t, query, []⟩ := by
  obtain ⟨s0, s', rfl⟩ : ∃ s0 s', scheme = s0 :: s' := by
    cases scheme with
    | nil => cases hs_ne rfl
    | cons a b => exact ⟨a, b, rfl⟩
  have hs0 : isSchemeChar s0 = true :=
    List.all_eq_true.mp hs_all s0 (List.mem_cons_self _ _)
  by_cases hq : query ≠ []
  · rw [if_pos hq]
    have hassoc : ((s0 :: s') ++ ':' ::
          ('/' :: '/' :: (netloc ++ '/' :: t))) ++ '?' :: query =
        (s0 :: s') ++ ':' ::
          ('/' :: '/' :: (netloc ++ '/' :: (t ++ '?' :: query))) := by
      simp [List.append_assoc]
    rw [hassoc]
    simp only [urlsplit]
    have htfree : ∀ c ∈ (s0 :: s') ++ ':' ::
        ('/' :: '/' :: (netloc ++ '/' :: (t ++ '?' :: query))),
        tabCrLf c = false :=
      tab_free_append htab_s (tab_free_cons (by decide)
        (tab_free_cons (by decide) (tab_free_cons (by decide)
          (tab_free_append htab_n (tab_free_cons (by decide)
            (tab_free_append htab_t
              (tab_free_cons (by decide) htab_q)))))))
    have hdrop : ((s0 :: s') ++ ':' ::
        ('/' :: '/' :: (netloc ++ '/' :: (t ++ '?' :: query)))).dropWhile
          c0OrSpace =
        (s0 :: s') ++ ':' ::
          ('/' :: '/' :: (netloc ++ '/' :: (t ++ '?' :: query))) := by
      rw [List.cons_append, List.dropWhile_cons,
        if_neg (bool_ne_true (schemeChar_not_c0 hs0)), ← List.cons_append]
    have hfil : ((s0 :: s') ++ ':' ::
        ('/' :: '/' :: (netloc ++ '/' :: (t ++ '?' :: query)))).filter
          (fun c => tabCrLf c = false) =
        (s0 :: s') ++ ':' ::
          ('/' :: '/' :: (netloc ++ '/' :: (t ++ '?' :: query))) :=
      List.filter_eq_self.mpr (fun c hc => decide_eq_true (htfree c hc))
    rw [hdrop, hfil, schemeSplit_of_append hs_ne hs_all]
    simp only []
    rw [if_pos (show listStartsWith
      ('/' :: '/' :: (netloc ++ '/' :: (t ++ '?' :: query)))
      "//".toList = true from listStartsWith_iff.mpr ⟨_, rfl⟩)]
    rw [splitnetloc_of netloc (t ++ '?' :: query) hn_prop]
    simp only []
    rw [if_neg hbr]
    have hnh : '#' ∉ '/' :: (t ++ '?' :: query) :=
      not_mem_cons (by decide) (not_mem_append ht_hash
        (not_mem_cons (by decide) hq_hash))
    rw [fragSplit_of_no_hash hnh]
    simp only []
    rw [← List.cons_append,
      querySplit_of_append (not_mem_cons (by decide) ht_q)]
  · rw [if_neg hq]
    have hqnil : query = [] := not_not.mp hq
    subst hqnil
    simp only [urlsplit]
    have htfree : ∀ c ∈ (s0 :: s') ++ ':' ::
        ('/' :: '/' :: (netloc ++ '/' :: t)), tabCrLf c = false :=
      tab_free_append htab_s (tab_free_cons (by decide)
        (tab_free_cons (by decide) (tab_free_cons (by decide)
          (tab_free_append htab_n
            (tab_free_cons (by decide) htab_t)))))
    have hdrop : ((s0 :: s') ++ ':' ::
        ('/' :: '/' :: (netloc ++ '/' :: t))).dropWhile c0OrSpace =
        (s0 :: s') ++ ':' :: ('/' :: '/' :: (netloc ++ '/' :: t)) := by
      rw [List.cons_append, List.dropWhile_cons,
        if_neg (bool_ne_true (schemeChar_not_c0 hs0)), ← List.cons_append]
    have hfil : ((s0 :: s') ++ ':' ::
        ('/' :: '/' :: (netloc ++ '/' :: t))).filter
          (fun c => tabCrLf c = false) =
        (s0 :: s') ++ ':' :: ('/' :: '/' :: (netloc ++ '/' :: t)) :=
      List.filter_eq_self.mpr (fun c hc => decide_eq_true (htfree c hc))
    rw [hdrop, hfil, schemeSplit_of_append hs_ne hs_all]
    simp only []
    rw [if_pos (show listStartsWith ('/' :: '/' :: (netloc ++ '/' :: t))
      "//".toList = true from listStartsWith_iff.mpr ⟨_, rfl⟩)]
    rw [splitnetloc_of netloc t hn_prop]
    simp only []
    rw [if_neg hbr]
    have hnh : '#' ∉ '/' :: t := not_mem_cons (by decide) ht_hash
    rw [fragSplit_of_no_hash hnh]
    simp only []
    rw [querySplit_of_no_q (not_mem_cons (by decide) ht_q)]

theorem urlsplit_canonical_noloc (scheme path query : List Char)
    (hs_ne : scheme ≠ []) (hs_all : scheme.all isSchemeChar = true)
    (hp_ne : path ≠ []) (hp_hash : '#' ∉ path) (hp_q : '?' ∉ path)
    (hp_ns : ¬ listStartsWith path "//".toList = true)
    (hq_hash : '#' ∉ query)
    (htab_s : ∀ c ∈ scheme, tabCrLf c = false)
    (htab_p : ∀ c ∈ path, tabCrLf c = false)
    (htab_q : ∀ c ∈ query, tabCrLf c = false) :
    urlsplit (if query ≠ [] then (scheme ++ ':' :: path) ++ '?' :: query
      else scheme ++ ':' :: path) =
      some ⟨pyLower scheme, [], path, query, []⟩ := by
  obtain ⟨s0, s', rfl⟩ : ∃ s0 s', scheme = s0 :: s' := by
    cases scheme with
    | nil => cases hs_ne rfl
    | cons a b => exact ⟨a, b, rfl⟩
  have hs0 : isSchemeChar s0 = true :=
    List.all_eq_true.mp hs_all s0 (List.mem_cons_self _ _)
  by_cases hq : query ≠ []
  · rw [if_pos hq]
    have hassoc : ((s0 :: s') ++ ':' :: path) ++ '?' :: query =
        (s0 :: s') ++ ':' :: (path ++ '?' :: query) := by
      simp [List.append_assoc]
    rw [hassoc]
    simp only [urlsplit]
    have htfree : ∀ c ∈ (s0 :: s') ++ ':' :: (path ++ '?' :: query),
        tabCrLf c = false :=
      tab_free_append htab_s (tab_free_cons (by decide)
        (tab_free_append htab_p (tab_free_cons (by decide) htab_q)))
    have hdrop : ((s0 :: s') ++ ':' ::
        (path ++ '?' :: query)).dropWhile c0OrSpace =
        (s0 :: s') ++ ':' :: (path ++ '?' :: query) := by
      rw [List.cons_append, List.dropWhile_cons,
        if_neg (bool_ne_true (schemeChar_not_c0 hs0)), ← List.cons_append]
    have hfil : ((s0 :: s') ++ ':' :: (path ++ '?' :: query)).filter
          (fun c => tabCrLf c = false) =
        (s0 :: s') ++ ':' :: (path ++ '?' :: query) :=
      List.filter_eq_self.mpr (fun c hc => decide_eq_true (htfree c hc))
    rw [hdrop, hfil, schemeSplit_of_append hs_ne hs_all]
    simp only []
    rw [if_neg (show ¬ listStartsWith (path ++ '?' :: query)
      "//".toList = true from starts2_append_q hp_ne hp_ns)]
    simp only []
    rw [if_neg (by decide :
      ¬ (('[' ∈ ([] : List Char) ∧ ¬ ']' ∈ ([] : List Char)) ∨
        (']' ∈ ([] : List Char) ∧ ¬ '[' ∈ ([] : List Char))))]
    have hnh : '#' ∉ path ++ '?' :: query :=
      not_mem_append hp_hash (not_mem_cons (by decide) hq_hash)
    rw [fragSplit_of_no_hash hnh]
    simp only []
    rw [querySplit_of_append hp_q]
  · rw [if_neg hq]
    have hqnil : query = [] := not_not.mp hq
    subst hqnil
    simp only [urlsplit]
    have htfree : ∀ c ∈ (s0 :: s') ++ ':' :: path, tabCrLf c = false :=
      tab_free_append htab_s (tab_free_cons (by decide) htab_p)
    have hdrop : ((s0 :: s') ++ ':' :: path).dropWhile c0OrSpace =
        (s0 :: s') ++ ':' :: path := by
      rw [List.cons_append, List.dropWhile_cons,
        if_neg (bool_ne_true (schemeChar_not_c0 hs0)), ← List.cons_append]
    have hfil : ((s0 :: s') ++ ':' :: path).filter
          (fun c => tabCrLf c = false) = (s0 :: s') ++ ':' :: path :=
      List.filter_eq_self.mpr (fun c hc => decide_eq_true (htfree c hc))
    rw [hdrop, hfil, schemeSplit_of_append hs_ne hs_all]
    simp only []
    rw [if_neg hp_ns]
    simp only []
    rw [if_neg (by decide :
      ¬ (('[' ∈ ([] : List Char) ∧ ¬ ']' ∈ ([] : List Char)) ∨
        (']' ∈ ([] : List Char) ∧ ¬ '[' ∈ ([] : List Char))))]
    rw [fragSplit_of_no_hash hp_hash]
    simp only []
    rw [querySplit_of_no_q hp_q]

theorem urlsplit_canonical (scheme netloc path query : List Char)
    (hs_ne : scheme ≠ []) (hs_all : scheme.all isSchemeChar = true)
    (hn_prop : ∀ c ∈ netloc, ¬ c = '/' ∧ ¬ c = '?' ∧ ¬ c = '#')
    (hbr : ¬ (('[' ∈ netloc ∧ ¬ ']' ∈ netloc) ∨
      (']' ∈ netloc ∧ ¬ '[' ∈ netloc)))
    (hp_ne : path ≠ []) (hp_hash : '#' ∉ path) (hp_q : '?' ∉ path)
    (hq_hash : '#' ∉ query)
    (htab_s : ∀ c ∈ scheme, tabCrLf c = false)
    (htab_n : ∀ c ∈ netloc, tabCrLf c = false)
    (htab_p : ∀ c ∈ path, tabCrLf c = false)
    (htab_q : ∀ c ∈ query, tabCrLf c = false) :
    urlsplit (urlunsplit scheme netloc path query) =
      some ⟨pyLower scheme, netloc,
        (if netloc ≠ [] ∨
            (path ≠ [] ∧ listStartsWith path "//".toList = true) then
          (if path ≠ [] ∧ ¬ listStartsWith path "/".toList = true
           then '/' :: path else path)
         else path), query, []⟩ := by
  simp only [urlunsplit]
  by_cases hN : netloc ≠ [] ∨
      (path ≠ [] ∧ listStartsWith path "//".toList = true)
  · rw [if_pos hN, if_pos hN, if_pos hs_ne]
    by_cases hP : path ≠ [] ∧ ¬ listStartsWith path "/".toList = true
    · rw [if_pos hP]
      exact urlsplit_canonical_core scheme netloc path query hs_ne hs_all
        hn_prop hbr hp_hash hp_q hq_hash htab_s htab_n htab_p htab_q
    · rw [if_neg hP]
      have hst : listStartsWith path "/".toList = true := by
        by_contra hc
        exact hP ⟨hp_ne, hc⟩
      obtain ⟨t, rfl⟩ : ∃ t, path = '/' :: t := by
        obtain ⟨u, hu⟩ := listStartsWith_iff.mp hst
        exact ⟨u, hu.symm⟩
      exact urlsplit_canonical_core scheme netloc t query hs_ne hs_all
        hn_prop hbr (fun h => hp_hash (List.mem_cons_of_mem _ h))
        (fun h => hp_q (List.mem_cons_of_mem _ h)) hq_hash htab_s htab_n
        (fun c hc => htab_p c (List.mem_cons_of_mem _ hc)) htab_q
  · rw [if_neg hN, if_neg hN, if_pos hs_ne]
    have hnl : netloc = [] := by
      by_contra hc
      exact hN (Or.inl hc)
    subst hnl
    have hns : ¬ listStartsWith path "//".toList = true := by
      intro hc
      exact hN (Or.inr ⟨hp_ne, hc⟩)
    exact urlsplit_canonical_noloc scheme path query hs_ne hs_all hp_ne
      hp_hash hp_q hns hq_hash htab_s htab_p htab_q

theorem mem_intercalate {c sep : Char} : ∀ {parts : List (List Char)},
    c ∈ List.intercalate [sep] parts → c = sep ∨ ∃ p ∈ parts, c ∈ p := by
  intro parts
  induction parts with
  | nil =>
    intro h
    exact absurd h (List.not_mem_nil c)
  | cons p ps ih =>
    intro h
    cases ps with
    | nil =>
      have h2 : c ∈ p := by simpa [List.intercalate] using h
      exact Or.inr ⟨p, List.mem_cons_self _ _, h2⟩
    | cons q qs =>
      have hic : List.intercalate [sep] (p :: q :: qs) =
          p ++ sep :: List.intercalate [sep] (q :: qs) := by
        simp [List.intercalate, List.intersperse]
      rw [hic] at h
      rcases List.mem_append.mp h with h | h
      · exact Or.inr ⟨p, List.mem_cons_self _ _, h⟩
      · rcases List.mem_cons.mp h with h | h
        · exact Or.inl h
        · rcases ih h with h | ⟨r, hr, hcr⟩
          · exact Or.inl h
          · exact Or.inr ⟨r, List.mem_cons_of_mem _ hr, hcr⟩

theorem urlencode_not_mem {c : Char} (pairs : List (List Char × List Char))
    (hqp : ∀ s, c ∉ quote_plus s) (hc1 : ¬ c = '=') (hc2 : ¬ c = '&') :
    c ∉ urlencode pairs := by
  intro hc
  rw [urlencode] at hc
  rcases mem_intercalate hc with h | ⟨p, hp, hcp⟩
  · exact hc2 h
  · obtain ⟨kv, _, hkv⟩ := List.mem_map.mp hp
    rw [← hkv] at hcp
    rcases List.mem_append.mp hcp with h | h
    · exact hqp kv.1 h
    · rcases List.mem_cons.mp h with h | h
      · exact hc1 h
      · exact hqp kv.2 h

theorem qp_no_tab (s : List Char) : ∀ c ∈ quote_plus s,
    tabCrLf c = false := by
  intro c hc
  by_contra hx
  have hx2 : tabCrLf c = true := by
    cases hcb : tabCrLf c
    · exact absurd hcb hx
    · rfl
  simp only [tabCrLf, decide_eq_true_eq] at hx2
  rcases hx2 with h | h | h
  · subst h
    refine quote_plus_not_mem s '\t' (by decide) (by decide) ?_ (by decide)
      (by decide) hc
    intro n hn he
    have htl := (hexUpper_spec n hn).2.2.2.2.2.2.2.2.2
    rw [he] at htl
    exact absurd htl (by decide)
  · subst h
    refine quote_plus_not_mem s '\r' (by decide) (by decide) ?_ (by decide)
      (by decide) hc
    intro n hn he
    have htl := (hexUpper_spec n hn).2.2.2.2.2.2.2.2.2
    rw [he] at htl
    exact absurd htl (by decide)
  · subst h
    refine quote_plus_not_mem s '\n' (by decide) (by decide) ?_ (by decide)
      (by decide) hc
    intro n hn he
    have htl := (hexUpper_spec n hn).2.2.2.2.2.2.2.2.2
    rw [he] at htl
    exact absurd htl (by decide)

theorem urlencode_no_tab (pairs : List (List Char × List Char)) :
    ∀ c ∈ urlencode pairs, tabCrLf c = false := by
  intro c hc
  by_contra hx
  have hx2 : tabCrLf c = true := by
    cases hcb : tabCrLf c
    · exact absurd hcb hx
    · rfl
  have hnm : c ∉ urlencode pairs := by
    refine urlencode_not_mem pairs ?_ ?_ ?_
    · intro s hcs
      have := qp_no_tab s c hcs
      rw [hx2] at this
      cases this
    · intro he
      rw [he] at hx2
      exact absurd hx2 (by decide)
    · intro he
      rw [he] at hx2
      exact absurd hx2 (by decide)
  exact hnm hc

theorem starts_slash_of_starts2 {path : List Char}
    (h : listStartsWith path ('/' :: '/' :: []) = true) :
    listStartsWith path ('/' :: []) = true := by
  rw [listStartsWith_iff] at h ⊢
  obtain ⟨t, ht⟩ := h
  exact ⟨'/' :: t, by rw [← ht]; rfl⟩

theorem urlunsplit_norm (scheme netloc path query : List Char) :
    urlunsplit scheme netloc
      (if netloc ≠ [] ∨
          (path ≠ [] ∧ listStartsWith path "//".toList = true) then
        (if path ≠ [] ∧ ¬ listStartsWith path "/".toList = true
         then '/' :: path else path)
       else path) query =
      urlunsplit scheme netloc path query := by
  by_cases hN : netloc ≠ [] ∨
      (path ≠ [] ∧ listStartsWith path "//".toList = true)
  · rw [if_pos hN]
    by_cases hP : path ≠ [] ∧ ¬ listStartsWith path "/".toList = true
    · rw [if_pos hP]
      simp only [urlunsplit]
      have hslash : listStartsWith ('/' :: path) "/".toList = true :=
        listStartsWith_iff.mpr ⟨path, rfl⟩
      have hN2 : netloc ≠ [] ∨ ('/' :: path ≠ [] ∧
          listStartsWith ('/' :: path) "//".toList = true) := by
        rcases hN with hn | ⟨_, hsw⟩
        · exact Or.inl hn
        · exact absurd (starts_slash_of_starts2 hsw) hP.2
      have hinner : ¬ ('/' :: path ≠ [] ∧
          ¬ listStartsWith ('/' :: path) "/".toList = true) :=
        fun hcon => absurd hslash hcon.2
      rw [if_pos hN2, if_neg hinner, if_pos hN, if_pos hP]
    · rw [if_neg hP]
  · rw [if_neg hN]

theorem canonicalize_reparse (scheme netloc path : List Char)
    (sorted : List (List Char × List Char))
    (hstrip : pyStrip (urlunsplit scheme netloc path (urlencode sorted)) =
      urlunsplit scheme netloc path (urlencode sorted))
    (hlow_s : pyLower scheme = scheme) (hs_ne : scheme ≠ [])
    (hs_all : scheme.all isSchemeChar = true)
    (hlow_n : pyLower netloc = netloc)
    (hn_prop : ∀ c ∈ netloc, ¬ c = '/' ∧ ¬ c = '?' ∧ ¬ c = '#')
    (hbr : ¬ (('[' ∈ netloc ∧ ¬ ']' ∈ netloc) ∨
      (']' ∈ netloc ∧ ¬ '[' ∈ netloc)))
    (hp_ne : path ≠ []) (hp_hash : '#' ∉ path) (hp_q : '?' ∉ path)
    (htab_s : ∀ c ∈ scheme, tabCrLf c = false)
    (htab_n : ∀ c ∈ netloc, tabCrLf c = false)
    (htab_p : ∀ c ∈ path, tabCrLf c = false)
    (hkeep : ∀ kv ∈ sorted,
      (¬ pyLower kv.1 ∈ drop_params : Prop)) (hsort : List.Sorted
      (fun a b => keyLe a b = true) sorted) :
    canonicalize_url (urlunsplit scheme netloc path (urlencode sorted)) =
      urlunsplit scheme netloc path (urlencode sorted) := by
  haveI : IsTotal (List Char × List Char) (fun a b => keyLe a b = true) :=
    ⟨keyLe_total⟩
  haveI : IsTrans (List Char × List Char) (fun a b => keyLe a b = true) :=
    ⟨keyLe_trans⟩
  rw [canonicalize_url, hstrip,
    urlsplit_canonical scheme netloc path (urlencode sorted) hs_ne hs_all
      hn_prop hbr hp_ne hp_hash hp_q
      (urlencode_not_mem sorted qp_no_hash (by decide) (by decide))
      htab_s htab_n htab_p (urlencode_no_tab sorted)]
  show urlunsplit
      (if pyLower (pyLower scheme) = [] then "https".toList
       else pyLower (pyLower scheme))
      (pyLower netloc)
      (if (if netloc ≠ [] ∨
            (path ≠ [] ∧ listStartsWith path "//".toList = true) then
          (if path ≠ [] ∧ ¬ listStartsWith path "/".toList = true
           then '/' :: path else path)
         else path) = [] then "/".toList
       else (if netloc ≠ [] ∨
            (path ≠ [] ∧ listStartsWith path "//".toList = true) then
          (if path ≠ [] ∧ ¬ listStartsWith path "/".toList = true
           then '/' :: path else path)
         else path))
      (urlencode (List.insertionSort (fun a b => keyLe a b = true)
        ((parse_qsl (urlencode sorted)).filter
          (fun kv => ¬ pyLower kv.1 ∈ drop_params)))) =
    urlunsplit scheme netloc path (urlencode sorted)
  rw [hlow_s, hlow_s, if_neg hs_ne, hlow_n]
  have hP'ne : (if netloc ≠ [] ∨
      (path ≠ [] ∧ listStartsWith path "//".toList = true) then
      (if path ≠ [] ∧ ¬ listStartsWith path "/".toList = true
       then '/' :: path else path)
     else path) ≠ [] := by
    by_cases hN : netloc ≠ [] ∨
        (path ≠ [] ∧ listStartsWith path "//".toList = true)
    · rw [if_pos hN]
      by_cases hP : path ≠ [] ∧ ¬ listStartsWith path "/".toList = true
      · rw [if_pos hP]
        exact List.cons_ne_nil _ _
      · rw [if_neg hP]
        exact hp_ne
    · rw [if_neg hN]
      exact hp_ne
  rw [if_neg hP'ne, parse_qsl_urlencode sorted,
    List.filter_eq_self.mpr (fun kv hkv => decide_eq_true (hkeep kv hkv)),
    hsort.insertionSort_eq]
  exact urlunsplit_norm scheme netloc path (urlencode sorted)

/-- C5 (amended): the spec's concrete example does collapse — tracking
params, the fragment and host casing are all normalized, so the two forms
agree — and `canonicalize_url` is idempotent on every URL whose canonical
form carries no leading/trailing whitespace (equivalently, is a `strip`
fixed point); the counterexample shows it is not idempotent in general,
because whitespace inside the path survives one pass and is stripped by
the next. -/
theorem C5_canonicalize_amended :
    (canonicalize_url "https://ex.com/a?utm_source=x&b=2#frag".toList =
      canonicalize_url "https://EX.com/a?b=2&utm_source=x".toList) ∧
    (∀ u : List Char, pyStrip (canonicalize_url u) = canonicalize_url u →
      canonicalize_url (canonicalize_url u) = canonicalize_url u) := by
  haveI : IsTotal (List Char × List Char) (fun a b => keyLe a b = true) :=
    ⟨keyLe_total⟩
  haveI : IsTrans (List Char × List Char) (fun a b => keyLe a b = true) :=
    ⟨keyLe_trans⟩
  refine ⟨by decide, ?_⟩
  intro u h
  rcases hsp : urlsplit (pyStrip u) with _ | parts
  · have hcu : canonicalize_url u = pyStrip u := by
      rw [canonicalize_url, hsp]
    rw [hcu] at h ⊢
    rw [canonicalize_url, h, hsp]
  · obtain ⟨hall, hnp, hbr, hph, hpq, hts, htn, htp⟩ := urlsplit_props hsp
    have hcu : canonicalize_url u = urlunsplit
        (if pyLower parts.scheme = [] then "https".toList
         else pyLower parts.scheme)
        (pyLower parts.netloc)
        (if parts.path = [] then "/".toList else parts.path)
        (urlencode (List.insertionSort (fun a b => keyLe a b = true)
          ((parse_qsl parts.query).filter
            (fun kv => ¬ pyLower kv.1 ∈ drop_params)))) := by
      rw [canonicalize_url, hsp]
    rw [hcu] at h ⊢
    refine canonicalize_reparse _ _ _ _ h ?_ ?_ ?_ ?_ ?_ ?_ ?_ ?_ ?_ ?_ ?_
      ?_ ?_ ?_
    · by_cases hcs : pyLower parts.scheme = []
      · rw [if_pos hcs]
        decide
      · rw [if_neg hcs]
        exact pyLower_idem parts.scheme
    · by_cases hcs : pyLower parts.scheme = []
      · rw [if_pos hcs]
        decide
      · rw [if_neg hcs]
        exact hcs
    · by_cases hcs : pyLower parts.scheme = []
      · rw [if_pos hcs]
        decide
      · rw [if_neg hcs]
        rw [List.all_eq_true]
        intro c hc
        obtain ⟨d, hd, hdc⟩ := List.mem_map.mp hc
        rw [← hdc]
        exact isSchemeChar_toLower (List.all_eq_true.mp hall d hd)
    · exact pyLower_idem parts.netloc
    · intro c hc
      obtain ⟨d, hd, hdc⟩ := List.mem_map.mp hc
      rw [← hdc]
      exact toLower_not3 (hnp d hd)
    · intro hcon
      apply hbr
      rcases hcon with ⟨h1, h2⟩ | ⟨h1, h2⟩
      · exact Or.inl ⟨(mem_pyLower_iff (by decide) (by decide)).mp h1,
          fun hm => h2 ((mem_pyLower_iff (by decide) (by decide)).mpr hm)⟩
      · exact Or.inr ⟨(mem_pyLower_iff (by decide) (by decide)).mp h1,
          fun hm => h2 ((mem_pyLower_iff (by decide) (by decide)).mpr hm)⟩
    · by_cases hp0 : parts.path = []
      · rw [if_pos hp0]
        decide
      · rw [if_neg hp0]
        exact hp0
    · by_cases hp0 : parts.path = []
      · rw [if_pos hp0]
        decide
      · rw [if_neg hp0]
        exact hph
    · by_cases hp0 : parts.path = []
      · rw [if_pos hp0]
        decide
      · rw [if_neg hp0]
        exact hpq
    · by_cases hcs : pyLower parts.scheme = []
      · rw [if_pos hcs]
        decide
      · rw [if_neg hcs]
        intro c hc
        obtain ⟨d, hd, hdc⟩ := List.mem_map.mp hc
        rw [← hdc]
        exact tabCrLf_toLower (hts d hd)
    · intro c hc
      obtain ⟨d, hd, hdc⟩ := List.mem_map.mp hc
      rw [← hdc]
      exact tabCrLf_toLower (htn d hd)
    · by_cases hp0 : parts.path = []
      · rw [if_pos hp0]
        decide
      · rw [if_neg hp0]
        exact htp
    · intro kv hkv
      have hmem : kv ∈ (parse_qsl parts.query).filter
          (fun kv => ¬ pyLower kv.1 ∈ drop_params) :=
        ((List.perm_insertionSort _ _).mem_iff).mp hkv
      exact of_decide_eq_true (List.mem_filter.mp hmem).2
    · exact List.sorted_insertionSort _ _

theorem C5_canonicalize_amended_witness :
    canonicalize_url (canonicalize_url
      "https://Ex.com/a?b=2&utm_source=x#f".toList) =
    canonicalize_url "https://Ex.com/a?b=2&utm_source=x#f".toList :=
  C5_canonicalize_amended.2 _ (by decide)

end DCNews
